import Mathlib

namespace ErasureCoding

/-! # Erasure-coded object store

A model of package store (src/store/store.go): New, Save, Get, parallelWrite, parallelRead
and findDisks, over a model of the file-system calls they make, together with the codec
they call through the interface reedsolomon.Encoder.

The codec is the package github.com/klauspost/reedsolomon that store.go imports (line 13)
and to which, in the words of the spec, the original delegates the codec. Its source is
not among the files of the repository. The five methods of reedsolomon.Encoder that the
store calls (New, Split, Encode, ReconstructData, Join) are therefore modelled, and the
three codec sections below (the field, the matrices, the encoder) hold that model. It
follows the description of the codec in the spec (the field GF(2^8) with its logarithm and
exponent tables, zero padding to k equal fragments, parity fragments from the last rows of
a Vandermonde-derived matrix whose first k rows are the identity, Gauss-Jordan inversion
of the rows that are present), laid out as the package lays it out, by file and function
name: galois.go (the tables, galAdd, galMultiply, galOneOver, galExp), matrix.go (newMatrix
up to vandermonde) and reedsolomon.go (buildMatrix, New, Split, Encode, ReconstructData,
Join, codeSomeShards, checkShards, shardSize). Where the spec leaves a choice open the
package is followed, because it is what Save and Get run: the generating polynomial is
0x11d; the Vandermonde matrix has the entries r^c for r = 0, 1, 2, ... and is multiplied
by the inverse of its top square, which is what makes the first k rows the identity; and
Join writes as many bytes as its caller asks for, the caller being Get. What the codec
does with an empty input is not settled by the files of the repository, and no property
below is about an empty input.

Conventions. A Go int that counts something is a natural number; a byte is a natural
number below 256; a slice is a list, the nil slice and the empty slice both being the
empty list; a Go function that returns an error returns an Except value or an error
component; an index that Go would reject with a panic is either made explicit (writeTask)
or cannot be reached, and is then read with a default value.

The first section holds bytes and the field GF(2^8). -/

/-- A Go byte: an unsigned integer below 256. -/
structure Byte where
  val : Nat
  lt : val < 256
deriving DecidableEq

/-- Conversion of an integer to a byte, keeping the low eight bits. -/
def byte (n : Nat) : Byte := ⟨n % 256, Nat.mod_lt _ (by decide)⟩

/-- Table of logarithms to the base 2 in the field, indexed by the byte (logTable of
galois.go); the entry for 0 is never used. -/
def logTable : List Nat := [
  0, 0, 1, 25, 2, 50, 26, 198, 3, 223, 51, 238, 27, 104, 199, 75,
  4, 100, 224, 14, 52, 141, 239, 129, 28, 193, 105, 248, 200, 8, 76, 113,
  5, 138, 101, 47, 225, 36, 15, 33, 53, 147, 142, 218, 240, 18, 130, 69,
  29, 181, 194, 125, 106, 39, 249, 185, 201, 154, 9, 120, 77, 228, 114, 166,
  6, 191, 139, 98, 102, 221, 48, 253, 226, 152, 37, 179, 16, 145, 34, 136,
  54, 208, 148, 206, 143, 150, 219, 189, 241, 210, 19, 92, 131, 56, 70, 64,
  30, 66, 182, 163, 195, 72, 126, 110, 107, 58, 40, 84, 250, 133, 186, 61,
  202, 94, 155, 159, 10, 21, 121, 43, 78, 212, 229, 172, 115, 243, 167, 87,
  7, 112, 192, 247, 140, 128, 99, 13, 103, 74, 222, 237, 49, 197, 254, 24,
  227, 165, 153, 119, 38, 184, 180, 124, 17, 68, 146, 217, 35, 32, 137, 46,
  55, 63, 209, 91, 149, 188, 207, 205, 144, 135, 151, 178, 220, 252, 190, 97,
  242, 86, 211, 171, 20, 42, 93, 158, 132, 60, 57, 83, 71, 109, 65, 162,
  31, 45, 67, 216, 183, 123, 164, 118, 196, 23, 73, 236, 127, 12, 111, 246,
  108, 161, 59, 82, 41, 157, 85, 170, 251, 96, 134, 177, 187, 204, 62, 90,
  203, 89, 95, 176, 156, 169, 160, 81, 11, 245, 22, 235, 122, 117, 44, 215,
  79, 174, 213, 233, 230, 231, 173, 232, 116, 214, 244, 234, 168, 80, 88, 175]

/-- Table of the powers of 2 in the field (expTable of galois.go): two periods of 255
entries, so that the sum of two logarithms indexes it directly. -/
def expTable : List Nat := [
  1, 2, 4, 8, 16, 32, 64, 128, 29, 58, 116, 232, 205, 135, 19, 38,
  76, 152, 45, 90, 180, 117, 234, 201, 143, 3, 6, 12, 24, 48, 96, 192,
  157, 39, 78, 156, 37, 74, 148, 53, 106, 212, 181, 119, 238, 193, 159, 35,
  70, 140, 5, 10, 20, 40, 80, 160, 93, 186, 105, 210, 185, 111, 222, 161,
  95, 190, 97, 194, 153, 47, 94, 188, 101, 202, 137, 15, 30, 60, 120, 240,
  253, 231, 211, 187, 107, 214, 177, 127, 254, 225, 223, 163, 91, 182, 113, 226,
  217, 175, 67, 134, 17, 34, 68, 136, 13, 26, 52, 104, 208, 189, 103, 206,
  129, 31, 62, 124, 248, 237, 199, 147, 59, 118, 236, 197, 151, 51, 102, 204,
  133, 23, 46, 92, 184, 109, 218, 169, 79, 158, 33, 66, 132, 21, 42, 84,
  168, 77, 154, 41, 82, 164, 85, 170, 73, 146, 57, 114, 228, 213, 183, 115,
  230, 209, 191, 99, 198, 145, 63, 126, 252, 229, 215, 179, 123, 246, 241, 255,
  227, 219, 171, 75, 150, 49, 98, 196, 149, 55, 110, 220, 165, 87, 174, 65,
  130, 25, 50, 100, 200, 141, 7, 14, 28, 56, 112, 224, 221, 167, 83, 166,
  81, 162, 89, 178, 121, 242, 249, 239, 195, 155, 43, 86, 172, 69, 138, 9,
  18, 36, 72, 144, 61, 122, 244, 245, 247, 243, 251, 235, 203, 139, 11, 22,
  44, 88, 176, 125, 250, 233, 207, 131, 27, 54, 108, 216, 173, 71, 142, 1,
  2, 4, 8, 16, 32, 64, 128, 29, 58, 116, 232, 205, 135, 19, 38, 76,
  152, 45, 90, 180, 117, 234, 201, 143, 3, 6, 12, 24, 48, 96, 192, 157,
  39, 78, 156, 37, 74, 148, 53, 106, 212, 181, 119, 238, 193, 159, 35, 70,
  140, 5, 10, 20, 40, 80, 160, 93, 186, 105, 210, 185, 111, 222, 161, 95,
  190, 97, 194, 153, 47, 94, 188, 101, 202, 137, 15, 30, 60, 120, 240, 253,
  231, 211, 187, 107, 214, 177, 127, 254, 225, 223, 163, 91, 182, 113, 226, 217,
  175, 67, 134, 17, 34, 68, 136, 13, 26, 52, 104, 208, 189, 103, 206, 129,
  31, 62, 124, 248, 237, 199, 147, 59, 118, 236, 197, 151, 51, 102, 204, 133,
  23, 46, 92, 184, 109, 218, 169, 79, 158, 33, 66, 132, 21, 42, 84, 168,
  77, 154, 41, 82, 164, 85, 170, 73, 146, 57, 114, 228, 213, 183, 115, 230,
  209, 191, 99, 198, 145, 63, 126, 252, 229, 215, 179, 123, 246, 241, 255, 227,
  219, 171, 75, 150, 49, 98, 196, 149, 55, 110, 220, 165, 87, 174, 65, 130,
  25, 50, 100, 200, 141, 7, 14, 28, 56, 112, 224, 221, 167, 83, 166, 81,
  162, 89, 178, 121, 242, 249, 239, 195, 155, 43, 86, 172, 69, 138, 9, 18,
  36, 72, 144, 61, 122, 244, 245, 247, 243, 251, 235, 203, 139, 11, 22, 44,
  88, 176, 125, 250, 233, 207, 131, 27, 54, 108, 216, 173, 71, 142]

/-- Addition in the field: the exclusive or of the two bytes. -/
def galAdd (a b : Byte) : Byte := byte (a.val ^^^ b.val)

/-- Multiplication in the field: zero when a factor is zero, otherwise the power of 2
whose exponent is the sum of the two logarithms. -/
def galMultiply (a b : Byte) : Byte :=
  if a.val = 0 ∨ b.val = 0 then byte 0
  else byte (expTable.getD (logTable.getD a.val 0 + logTable.getD b.val 0) 0)

/-- Inverse in the field: expTable[logTable[a] xor 255]; the caller passes a non-zero a. -/
def galOneOver (a : Byte) : Byte :=
  byte (expTable.getD (logTable.getD a.val 0 ^^^ 255) 0)

/-- The n-th power of a: 1 when n is 0, 0 when a is 0, otherwise the power of 2 whose
exponent is n times the logarithm of a, reduced below 255. -/
def galExp (a : Byte) (n : Nat) : Byte :=
  if n = 0 then byte 1
  else if a.val = 0 then byte 0
  else byte (expTable.getD ((logTable.getD a.val 0 * n) % 255) 0)

/-- Errors that the codec returns (the error values of package reedsolomon that its
functions modelled here can produce). -/
inductive CodecError where
  | errInvShardNum
  | errMaxShardNum
  | errShortData
  | errTooFewShards
  | errShardNoData
  | errShardSize
  | errReconstructRequired
  | errSingular
  | errInvalidRowSize
  | errInvalidColSize
  | errNotSquare
  | errMatrixSize
  | errColSizeMismatch
deriving DecidableEq

deriving instance DecidableEq for Except

/-! ## Matrices over the field (matrix.go of the codec package) -/

/-- A matrix of bytes, as a list of rows (type matrix of matrix.go). -/
abbrev matrix := List (List Byte)

/-- Row r of a matrix, or shard r of a list of shards: m[r]. -/
def rowAt (m : matrix) (r : Nat) : List Byte := m.getD r []

/-- Element m[r][c]. -/
def entry (m : matrix) (r c : Nat) : Byte := (rowAt m r).getD c (byte 0)

/-- A rows by cols matrix of zeros; both sizes must be positive. -/
def newMatrix (rows cols : Nat) : Except CodecError matrix :=
  if rows = 0 then .error .errInvalidRowSize
  else if cols = 0 then .error .errInvalidColSize
  else .ok (List.replicate rows (List.replicate cols (byte 0)))

/-- The identity matrix of the given size. -/
def identityMatrix (size : Nat) : Except CodecError matrix := do
  let m ← newMatrix size size
  pure (m.mapIdx fun i row => row.set i (byte 1))

/-- Product of two matrices: element (r, c) is the sum over i of m[r][i] * right[i][c]. -/
def Multiply (m right : matrix) : Except CodecError matrix :=
  if (rowAt m 0).length ≠ right.length then .error .errColSizeMismatch
  else do
    let result ← newMatrix m.length (rowAt right 0).length
    pure (result.mapIdx fun r row => row.mapIdx fun c _ =>
      (List.range (rowAt m 0).length).foldl
        (fun value i => galAdd value (galMultiply (entry m r i) (entry right i c))) (byte 0))

/-- The matrix m with the columns of right appended to each row. -/
def Augment (m right : matrix) : Except CodecError matrix :=
  if m.length ≠ right.length then .error .errMatrixSize
  else do
    let result ← newMatrix m.length ((rowAt m 0).length + (rowAt right 0).length)
    pure (result.mapIdx fun r row => row.mapIdx fun c _ =>
      if c < (rowAt m 0).length then entry m r c else entry right r (c - (rowAt m 0).length))

/-- The part of m with rows rmin up to rmax and columns cmin up to cmax (both exclusive
at the upper end). -/
def SubMatrix (m : matrix) (rmin cmin rmax cmax : Nat) : Except CodecError matrix := do
  let result ← newMatrix (rmax - rmin) (cmax - cmin)
  pure (result.mapIdx fun r row => row.mapIdx fun c _ => entry m (rmin + r) (cmin + c))

/-- Exchange of rows r1 and r2 (called with indices in range). -/
def SwapRows (m : matrix) (r1 r2 : Nat) : matrix :=
  (m.set r1 (rowAt m r2)).set r2 (rowAt m r1)

/-- Search of the rows below r for the first one with a non-zero element in column r. -/
def findBelow (m : matrix) (r : Nat) : Option Nat :=
  (List.range' (r + 1) (m.length - (r + 1))).find? fun rowBelow => entry m rowBelow r ≠ byte 0

/-- The row with scale times the source row added to it, element by element. -/
def addScaled (scale : Byte) (row src : List Byte) : List Byte :=
  List.zipWith (fun x p => galAdd x (galMultiply scale p)) row src

/-- First part of one round of the elimination: when the diagonal element is zero, the
first row below with a non-zero element in that column is swapped in. -/
def swapPivot (m : matrix) (r : Nat) : matrix :=
  if entry m r r = byte 0 then
    match findBelow m r with
    | some rowBelow => SwapRows m r rowBelow
    | none => m
  else m

/-- Second part: the pivot row is scaled so that the diagonal element becomes one. -/
def scalePivot (m : matrix) (r : Nat) : matrix :=
  if entry m r r ≠ byte 1 then
    m.set r ((rowAt m r).map fun x => galMultiply x (galOneOver (entry m r r)))
  else m

/-- Third part: a multiple of the pivot row is added to every row below it that has a
non-zero element in the pivot column. -/
def clearBelow (m : matrix) (r : Nat) : matrix :=
  m.mapIdx fun rowBelow row =>
    if r < rowBelow ∧ row.getD r (byte 0) ≠ byte 0 then
      addScaled (row.getD r (byte 0)) row (rowAt m r)
    else row

/-- One round of the first loop of gaussianElimination, for the diagonal position r. -/
def pivotRow (m : matrix) (r : Nat) : Except CodecError matrix :=
  let m1 := swapPivot m r
  if entry m1 r r = byte 0 then .error .errSingular
  else .ok (clearBelow (scalePivot m1 r) r)

/-- One round of the second loop of gaussianElimination: a multiple of row d is added
to every row above it that has a non-zero element in column d. -/
def clearAbove (m : matrix) (d : Nat) : matrix :=
  m.mapIdx fun rowAbove row =>
    if rowAbove < d ∧ row.getD d (byte 0) ≠ byte 0 then
      addScaled (row.getD d (byte 0)) row (rowAt m d)
    else row

/-- Gauss-Jordan elimination: the first loop goes down the diagonal (pivotRow) and fails
with a singular-matrix error when no pivot is found, the second clears what lies above
the diagonal. -/
def gaussianElimination (m : matrix) : Except CodecError matrix := do
  let m1 ← (List.range m.length).foldlM pivotRow m
  pure ((List.range m.length).foldl clearAbove m1)

/-- Inverse of a square matrix: the matrix is augmented with the identity, eliminated,
and the right half is returned. -/
def Invert (m : matrix) : Except CodecError matrix :=
  if m.length ≠ (rowAt m 0).length then .error .errNotSquare
  else do
    let size := m.length
    let work ← identityMatrix size
    let work ← Augment m work
    let work ← gaussianElimination work
    SubMatrix work 0 size size (size * 2)

/-- The Vandermonde matrix whose element (r, c) is r to the power c. -/
def vandermonde (rows cols : Nat) : Except CodecError matrix := do
  let result ← newMatrix rows cols
  pure (result.mapIdx fun r row => row.mapIdx fun c _ => galExp (byte r) c)

/-- The coding matrix: the Vandermonde matrix times the inverse of its top square, so
that its first dataShards rows are the identity. -/
def buildMatrix (dataShards totalShards : Nat) : Except CodecError matrix := do
  let vm ← vandermonde totalShards dataShards
  let top ← SubMatrix vm 0 0 dataShards dataShards
  let topInv ← Invert top
  Multiply vm topInv

/-! ## The encoder (reedsolomon.go of the codec package) -/

/-- State of an encoder built by reedsolomon.New: the shard counts, the coding matrix and
its parity rows. -/
structure reedSolomon where
  dataShards : Nat
  parityShards : Nat
  totalShards : Nat
  m : matrix
  parity : matrix
deriving DecidableEq

namespace reedsolomon

/-- Modelled from the spec: the constructor reedsolomon.New of the codec package, whose
source is not in the repository (default options). The number of data shards must be
positive and the total at most 256. The Go arguments are ints; a negative number of
shards, which New rejects, is not represented. -/
def New (dataShards parityShards : Nat) : Except CodecError reedSolomon :=
  if dataShards = 0 then .error .errInvShardNum
  else if dataShards + parityShards > 256 then .error .errMaxShardNum
  else if parityShards = 0 then
    .ok { dataShards := dataShards, parityShards := parityShards,
          totalShards := dataShards + parityShards, m := [], parity := [] }
  else do
    let m ← buildMatrix dataShards (dataShards + parityShards)
    pure { dataShards := dataShards, parityShards := parityShards,
           totalShards := dataShards + parityShards, m := m,
           parity := (List.range parityShards).map fun i => rowAt m (dataShards + i) }

end reedsolomon

/-- Size of a single shard: the first non-zero length, or 0 when all shards are empty. -/
def shardSize (shards : List (List Byte)) : Nat :=
  match shards.find? fun shard => shard.length ≠ 0 with
  | some shard => shard.length
  | none => 0

/-- Check of the shard sizes: an error when all shards are empty, or when a shard differs
in length from the others; an empty shard is let through when nilok is set. -/
def checkShards (shards : List (List Byte)) (nilok : Bool) : Except CodecError Unit :=
  let size := shardSize shards
  if size = 0 then .error .errShardNoData
  else if shards.all fun shard => decide (shard.length = size) || (decide (shard.length = 0) && nilok)
  then .ok ()
  else .error .errShardSize

/-- Product of a slice with a constant, written over the start of `out`. -/
def galMulSlice (c : Byte) (inp out : List Byte) : List Byte :=
  inp.map (fun x => galMultiply c x) ++ out.drop inp.length

/-- Product of a slice with a constant, added onto the start of `out`. -/
def galMulSliceXor (c : Byte) (inp out : List Byte) : List Byte :=
  List.zipWith (fun x o => galAdd o (galMultiply c x)) inp out ++ out.drop inp.length

namespace reedSolomon

/-- Multiplication of the input shards by the given matrix rows into the outputs: input c
times element (iRow, c) is written to output iRow for c = 0 and added to it afterwards.
The package goes through the shards in blocks of bytes; the result is the same. -/
def codeSomeShards (r : reedSolomon) (matrixRows inputs outputs : List (List Byte)) :
    List (List Byte) :=
  (List.range r.dataShards).foldl (fun outs c =>
    outs.mapIdx fun iRow out =>
      if c = 0 then galMulSlice (entry matrixRows iRow c) (rowAt inputs c) out
      else galMulSliceXor (entry matrixRows iRow c) (rowAt inputs c) out) outputs

/-- Modelled from the spec: the method Split of the codec package, whose source is not in
the repository. The data is cut into totalShards shards of equal length, as the spec words
encode: it is padded with zero bytes to dataShards times the shard length
ceil(len / dataShards), and cut; the shards beyond the data are zero. Every property below
is about a non-empty input. -/
def Split (r : reedSolomon) (data : List Byte) : Except CodecError (List (List Byte)) :=
  if r.totalShards = 1 then .ok [data]
  else
    let perShard := (data.length + r.dataShards - 1) / r.dataShards
    let needTotal := r.totalShards * perShard
    let padded := data ++ List.replicate (needTotal - data.length) (byte 0)
    .ok ((List.range r.totalShards).map fun i => (padded.drop (i * perShard)).take perShard)

/-- Modelled from the spec: the method Encode of the codec package, whose source is not in
the repository. The parity shards are computed from the data shards and put in their
places; the number of shards and their sizes are checked first. -/
def Encode (r : reedSolomon) (shards : List (List Byte)) : Except CodecError (List (List Byte)) :=
  if shards.length ≠ r.totalShards then .error .errTooFewShards
  else
    match checkShards shards false with
    | .error e => .error e
    | .ok _ =>
      .ok (shards.take r.dataShards ++
        r.codeSomeShards r.parity (shards.take r.dataShards)
          ((shards.drop r.dataShards).take r.parityShards) ++
        shards.drop (r.dataShards + r.parityShards))

/-- Modelled from the spec: the method ReconstructData of the codec package (reconstruct
with dataOnly set), whose source is not in the repository. The shards of length zero are
the missing ones. Nothing is done when all shards, or all data shards, are present; fewer
than dataShards present shards is an error; otherwise the matrix rows of the first
dataShards present shards are inverted and the missing data shards are computed from
those shards. The cache of inverted matrices is left out: it does not change a result. -/
def ReconstructData (r : reedSolomon) (shards : List (List Byte)) :
    Except CodecError (List (List Byte)) :=
  if shards.length ≠ r.totalShards then .error .errTooFewShards
  else
    match checkShards shards true with
    | .error e => .error e
    | .ok _ =>
      let size := shardSize shards
      let numberPresent :=
        ((List.range r.totalShards).filter fun i => (rowAt shards i).length ≠ 0).length
      let dataPresent :=
        ((List.range r.dataShards).filter fun i => (rowAt shards i).length ≠ 0).length
      if numberPresent = r.totalShards ∨ dataPresent = r.dataShards then .ok shards
      else if numberPresent < r.dataShards then .error .errTooFewShards
      else
        let validIndices :=
          ((List.range r.totalShards).filter fun i => (rowAt shards i).length ≠ 0).take
            r.dataShards
        let subShards := validIndices.map fun i => rowAt shards i
        let subMatrix := validIndices.map fun i =>
          (List.range r.dataShards).map fun c => entry r.m i c
        match Invert subMatrix with
        | .error e => .error e
        | .ok dataDecodeMatrix =>
          let missing := (List.range r.dataShards).filter fun i => (rowAt shards i).length = 0
          let matrixRows := missing.map fun i => rowAt dataDecodeMatrix i
          let outputs := r.codeSomeShards matrixRows subShards
            (missing.map fun _ => List.replicate size (byte 0))
          .ok ((missing.zip outputs).foldl (fun sh p => sh.set p.1 p.2) shards)

/-- The writing loop of Join: whole shards until `write` bytes are out, the last one cut. -/
def joinWrite : List (List Byte) → Nat → List Byte → List Byte
  | [], _, dst => dst
  | shard :: rest, write, dst =>
    if write < shard.length then dst ++ shard.take write
    else joinWrite rest (write - shard.length) (dst ++ shard)

/-- The size check of Join over the data shards. -/
def joinSize : List (List Byte) → Nat → Nat → Except CodecError Nat
  | [], size, _ => .ok size
  | shard :: rest, size, outSize =>
    if shard.length = 0 then .error .errReconstructRequired
    else if size + shard.length ≥ outSize then .ok (size + shard.length)
    else joinSize rest (size + shard.length) outSize

/-- Modelled from the spec: the method Join of the codec package, whose source is not in
the repository. The data shards are written one after another to dst until outSize bytes
are out. The writer is a list of bytes to which the written bytes are appended; writing to
it does not fail. -/
def Join (r : reedSolomon) (dst : List Byte) (shards : List (List Byte)) (outSize : Nat) :
    List Byte × Option CodecError :=
  if shards.length < r.dataShards then (dst, some .errTooFewShards)
  else
    match joinSize (shards.take r.dataShards) 0 outSize with
    | .error e => (dst, some e)
    | .ok size =>
      if size < outSize then (dst, some .errShortData)
      else (joinWrite (shards.take r.dataShards) outSize dst, none)

end reedSolomon

/-! ## Operating-system interface

The calls of packages os, io and errors that the store makes, over a file system given
by what lives at each path. A path is a string; filepath.Join and filepath.Clean are
modelled for paths with the separator of Unix. Permissions, links and partly written
files are left out: a call fails only for the reasons given with it, or because the
device of a file is marked as failing. -/

/-- Errors of file-system calls. -/
inductive IOError where
  | notExist (path : String)
  | isDirectory (path : String)
  | notDirectory (path : String)
  | fault (path : String)
  | stream
deriving DecidableEq

/-- Values of the Go `error` type that the store can return (other than nil). -/
inductive Err where
  | io (e : IOError)
  | codec (e : CodecError)
  | noDisksFound
  | notEnoughDirectories
  | failedToFindDisks (e : Err)
  | failedToReconstruct (unread total : Nat) (e : Err)
  | joined (errs : List IOError)
deriving DecidableEq

/-- What a call hands back: the nil error, an error, or a run-time panic. -/
inductive Ret where
  | nil
  | err (e : Err)
  | panic
deriving DecidableEq

/-- What a path names: a directory or a regular file with its content. -/
inductive Node where
  | dir
  | file (content : List Byte)
deriving DecidableEq

/-- One entry of a directory listing (fs.DirEntry): its name and whether it is a
directory. -/
structure DirEntry where
  name : String
  isDir : Bool
deriving DecidableEq

/-- File-system state: what lives at each path, the listing of each directory, the files
whose device rejects writes or reads, and the log of the Write calls made so far. -/
structure FS where
  node : String → Option Node
  entries : String → List DirEntry
  writeFault : String → Bool
  readFault : String → Bool
  writes : List (String × List Byte)

/-- The elements of a path: the runs of characters between separators. -/
def splitPath : List Char → List (List Char)
  | [] => [[]]
  | c :: cs =>
    if c = '/' then [] :: splitPath cs
    else
      match splitPath cs with
      | [] => [[c]]
      | e :: es => (c :: e) :: es

/-- One round of the loop of Clean, the elements kept so far with the last one first: an
empty element and a dot are dropped, a double dot takes the last element away when that is
a name, is dropped at the root, and is kept otherwise; a name is kept. -/
def cleanStep (rooted : Bool) (out : List (List Char)) (e : List Char) : List (List Char) :=
  if e = [] ∨ e = ['.'] then out
  else if e = ['.', '.'] then
    match out with
    | [] => if rooted then [] else [e]
    | top :: rest => if top = ['.', '.'] then e :: out else rest
  else e :: out

/-- The elements written one after another with a separator between them. -/
def joinSep : List (List Char) → List Char
  | [] => []
  | [e] => e
  | e :: es => e ++ '/' :: joinSep es

/-- The path that Clean writes for the elements kept. -/
def renderPath (rooted : Bool) (out : List (List Char)) : List Char :=
  if rooted then '/' :: joinSep out
  else if out = [] then ['.'] else joinSep out

/-- Whether a path starts at the root. -/
def isRooted (p : List Char) : Bool := p.head? = some '/'

/-- The function filepath.Clean on the characters of a non-empty path. -/
def cleanChars (p : List Char) : List Char :=
  renderPath (isRooted p) ((splitPath p).foldl (cleanStep (isRooted p)) []).reverse

/-- The function filepath.Clean (Unix): the shortest path naming the same place by lexical
processing; the empty path becomes a dot. -/
def Clean (path : String) : String :=
  if path.data = [] then "." else ⟨cleanChars path.data⟩

/-- The function filepath.Join: the elements from the first non-empty one on, joined with
separators and cleaned; the empty string when every element is empty. -/
def filepath_Join (elem : List String) : String :=
  match elem.dropWhile fun e => decide (e.data = []) with
  | [] => ""
  | e :: es => Clean ⟨joinSep ((e :: es).map String.data)⟩

/-- The file system with the given node put at a path. -/
def FS.setNode (fs : FS) (path : String) (n : Node) : FS :=
  { fs with node := fun p => if p = path then some n else fs.node p }

/-- Removal of the file at a path (os.Remove), used to take a target's shard away. -/
def FS.remove (fs : FS) (path : String) : FS :=
  { fs with node := fun p => if p = path then none else fs.node p }

/-- Length of the file found at a path, 0 when there is none. -/
def FS.sizeAt (fs : FS) (path : String) : Nat :=
  match fs.node path with
  | some (.file content) => content.length
  | _ => 0

/-- Stat of a path: only existence is observed. -/
def os_Stat (fs : FS) (path : String) : FS × Except IOError Unit :=
  match fs.node path with
  | none => (fs, .error (.notExist path))
  | some _ => (fs, .ok ())

/-- ReadDir of a path: the listing of a directory. -/
def os_ReadDir (fs : FS) (path : String) : FS × Except IOError (List DirEntry) :=
  match fs.node path with
  | none => (fs, .error (.notExist path))
  | some (.file _) => (fs, .error (.notDirectory path))
  | some .dir => (fs, .ok (fs.entries path))

/-- MkdirAll on a path: nothing to do for a directory, an error over a file. -/
def os_MkdirAll (fs : FS) (path : String) : FS × Except IOError Unit :=
  match fs.node path with
  | some (.file _) => (fs, .error (.notDirectory path))
  | some .dir => (fs, .ok ())
  | none => (fs.setNode path .dir, .ok ())

/-- OpenFile with O_CREATE|O_WRONLY: the file is created empty when missing and is not
truncated when present; the handle (the path) starts at offset 0. -/
def os_OpenFile_create (fs : FS) (path : String) : FS × Except IOError String :=
  match fs.node path with
  | some .dir => (fs, .error (.isDirectory path))
  | some (.file _) => (fs, .ok path)
  | none => (fs.setNode path (.file []), .ok path)

/-- OpenFile with O_RDONLY. -/
def os_OpenFile_rdonly (fs : FS) (path : String) : FS × Except IOError String :=
  match fs.node path with
  | none => (fs, .error (.notExist path))
  | some _ => (fs, .ok path)

/-- One Write call on a fresh handle: the bytes replace the start of the file and what
lies beyond them stays. A rejected write leaves the file as it was. -/
def file_Write (fs : FS) (path : String) (data : List Byte) : FS × Except IOError Unit :=
  let fs1 := { fs with writes := fs.writes ++ [(path, data)] }
  if fs.writeFault path then (fs1, .error (.fault path))
  else
    match fs.node path with
    | some (.file old) => (fs1.setNode path (.file (data ++ old.drop data.length)), .ok ())
    | _ => (fs1, .error (.notExist path))

/-- ReadAll on a handle opened for reading. -/
def io_ReadAll (fs : FS) (path : String) : Except IOError (List Byte) :=
  match fs.node path with
  | none => .error (.notExist path)
  | some .dir => .error (.isDirectory path)
  | some (.file content) => if fs.readFault path then .error (.fault path) else .ok content

/-- Join of the collected errors: nil when there is none. -/
def errors_Join (errs : List IOError) : Ret :=
  if errs.isEmpty then .nil else .err (.joined errs)

/-! ## Package store -/

/-- Path of the shard file of an object under a target, as Save builds it (store.go:62 and
66): the directory is the target joined with the name, the file is that joined with
shard. Get joins the three in one call (store.go:81), which gives the same path. -/
def shardPath (disk name : String) : String :=
  filepath_Join [filepath_Join [disk, name], "shard"]

/-- The store (type Store, store.go:16): the encoder, the target directories, k and n. -/
structure Store where
  encoder : reedSolomon
  disks : List String
  k : Nat
  n : Nat
deriving DecidableEq

/-- The function findDisks (store.go:164): the child directories of baseDir, joined to it, in
listing order; an error when baseDir does not exist or cannot be listed, or when it has no
child directory. -/
def findDisks (fs : FS) (baseDir : String) : FS × Except Err (List String) :=
  match os_Stat fs baseDir with
  | (fs, .error (.notExist p)) => (fs, .error (.io (.notExist p)))
  | (fs, _) =>
    match os_ReadDir fs baseDir with
    | (fs, .error e) => (fs, .error (.io e))
    | (fs, .ok entries) =>
      let disks := (entries.filter fun entry => entry.isDir).map fun entry =>
        filepath_Join [baseDir, entry.name]
      if disks.length = 0 then (fs, .error .noDisksFound)
      else (fs, .ok disks)

/-- The function New (store.go:23): the encoder for k and n, the targets found under baseDir,
and an error when there are fewer than k + n of them. -/
def New (k n : Nat) (baseDir : String) (fs : FS) : FS × Except Err Store :=
  match reedsolomon.New k n with
  | .error e => (fs, .error (.codec e))
  | .ok enc =>
    match findDisks fs baseDir with
    | (fs, .error e) => (fs, .error (.failedToFindDisks e))
    | (fs, .ok disks) =>
      if disks.length < k + n then (fs, .error .notEnoughDirectories)
      else (fs, .ok { encoder := enc, disks := disks, k := k, n := n })

/-- State of the goroutines of parallelWrite: the file system, the errors sent to the
channel so far, and whether one of them has panicked. -/
structure WriteState where
  fs : FS
  errs : List IOError
  panicked : Bool

/-- Body of one goroutine of parallelWrite (store.go:107): a nil writer is skipped; the
fragment data[i] is taken, which panics when i is out of range; a failed Write sends its
error. Once a goroutine has panicked the program is over and the others do nothing. -/
def writeTask (writers : List (Option String)) (data : List (List Byte)) (st : WriteState)
    (i : Nat) : WriteState :=
  if st.panicked then st
  else
    match writers.getD i none with
    | none => st
    | some writer =>
      if h : i < data.length then
        match file_Write st.fs writer data[i] with
        | (fs, .error e) => { st with fs := fs, errs := st.errs ++ [e] }
        | (fs, .ok _) => { st with fs := fs }
      else { st with panicked := true }

/-- The fan-out of parallelWrite (store.go:102) under a schedule: the order in which the
goroutines, one per writer, run to completion. The errors are joined in the order in which
they were sent. -/
def parallelWrite (sched : List Nat) (writers : List (Option String)) (data : List (List Byte))
    (fs : FS) : FS × Ret :=
  let st := sched.foldl (writeTask writers data) { fs := fs, errs := [], panicked := false }
  if st.panicked then (st.fs, .panic) else (st.fs, errors_Join st.errs)

/-- State of the goroutines of parallelRead: the result slots and the errors sent. -/
structure ReadState where
  data : List (List Byte)
  errs : List IOError

/-- Body of one goroutine of parallelRead (store.go:138): a nil reader is skipped, a
failed read sends its error, a successful one fills slot i. -/
def readTask (fs : FS) (readers : List (Option String)) (st : ReadState) (i : Nat) :
    ReadState :=
  match readers.getD i none with
  | none => st
  | some reader =>
    match io_ReadAll fs reader with
    | .error e => { st with errs := st.errs ++ [e] }
    | .ok b => { st with data := st.data.set i b }

/-- The fan-out of parallelRead (store.go:132) under a schedule: the order in which the
goroutines, one per reader, run to completion. The slots start as nil slices. -/
def parallelRead (sched : List Nat) (fs : FS) (readers : List (Option String)) :
    List (List Byte) × Ret :=
  let st := sched.foldl (readTask fs readers)
    { data := List.replicate readers.length [], errs := [] }
  (st.data, errors_Join st.errs)

/-- The loop of Save (store.go:61) that creates the directory of each target and opens its
shard file, returning at the first error. -/
def openWriters (name : String) : List String → FS → List (Option String) →
    FS × Except Err (List (Option String))
  | [], fs, writers => (fs, .ok writers)
  | disk :: rest, fs, writers =>
    let dir := filepath_Join [disk, name]
    match os_MkdirAll fs dir with
    | (fs, .error e) => (fs, .error (.io e))
    | (fs, .ok _) =>
      match os_OpenFile_create fs (filepath_Join [dir, "shard"]) with
      | (fs, .error e) => (fs, .error (.io e))
      | (fs, .ok f) => openWriters name rest fs (writers ++ [some f])

/-- The method Save (store.go:46). The reader is given by what ReadAll returns from it:
its bytes or an error. The result is the file system afterwards and the value returned. -/
def Store.Save (s : Store) (sched : List Nat) (name : String)
    (r : Except IOError (List Byte)) (fs : FS) : FS × Ret :=
  match r with
  | .error e => (fs, .err (.io e))
  | .ok b =>
    match s.encoder.Split b with
    | .error e => (fs, .err (.codec e))
    | .ok encoded =>
      match s.encoder.Encode encoded with
      | .error e => (fs, .err (.codec e))
      | .ok encoded =>
        match openWriters name s.disks fs [] with
        | (fs, .error e) => (fs, .err e)
        | (fs, .ok writers) => parallelWrite sched writers encoded fs

/-- The loop of Get (store.go:80) that opens the shard file of each target for reading; a
failure leaves a nil reader and is counted. -/
def openReaders (name : String) : List String → FS → List (Option String) → Nat →
    List (Option String) × Nat
  | [], _, readers, unread => (readers, unread)
  | disk :: rest, fs, readers, unread =>
    match os_OpenFile_rdonly fs (filepath_Join [disk, name, "shard"]) with
    | (_, .error _) => openReaders name rest fs (readers ++ [none]) (unread + 1)
    | (_, .ok f) => openReaders name rest fs (readers ++ [some f]) unread

/-- The method Get (store.go:76). The output writer is the list of bytes written to it so
far, to which Join appends; the result is that list afterwards and the value returned. -/
def Store.Get (s : Store) (sched : List Nat) (name : String) (w : List Byte) (fs : FS) :
    List Byte × Ret :=
  let (readers, unread) := openReaders name s.disks fs [] 0
  match parallelRead sched fs readers with
  | (_, .err e) => (w, .err e)
  | (_, .panic) => (w, .panic)
  | (shards, .nil) =>
    match s.encoder.ReconstructData shards with
    | .error e => (w, .err (.failedToReconstruct unread s.disks.length (.codec e)))
    | .ok shards =>
      match s.encoder.Join w shards ((rowAt shards 0).length * s.k) with
      | (w, some e) => (w, .err (.codec e))
      | (w, none) => (w, .nil)

/-! ## Notions used to state the properties -/

/-- A store as New builds it for k and n over a base directory with exactly k + n child
directories: the encoder of reedsolomon.New, and k + n targets, no two the same path. -/
structure Store.Exact (s : Store) (k n : Nat) : Prop where
  enc : reedsolomon.New k n = .ok s.encoder
  k_eq : s.k = k
  n_eq : s.n = n
  len : s.disks.length = k + n
  nodup : s.disks.Nodup

/-- The file system after the shard files of the object are removed from the targets
listed in `A`. -/
def removeShards (fs : FS) (name : String) (A : List String) : FS :=
  A.foldl (fun fs d => fs.remove (shardPath d name)) fs

/-- The error that a write to the path meets: a fault when its device rejects writes. -/
def writeErr (fs : FS) (p : String) : Option IOError :=
  if fs.writeFault p then some (.fault p) else none

/-- Fragment length for an input of `L` bytes split `k` ways: the ceiling of `L / k`. -/
def fragLen (L k : Nat) : Nat := (L + k - 1) / k

/-- The input followed by the zero bytes that fill the last data fragment. -/
def padded (S : List Byte) (k : Nat) : List Byte :=
  S ++ List.replicate (k * fragLen S.length k - S.length) (byte 0)

/-- The child directories of the base directory, as findDisks collects them. -/
def childDirs (fs : FS) (baseDir : String) : List String :=
  ((fs.entries baseDir).filter fun entry => entry.isDir).map fun entry =>
    filepath_Join [baseDir, entry.name]

/-! ## Example scenario -/

/-- A file system holding the base directory mnt and the named empty directories in it. -/
def demoFS (names : List String) : FS :=
  { node := fun p =>
      if p = "mnt" ∨ p ∈ names.map (fun x => filepath_Join ["mnt", x]) then some .dir
      else none
    entries := fun p => if p = "mnt" then names.map fun x => ⟨x, true⟩ else []
    writeFault := fun _ => false
    readFault := fun _ => false
    writes := [] }

/-- The store that New returns over the example file system (an empty one if it fails). -/
def demoStore (k n : Nat) (names : List String) : Store :=
  match (New k n "mnt" (demoFS names)).2 with
  | .ok st => st
  | .error _ => { encoder := ⟨0, 0, 0, [], []⟩, disks := [], k := 0, n := 0 }

/-- The example file system after Save of the bytes 1 2 3 under the name obj by the store
with k = 2 and n = 1 over the targets a, b and c. -/
def demoSaved : FS :=
  ((demoStore 2 1 ["a", "b", "c"]).Save [0, 1, 2] "obj" (.ok [byte 1, byte 2, byte 3])
    (demoFS ["a", "b", "c"])).1

/-- The ten bytes HELLOWORLD. -/
def helloWorld : List Byte := [72, 69, 76, 76, 79, 87, 79, 82, 76, 68].map byte

/-! # Properties of the definitions -/

/-! ### Field structure -/

/-- Logarithm table lookup. -/
def lg (a : Nat) : Nat := logTable.getD a 0
/-- Exponent table lookup. -/
def ex (i : Nat) : Nat := expTable.getD i 0

/-- Multiplication by the generator 2 modulo the polynomial 0x11d. -/
def xtime (x : Nat) : Nat := ((x <<< 1) % 256) ^^^ (if x.testBit 7 then 29 else 0)

/-- Check that the exponent table starts at 1, holds non-zero bytes, each entry being
the previous one times 2, with period 255, and that the logarithm inverts it. -/
def tablesOk : Bool :=
  (List.range 509).all fun i =>
    decide (ex i < 256) && decide (0 < ex i) && decide (ex (i + 1) = xtime (ex i)) &&
    (decide (255 ≤ i) || (decide (ex (i + 255) = ex i) && decide (lg (ex i) = i)))

/-- Check that every non-zero byte is the power of 2 given by its logarithm. -/
def logOk : Bool :=
  (List.range 256).all fun a =>
    decide (a = 0) || (decide (ex (lg a) = a) && decide (lg a < 255))

set_option maxRecDepth 100000 in
theorem tablesOk_true : tablesOk = true := by decide

set_option maxRecDepth 100000 in
theorem logOk_true : logOk = true := by decide

theorem tables_spec {i : Nat} (h : i < 509) :
    ex i < 256 ∧ 0 < ex i ∧ ex (i + 1) = xtime (ex i) ∧
      (i < 255 → ex (i + 255) = ex i ∧ lg (ex i) = i) := by
  have := tablesOk_true
  simp only [tablesOk, List.all_eq_true, List.mem_range, Bool.and_eq_true, Bool.or_eq_true,
    decide_eq_true_eq] at this
  obtain ⟨⟨⟨h1, h2⟩, h3⟩, h4⟩ := this i h
  refine ⟨h1, h2, h3, fun hi => ?_⟩
  rcases h4 with h4 | h4
  · omega
  · exact h4

theorem log_spec {a : Nat} (h : a < 256) (h0 : 0 < a) : ex (lg a) = a ∧ lg a < 255 := by
  have := logOk_true
  simp only [logOk, List.all_eq_true, List.mem_range, Bool.and_eq_true, Bool.or_eq_true,
    decide_eq_true_eq] at this
  rcases this a h with h1 | h1
  · omega
  · exact h1

theorem xtime_xor (x y : Nat) : xtime (x ^^^ y) = xtime x ^^^ xtime y := by
  apply Nat.eq_of_testBit_eq
  intro j
  have h256 : (256 : Nat) = 2 ^ 8 := by norm_num
  simp only [xtime, Nat.testBit_xor, h256, Nat.testBit_mod_two_pow, Nat.testBit_shiftLeft]
  generalize x.testBit 7 = a, y.testBit 7 = b, decide (j < 8) = c, decide (1 ≤ j) = d,
    x.testBit (j - 1) = p, y.testBit (j - 1) = q
  have h0 : Nat.testBit 0 j = false := Nat.zero_testBit j
  generalize Nat.testBit 29 j = t
  cases a <;> cases b <;> cases c <;> cases d <;> cases p <;> cases q <;> cases t <;>
    simp [h0]

theorem xtime_lt (x : Nat) : xtime x < 256 := by
  have h256 : (256 : Nat) = 2 ^ 8 := by norm_num
  unfold xtime
  rw [h256]
  apply Nat.xor_lt_two_pow
  · exact Nat.mod_lt _ (by norm_num)
  · split <;> norm_num

theorem xtime_zero : xtime 0 = 0 := by decide

/-- The exponent table read periodically. -/
def E (n : Nat) : Nat := ex (n % 255)

theorem E_lt (n : Nat) : E n < 256 := (tables_spec (by omega : n % 255 < 509)).1

theorem E_pos (n : Nat) : 0 < E n := (tables_spec (by omega : n % 255 < 509)).2.1

theorem ex_eq_E {i : Nat} (h : i < 510) : ex i = E i := by
  unfold E
  by_cases h1 : i < 255
  · rw [Nat.mod_eq_of_lt h1]
  · have h2 : i % 255 = i - 255 := by omega
    rw [h2]
    have := ((tables_spec (by omega : i - 255 < 509)).2.2.2 (by omega)).1
    rw [← this]
    have h3 : i - 255 + 255 = i := by omega
    rw [h3]

theorem lg_E (n : Nat) : lg (E n) = n % 255 :=
  ((tables_spec (by omega : n % 255 < 509)).2.2.2 (by omega)).2

theorem E_lg {a : Nat} (h : a < 256) (h0 : 0 < a) : E (lg a) = a := by
  obtain ⟨h1, h2⟩ := log_spec h h0
  unfold E
  rw [Nat.mod_eq_of_lt h2, h1]

theorem E_mod (n : Nat) : E (n % 255) = E n := by
  unfold E
  rw [Nat.mod_mod]

theorem E_congr {m n : Nat} (h : m % 255 = n % 255) : E m = E n := by
  unfold E
  rw [h]

theorem E_succ (n : Nat) : E (n + 1) = xtime (E n) := by
  have h3 := (tables_spec (by omega : n % 255 < 509)).2.2.1
  have h4 : E (n + 1) = E (n % 255 + 1) := E_congr (by omega)
  rw [h4, ← ex_eq_E (by omega : n % 255 + 1 < 510), h3]
  rfl

/-- Field multiplication on table indices. -/
def mulN (a b : Nat) : Nat := if a = 0 ∨ b = 0 then 0 else E (lg a + lg b)

theorem mulN_lt (a b : Nat) : mulN a b < 256 := by
  unfold mulN
  split
  · norm_num
  · exact E_lt _

theorem mulN_E (i b : Nat) (hb : b < 256) : mulN (E i) b = xtime^[i] b := by
  induction i with
  | zero =>
    simp only [Function.iterate_zero, id_eq]
    unfold mulN
    have := E_pos 0
    by_cases hb0 : b = 0
    · simp [hb0]
    · rw [if_neg (by omega), lg_E]
      simpa using E_lg hb (by omega)
  | succ i ih =>
    rw [Function.iterate_succ_apply', ← ih]
    unfold mulN
    have h1 := E_pos (i + 1)
    have h2 := E_pos i
    by_cases hb0 : b = 0
    · simp [hb0, xtime_zero]
    · rw [if_neg (by omega), if_neg (by omega), lg_E, lg_E, ← E_succ]
      apply E_congr
      omega

theorem iter_xtime_lt (i b : Nat) (hb : b < 256) : xtime^[i] b < 256 := by
  cases i with
  | zero => simpa using hb
  | succ i => rw [Function.iterate_succ_apply']; exact xtime_lt _

theorem iter_xtime_xor (i x y : Nat) : xtime^[i] (x ^^^ y) = xtime^[i] x ^^^ xtime^[i] y := by
  induction i with
  | zero => rfl
  | succ i ih => rw [Function.iterate_succ_apply', Function.iterate_succ_apply',
      Function.iterate_succ_apply', ih, xtime_xor]

theorem mulN_xor (a b c : Nat) (ha : a < 256) (hb : b < 256) (hc : c < 256) :
    mulN a (b ^^^ c) = mulN a b ^^^ mulN a c := by
  by_cases ha0 : a = 0
  · simp [mulN, ha0]
  · have hbc : b ^^^ c < 256 := Nat.xor_lt_two_pow (n := 8) hb hc
    rw [← E_lg ha (by omega), mulN_E _ _ hbc, mulN_E _ _ hb, mulN_E _ _ hc, iter_xtime_xor]

theorem mulN_comm (a b : Nat) : mulN a b = mulN b a := by
  simp only [mulN, Nat.add_comm, or_comm]

theorem mulN_assoc (a b c : Nat) : mulN (mulN a b) c = mulN a (mulN b c) := by
  unfold mulN
  by_cases ha : a = 0
  · simp [ha]
  by_cases hb : b = 0
  · simp [hb]
  by_cases hc : c = 0
  · simp [hc]
  have h1 := E_pos (lg a + lg b)
  have h2 := E_pos (lg b + lg c)
  have hab : ¬(a = 0 ∨ b = 0) := by omega
  have hbc : ¬(b = 0 ∨ c = 0) := by omega
  rw [if_neg hab, if_neg hbc]
  have h3 : ¬(E (lg a + lg b) = 0 ∨ c = 0) := by omega
  have h4 : ¬(a = 0 ∨ E (lg b + lg c) = 0) := by omega
  rw [if_neg h3, if_neg h4, lg_E, lg_E]
  apply E_congr
  omega

theorem mulN_one (a : Nat) (ha : a < 256) : mulN a 1 = a := by
  unfold mulN
  by_cases ha0 : a = 0
  · simp [ha0]
  · rw [if_neg (by omega)]
    have : lg 1 = 0 := by decide
    rw [this, Nat.add_zero]
    exact E_lg ha (by omega)

theorem Byte.eq_of_val {a b : Byte} (h : a.val = b.val) : a = b := by
  cases a; cases b; cases h; rfl

theorem byte_val {n : Nat} (h : n < 256) : (byte n).val = n := Nat.mod_eq_of_lt h

theorem galAdd_val (a b : Byte) : (galAdd a b).val = a.val ^^^ b.val :=
  byte_val (Nat.xor_lt_two_pow (n := 8) a.lt b.lt)

theorem galMultiply_val (a b : Byte) : (galMultiply a b).val = mulN a.val b.val := by
  unfold galMultiply mulN
  split
  · rfl
  · have h1 := (log_spec a.lt (by omega)).2
    have h2 := (log_spec b.lt (by omega)).2
    change (byte (ex (lg a.val + lg b.val))).val = _
    rw [ex_eq_E (by omega), byte_val (E_lt _)]

set_option maxRecDepth 100000 in
theorem xor_255 : ∀ i, i < 255 → i ^^^ 255 = 255 - i := by decide

theorem galOneOver_val (a : Byte) (h : a.val ≠ 0) : (galOneOver a).val = E (255 - lg a.val) := by
  have h1 := (log_spec a.lt (by omega)).2
  have hx := xor_255
  change (byte (ex (lg a.val ^^^ 255))).val = _
  rw [hx _ h1, ex_eq_E (by omega), byte_val (E_lt _)]

instance : Zero Byte := ⟨byte 0⟩
instance : One Byte := ⟨byte 1⟩
instance : Add Byte := ⟨galAdd⟩
instance : Mul Byte := ⟨galMultiply⟩
instance : Neg Byte := ⟨id⟩
instance : Inv Byte := ⟨fun a => if a.val = 0 then byte 0 else galOneOver a⟩

theorem Byte.zero_val : (0 : Byte).val = 0 := rfl
theorem Byte.one_val : (1 : Byte).val = 1 := rfl
theorem Byte.add_val (a b : Byte) : (a + b).val = a.val ^^^ b.val := galAdd_val a b
theorem Byte.mul_val (a b : Byte) : (a * b).val = mulN a.val b.val := galMultiply_val a b
theorem Byte.neg_eq (a : Byte) : -a = a := rfl

theorem Byte.mul_inv_cancel (a : Byte) (h : a ≠ 0) : a * a⁻¹ = 1 := by
  have h0 : a.val ≠ 0 := fun h1 => h (Byte.eq_of_val h1)
  apply Byte.eq_of_val
  rw [Byte.mul_val, Byte.one_val]
  change mulN a.val (if a.val = 0 then byte 0 else galOneOver a).val = 1
  rw [if_neg h0, galOneOver_val a h0]
  have h1 := (log_spec a.lt (by omega)).2
  have h2 := E_pos (255 - lg a.val)
  unfold mulN
  rw [if_neg (by omega), lg_E]
  have h3 : E (lg a.val + (255 - lg a.val) % 255) = E 0 := E_congr (by omega)
  rw [h3]
  decide

instance : CommRing Byte where
  add_assoc a b c := Byte.eq_of_val (by simp only [Byte.add_val, Nat.xor_assoc])
  zero_add a := Byte.eq_of_val (by simp only [Byte.add_val, Byte.zero_val, Nat.zero_xor])
  add_zero a := Byte.eq_of_val (by simp only [Byte.add_val, Byte.zero_val, Nat.xor_zero])
  add_comm a b := Byte.eq_of_val (by simp only [Byte.add_val, Nat.xor_comm])
  neg_add_cancel a := Byte.eq_of_val (by
    simp only [Byte.add_val, Byte.zero_val, Byte.neg_eq, Nat.xor_self])
  nsmul := nsmulRec
  zsmul := zsmulRec
  left_distrib a b c := Byte.eq_of_val (by
    simp only [Byte.add_val, Byte.mul_val]
    exact mulN_xor _ _ _ a.lt b.lt c.lt)
  right_distrib a b c := Byte.eq_of_val (by
    simp only [Byte.add_val, Byte.mul_val]
    rw [mulN_comm _ c.val, mulN_comm a.val, mulN_comm b.val]
    exact mulN_xor _ _ _ c.lt a.lt b.lt)
  zero_mul a := Byte.eq_of_val (by simp [Byte.mul_val, Byte.zero_val, mulN])
  mul_zero a := Byte.eq_of_val (by simp [Byte.mul_val, Byte.zero_val, mulN])
  mul_assoc a b c := Byte.eq_of_val (by simp only [Byte.mul_val, mulN_assoc])
  one_mul a := Byte.eq_of_val (by
    rw [Byte.mul_val, mulN_comm, Byte.one_val]; exact mulN_one _ a.lt)
  mul_one a := Byte.eq_of_val (by rw [Byte.mul_val, Byte.one_val]; exact mulN_one _ a.lt)
  mul_comm a b := Byte.eq_of_val (by simp only [Byte.mul_val, mulN_comm])

instance : Field Byte where
  exists_pair_ne := ⟨0, 1, by decide⟩
  mul_inv_cancel := Byte.mul_inv_cancel
  inv_zero := rfl
  nnqsmul := _
  qsmul := _
  nnqsmul_def := fun _ _ => rfl
  qsmul_def := fun _ _ => rfl

theorem Byte.add_self (a : Byte) : a + a = 0 :=
  Byte.eq_of_val (by simp only [Byte.add_val, Byte.zero_val, Nat.xor_self])

@[simp] theorem byte_zero : byte 0 = (0 : Byte) := rfl
@[simp] theorem byte_one : byte 1 = (1 : Byte) := rfl
@[simp] theorem galAdd_eq (a b : Byte) : galAdd a b = a + b := rfl
@[simp] theorem galMultiply_eq (a b : Byte) : galMultiply a b = a * b := rfl

/-- The matrix has the given number of rows, each of the given width. -/
def IsMat (m : matrix) (r c : Nat) : Prop := m.length = r ∧ ∀ row ∈ m, row.length = c

theorem rowAt_eq_getElem {m : matrix} {r : Nat} (h : r < m.length) : rowAt m r = m[r] := by
  simp [rowAt, h]

theorem rowAt_of_ge {m : matrix} {r : Nat} (h : m.length ≤ r) : rowAt m r = [] := by
  simp [rowAt, List.getElem?_eq_none h]

theorem rowAt_mem {m : matrix} {r : Nat} (h : r < m.length) : rowAt m r ∈ m := by
  rw [rowAt_eq_getElem h]; exact List.getElem_mem h

theorem IsMat.rowAt_length {m : matrix} {n w : Nat} (hm : IsMat m n w) {r : Nat} (h : r < n) :
    (rowAt m r).length = w := hm.2 _ (rowAt_mem (hm.1 ▸ h))

theorem entry_of_row_ge {m : matrix} {r : Nat} (h : m.length ≤ r) (c : Nat) :
    entry m r c = 0 := by
  simp [entry, rowAt_of_ge h]

theorem IsMat.entry_of_col_ge {m : matrix} {n w : Nat} (hm : IsMat m n w) (r : Nat) {c : Nat}
    (h : w ≤ c) : entry m r c = 0 := by
  by_cases hr : r < n
  · have := hm.rowAt_length hr
    simp [entry, List.getElem?_eq_none (this ▸ h)]
  · exact entry_of_row_ge (by rw [hm.1]; omega) c

/-- Rows-by-columns table filled by a function, as the loops over a fresh matrix build it. -/
def tab (rows cols : Nat) (f : Nat → Nat → Byte) : matrix :=
  (List.replicate rows (List.replicate cols (byte 0))).mapIdx fun r row =>
    row.mapIdx fun c _ => f r c

theorem tab_isMat (rows cols : Nat) (f : Nat → Nat → Byte) : IsMat (tab rows cols f) rows cols := by
  constructor
  · simp [tab]
  · intro row hrow
    simp only [tab, List.mem_mapIdx, List.length_replicate] at hrow
    obtain ⟨i, hi, rfl⟩ := hrow
    simp

theorem entry_tab (rows cols : Nat) (f : Nat → Nat → Byte) (i j : Nat) :
    entry (tab rows cols f) i j = if i < rows ∧ j < cols then f i j else 0 := by
  unfold entry rowAt tab
  by_cases hi : i < rows
  · by_cases hj : j < cols
    · simp [hi, hj, List.getElem?_replicate]
    · simp [hi, hj, List.getElem?_replicate]
  · simp [hi, List.getElem?_replicate]

theorem newMatrix_ok {rows cols : Nat} (hr : 0 < rows) (hc : 0 < cols) :
    newMatrix rows cols = .ok (List.replicate rows (List.replicate cols (byte 0))) := by
  unfold newMatrix
  rw [if_neg (by omega), if_neg (by omega)]

/-! ### Row operations -/

theorem getD_addScaled (s : Byte) (row src : List Byte) (h : row.length = src.length) (j : Nat) :
    (addScaled s row src).getD j 0 = row.getD j 0 + s * src.getD j 0 := by
  induction row generalizing src j with
  | nil =>
    cases src with
    | nil => simp [addScaled]
    | cons b src => simp at h
  | cons a row ih =>
    cases src with
    | nil => simp at h
    | cons b src =>
      cases j with
      | zero => simp [addScaled]
      | succ j =>
        have := ih src (by simpa using h) j
        simpa [addScaled] using this

theorem length_addScaled (s : Byte) (row src : List Byte) (h : row.length = src.length) :
    (addScaled s row src).length = row.length := by
  simp [addScaled, h]

theorem getD_map_mul (row : List Byte) (s : Byte) (j : Nat) :
    (row.map fun x => galMultiply x s).getD j 0 = row.getD j 0 * s := by
  simp only [List.getD_eq_getElem?_getD, List.getElem?_map]
  cases row[j]? <;> simp

theorem entry_set (m : matrix) (r : Nat) (row : List Byte) (i j : Nat) :
    entry (m.set r row) i j = if i = r ∧ r < m.length then row.getD j 0 else entry m i j := by
  unfold entry rowAt
  simp only [List.getD_eq_getElem?_getD, List.getElem?_set, byte_zero]
  by_cases h : r = i
  · subst h
    by_cases h2 : r < m.length
    · simp [h2]
    · simp [h2, List.getElem?_eq_none (not_lt.mp h2)]
  · have h3 : ¬ i = r := fun h4 => h h4.symm
    simp [h, h3]

theorem entry_mapIdx (m : matrix) (f : Nat → List Byte → List Byte) (i j : Nat) :
    entry (m.mapIdx f) i j = if i < m.length then (f i (rowAt m i)).getD j 0 else 0 := by
  unfold entry rowAt
  simp only [List.getD_eq_getElem?_getD, List.getElem?_mapIdx, byte_zero]
  by_cases h : i < m.length
  · simp [h, List.getElem?_eq_getElem h]
  · simp [h, List.getElem?_eq_none (not_lt.mp h)]

theorem IsMat.set {m : matrix} {n w : Nat} (hm : IsMat m n w) (r : Nat) {row : List Byte}
    (hrow : row.length = w) : IsMat (m.set r row) n w := by
  refine ⟨by simp [hm.1], fun x hx => ?_⟩
  rcases List.mem_or_eq_of_mem_set hx with h | h
  · exact hm.2 x h
  · rw [h]; exact hrow

theorem IsMat.mapIdx {m : matrix} {n w : Nat} (hm : IsMat m n w)
    (f : Nat → List Byte → List Byte) (hf : ∀ i row, row ∈ m → (f i row).length = w) :
    IsMat (m.mapIdx f) n w := by
  refine ⟨by simp [hm.1], fun x hx => ?_⟩
  rw [List.mem_mapIdx] at hx
  obtain ⟨i, hi, rfl⟩ := hx
  exact hf i _ (List.getElem_mem hi)

/-- Index exchange performed by a row swap. -/
def swapIdx (r p i : Nat) : Nat := if i = p then r else if i = r then p else i

theorem swapIdx_swapIdx (r p i : Nat) : swapIdx r p (swapIdx r p i) = i := by
  unfold swapIdx
  split_ifs <;> omega

theorem swapIdx_lt {r p i n : Nat} (hr : r < n) (hp : p < n) (hi : i < n) : swapIdx r p i < n := by
  unfold swapIdx
  split_ifs <;> omega

theorem entry_SwapRows (m : matrix) {r p : Nat} (hr : r < m.length) (hp : p < m.length)
    (i j : Nat) : entry (SwapRows m r p) i j = entry m (swapIdx r p i) j := by
  unfold SwapRows swapIdx
  rw [entry_set, entry_set]
  simp only [List.length_set]
  by_cases h1 : i = p
  · simp [h1, hp, entry]
  · by_cases h2 : i = r
    · have h3 : ¬ r = p := fun h => h1 (h2.trans h)
      simp [h1, h2, h3, hr, entry]
    · simp [h1, h2]

theorem IsMat.SwapRows {m : matrix} {n w : Nat} (hm : IsMat m n w) {r p : Nat}
    (hr : r < n) (hp : p < n) : IsMat (SwapRows m r p) n w :=
  (hm.set r (hm.rowAt_length hp)).set p (hm.rowAt_length hr)

/-! ### Invariants of the elimination -/

/-- Facts that every row operation of the elimination keeps, for an augmented matrix whose
left block started as the matrix of coefficients and whose right block started as the
identity. -/
structure RowInv (n : Nat) (A : Matrix (Fin n) (Fin n) Byte) (m : matrix) : Prop where
  mat : IsMat m n (n + n)
  cons : ∀ i, i < n → ∀ j : Fin n, entry m i j = ∑ t : Fin n, entry m i (n + t) * A t j
  ker : ∀ v : Fin n → Byte, (∀ i, i < n → ∑ j : Fin n, entry m i j * v j = 0) → v = 0

/-- Columns before the given one carry a one on the diagonal and zeros below it. -/
def Tri (n : Nat) (m : matrix) (r : Nat) : Prop :=
  ∀ j, j < r → ∀ i, i < n → (i = j → entry m i j = 1) ∧ (j < i → entry m i j = 0)

theorem RowInv.swap {n : Nat} {A : Matrix (Fin n) (Fin n) Byte} {m : matrix}
    (h : RowInv n A m) {r p : Nat} (hr : r < n) (hp : p < n) : RowInv n A (SwapRows m r p) := by
  have hr1 : r < m.length := by rw [h.mat.1]; exact hr
  have hp1 : p < m.length := by rw [h.mat.1]; exact hp
  refine ⟨h.mat.SwapRows hr hp, ?_, ?_⟩
  · intro i hi j
    simp only [entry_SwapRows m hr1 hp1]
    exact h.cons _ (swapIdx_lt hr hp hi) j
  · intro v hv
    apply h.ker v
    intro i hi
    have := hv _ (swapIdx_lt hr hp hi)
    simpa only [entry_SwapRows m hr1 hp1, swapIdx_swapIdx] using this

theorem Tri.afterSwap {n : Nat} {m : matrix} {r p : Nat} (h : Tri n m r) (hm : m.length = n)
    (hr : r < n) (hp : p < n) (hrp : r ≤ p) : Tri n (SwapRows m r p) r := by
  intro j hj i hi
  rw [entry_SwapRows m (hm ▸ hr) (hm ▸ hp)]
  have hs := swapIdx_lt hr hp hi
  constructor
  · intro hij
    have : swapIdx r p i = i := by unfold swapIdx; split_ifs <;> omega
    rw [this]
    exact (h j hj i hi).1 hij
  · intro hji
    have : j < swapIdx r p i := by unfold swapIdx; split_ifs <;> omega
    exact (h j hj _ hs).2 this

theorem RowInv.scale {n : Nat} {A : Matrix (Fin n) (Fin n) Byte} {m : matrix}
    (h : RowInv n A m) {r : Nat} (hr : r < n) {s : Byte} (hs : s ≠ 0) :
    RowInv n A (m.set r ((rowAt m r).map fun x => galMultiply x s)) := by
  have hr1 : r < m.length := by rw [h.mat.1]; exact hr
  have hent : ∀ i j, entry (m.set r ((rowAt m r).map fun x => galMultiply x s)) i j =
      if i = r then entry m r j * s else entry m i j := by
    intro i j
    rw [entry_set, getD_map_mul]
    by_cases hi : i = r
    · simp [hi, hr1, entry]
    · simp [hi]
  refine ⟨h.mat.set r (by simp [h.mat.rowAt_length hr]), ?_, ?_⟩
  · intro i hi j
    simp only [hent]
    by_cases hir : i = r
    · simp only [hir, if_true]
      rw [h.cons r hr j, Finset.sum_mul]
      exact Finset.sum_congr rfl fun t _ => by ring
    · simp only [hir, if_false]
      exact h.cons i hi j
  · intro v hv
    apply h.ker v
    intro i hi
    have := hv i hi
    simp only [hent] at this
    by_cases hir : i = r
    · simp only [hir, if_true] at this
      subst hir
      have h2 : (∑ j : Fin n, entry m i j * v j) * s = 0 := by
        rw [← this, Finset.sum_mul]
        exact Finset.sum_congr rfl fun t _ => by ring
      rcases mul_eq_zero.mp h2 with h3 | h3
      · exact h3
      · exact absurd h3 hs
    · simpa only [hir, if_false] using this

theorem Tri.afterScale {n : Nat} {m : matrix} {r : Nat} (h : Tri n m r) (hm : m.length = n)
    (hr : r < n) (s : Byte) :
    Tri n (m.set r ((rowAt m r).map fun x => galMultiply x s)) r ∧
    entry (m.set r ((rowAt m r).map fun x => galMultiply x s)) r r = entry m r r * s := by
  have hr1 : r < m.length := by rw [hm]; exact hr
  have hent : ∀ i j, entry (m.set r ((rowAt m r).map fun x => galMultiply x s)) i j =
      if i = r then entry m r j * s else entry m i j := by
    intro i j
    rw [entry_set, getD_map_mul]
    by_cases hi : i = r
    · simp [hi, hr1, entry]
    · simp [hi]
  refine ⟨?_, by rw [hent]; simp⟩
  intro j hj i hi
  rw [hent]
  by_cases hir : i = r
  · subst hir
    simp only [if_true]
    constructor
    · intro hij; omega
    · intro _
      rw [(h j hj i hi).2 hj, zero_mul]
  · simp only [hir, if_false]
    exact h j hj i hi

/-- Addition of a multiple of row `d` to every row selected by `P`: the shape of both
clearing loops of the elimination. -/
def rowOp (P : Nat → Prop) [DecidablePred P] (m : matrix) (d : Nat) : matrix :=
  m.mapIdx fun idx row =>
    if P idx ∧ row.getD d (byte 0) ≠ byte 0 then
      addScaled (row.getD d (byte 0)) row (rowAt m d)
    else row

theorem clearAbove_eq (m : matrix) (d : Nat) : clearAbove m d = rowOp (fun i => i < d) m d := rfl

theorem IsMat.rowOp {m : matrix} {n w : Nat} (hm : IsMat m n w) (P : Nat → Prop)
    [DecidablePred P] {d : Nat} (hd : d < n) : IsMat (rowOp P m d) n w := by
  apply hm.mapIdx
  intro i row hrow
  have h1 := hm.2 row hrow
  have h2 := hm.rowAt_length hd
  split
  · rw [length_addScaled _ _ _ (by rw [h1, h2]), h1]
  · exact h1

theorem entry_rowOp {m : matrix} {n w : Nat} (hm : IsMat m n w) (P : Nat → Prop)
    [DecidablePred P] {d : Nat} (hd : d < n) (i j : Nat) :
    entry (rowOp P m d) i j =
      if P i ∧ i < n then entry m i j + entry m i d * entry m d j else entry m i j := by
  unfold rowOp
  rw [entry_mapIdx, hm.1]
  by_cases hi : i < n
  · have h1 := hm.rowAt_length hi
    have h2 := hm.rowAt_length hd
    by_cases hP : P i
    · by_cases h0 : (rowAt m i).getD d (byte 0) = byte 0
      · have h3 : entry m i d = 0 := h0
        rw [if_pos hi, if_neg (fun hc => hc.2 h0), if_pos ⟨hP, hi⟩, h3, zero_mul, add_zero]
        rfl
      · rw [if_pos hi, if_pos ⟨hP, h0⟩, if_pos ⟨hP, hi⟩]
        exact getD_addScaled _ _ _ (by rw [h1, h2]) j
    · rw [if_pos hi, if_neg (fun hc => hP hc.1), if_neg (fun hc => hP hc.1)]
      rfl
  · rw [if_neg hi, if_neg (fun hc => hi hc.2)]
    exact (entry_of_row_ge (by rw [hm.1]; omega) j).symm

theorem RowInv.afterRowOp {n : Nat} {A : Matrix (Fin n) (Fin n) Byte} {m : matrix}
    (h : RowInv n A m) (P : Nat → Prop) [DecidablePred P] {d : Nat} (hd : d < n)
    (hPd : ¬ P d) : RowInv n A (rowOp P m d) := by
  refine ⟨h.mat.rowOp P hd, ?_, ?_⟩
  · intro i hi j
    simp only [entry_rowOp h.mat P hd]
    by_cases hP : P i
    · simp only [hP, hi, and_self, if_true]
      rw [h.cons i hi j, h.cons d hd j, Finset.mul_sum, ← Finset.sum_add_distrib]
      exact Finset.sum_congr rfl fun t _ => by ring
    · simp only [hP, false_and, if_false]
      exact h.cons i hi j
  · intro v hv
    apply h.ker v
    have hrow : ∑ j : Fin n, entry m d j * v j = 0 := by
      have := hv d hd
      simpa only [entry_rowOp h.mat P hd, hPd, false_and, if_false] using this
    intro i hi
    have := hv i hi
    simp only [entry_rowOp h.mat P hd] at this
    by_cases hP : P i
    · simp only [hP, hi, and_self, if_true] at this
      have h2 : ∑ j : Fin n, (entry m i j + entry m i d * entry m d j) * v j =
          ∑ j : Fin n, entry m i j * v j + entry m i d * ∑ j : Fin n, entry m d j * v j := by
        rw [Finset.mul_sum, ← Finset.sum_add_distrib]
        exact Finset.sum_congr rfl fun t _ => by ring
      rw [h2, hrow, mul_zero, add_zero] at this
      exact this
    · simpa only [hP, false_and, if_false] using this

theorem Tri.elim {n : Nat} {m : matrix} {r : Nat} (h : Tri n m r) (hm : IsMat m n (n + n))
    (hr : r < n) (h1 : entry m r r = 1) : Tri n (rowOp (fun i => r < i) m r) (r + 1) := by
  intro j hj i hi
  rw [entry_rowOp hm _ hr]
  by_cases hjr : j < r
  · have h0 : entry m r j = 0 := (h j hjr r hr).2 hjr
    have h2 : (if r < i ∧ i < n then entry m i j + entry m i r * entry m r j else entry m i j)
        = entry m i j := by
      split
      · rw [h0, mul_zero, add_zero]
      · rfl
    rw [h2]
    exact h j hjr i hi
  · have hjr2 : j = r := by omega
    subst hjr2
    constructor
    · intro hij
      subst hij
      simp [h1]
    · intro hji
      simp only [hji, hi, and_self, if_true]
      rw [h1, mul_one, Byte.add_self]

/-- Columns before the given one are zero above the diagonal. -/
def Clr (m : matrix) (d : Nat) : Prop := ∀ c, c < d → ∀ i, i < c → entry m i c = 0

theorem Tri.clear {n : Nat} {m : matrix} {d : Nat} (h : Tri n m n) (hc : Clr m d)
    (hm : IsMat m n (n + n)) (hd : d < n) :
    Tri n (rowOp (fun i => i < d) m d) n ∧ Clr (rowOp (fun i => i < d) m d) (d + 1) := by
  constructor
  · intro j hj i hi
    rw [entry_rowOp hm _ hd]
    by_cases hid : i < d
    · simp only [hid, hi, and_self, if_true]
      constructor
      · intro hij
        subst hij
        rw [(h i hi d hd).2 hid, mul_zero, add_zero]
        exact (h i hi i hi).1 rfl
      · intro hji
        rw [(h j hj d hd).2 (by omega), mul_zero, add_zero]
        exact (h j hj i hi).2 hji
    · simp only [hid, false_and, if_false]
      exact h j hj i hi
  · intro c hcd i hic
    rw [entry_rowOp hm _ hd]
    have hid : i < d := by omega
    have hin : i < n := by omega
    simp only [hid, hin, and_self, if_true]
    by_cases hcd2 : c < d
    · rw [(h c (by omega) d hd).2 hcd2, mul_zero, add_zero]
      exact hc c hcd2 i hic
    · have : c = d := by omega
      subst this
      rw [(h c hd c hd).1 rfl, mul_one, Byte.add_self]

theorem exists_pivot {n : Nat} {A : Matrix (Fin n) (Fin n) Byte} {m : matrix}
    (h : RowInv n A m) {r : Nat} (hr : r < n) (ht : Tri n m r) :
    ∃ i, r ≤ i ∧ i < n ∧ entry m i r ≠ 0 := by
  by_contra hne
  push_neg at hne
  let L : Matrix (Fin n) (Fin n) Byte := Matrix.of fun i j => entry m i j
  have hdet : L.det = 0 := by
    let b : Fin n → ℕ := fun i => min i.val (r + 1)
    have hb : L.BlockTriangular b := by
      intro i j hij
      have hij2 : j.val ≤ r ∧ j.val < i.val := by
        simp only [b] at hij
        omega
      by_cases hjr : j.val < r
      · exact (ht j hjr i i.isLt).2 hij2.2
      · have hjr2 : j.val = r := by omega
        show entry m i j = 0
        rw [hjr2]
        exact hne i (by omega) i.isLt
    rw [hb.det]
    have hbr : b ⟨r, hr⟩ = r := by simp [b]
    apply Finset.prod_eq_zero (i := r)
    · exact Finset.mem_image.mpr ⟨⟨r, hr⟩, Finset.mem_univ _, hbr⟩
    · apply Matrix.det_eq_zero_of_row_eq_zero ⟨⟨r, hr⟩, hbr⟩
      intro j
      have hj : (j : Fin n).val = r := by
        have := j.2
        simp only [b] at this
        omega
      show entry m r (j : Fin n).val = 0
      rw [hj]
      exact hne r (le_refl r) hr
  obtain ⟨v, hv0, hv⟩ := Matrix.exists_mulVec_eq_zero_iff.mpr hdet
  apply hv0
  apply h.ker v
  intro i hi
  have := congrFun hv ⟨i, hi⟩
  simpa [Matrix.mulVec, Matrix.dotProduct, L] using this

theorem findBelow_spec {m : matrix} {n r : Nat} (hm : m.length = n)
    (h0 : entry m r r = 0) (hex : ∃ i, r ≤ i ∧ i < n ∧ entry m i r ≠ 0) :
    ∃ p, findBelow m r = some p ∧ r < p ∧ p < n ∧ entry m p r ≠ 0 := by
  obtain ⟨i, hri, hin, hne⟩ := hex
  have hri2 : r < i := by
    rcases Nat.lt_or_ge r i with h | h
    · exact h
    · have : i = r := by omega
      rw [this] at hne
      exact absurd h0 hne
  cases hf : findBelow m r with
  | none =>
    unfold findBelow at hf
    rw [List.find?_eq_none] at hf
    have := hf i (by rw [List.mem_range']; exact ⟨i - (r + 1), by omega, by omega⟩)
    simp at this
    exact absurd this hne
  | some p =>
    unfold findBelow at hf
    have h1 := List.find?_some hf
    have h2 := List.mem_of_find?_eq_some hf
    rw [List.mem_range'] at h2
    obtain ⟨k, hk, hp⟩ := h2
    refine ⟨p, rfl, by omega, by omega, ?_⟩
    simpa using h1

theorem galOneOver_eq_inv {a : Byte} (ha : a ≠ 0) : galOneOver a = a⁻¹ := by
  have h0 : a.val ≠ 0 := fun h1 => ha (Byte.eq_of_val h1)
  show galOneOver a = if a.val = 0 then byte 0 else galOneOver a
  rw [if_neg h0]

theorem clearBelow_eq (m : matrix) (r : Nat) : clearBelow m r = rowOp (fun i => r < i) m r := rfl

theorem swapPivot_spec {n : Nat} {A : Matrix (Fin n) (Fin n) Byte} {m : matrix}
    (h : RowInv n A m) {r : Nat} (hr : r < n) (ht : Tri n m r) :
    RowInv n A (swapPivot m r) ∧ Tri n (swapPivot m r) r ∧ entry (swapPivot m r) r r ≠ 0 := by
  have hex := exists_pivot h hr ht
  unfold swapPivot
  by_cases h0 : entry m r r = byte 0
  · obtain ⟨p, hp, hrp, hpn, hne⟩ := findBelow_spec h.mat.1 h0 hex
    rw [if_pos h0, hp]
    refine ⟨h.swap hr hpn, ht.afterSwap h.mat.1 hr hpn (by omega), ?_⟩
    show entry (SwapRows m r p) r r ≠ 0
    rw [entry_SwapRows m (by rw [h.mat.1]; exact hr) (by rw [h.mat.1]; exact hpn)]
    have : swapIdx r p r = p := by unfold swapIdx; split_ifs <;> omega
    rw [this]
    exact hne
  · rw [if_neg h0]
    exact ⟨h, ht, h0⟩

theorem scalePivot_spec {n : Nat} {A : Matrix (Fin n) (Fin n) Byte} {m : matrix}
    (h : RowInv n A m) {r : Nat} (hr : r < n) (ht : Tri n m r) (hp : entry m r r ≠ 0) :
    RowInv n A (scalePivot m r) ∧ Tri n (scalePivot m r) r ∧ entry (scalePivot m r) r r = 1 := by
  unfold scalePivot
  by_cases h1 : entry m r r = byte 1
  · rw [if_neg (not_not.mpr h1)]
    exact ⟨h, ht, h1⟩
  · have hs : galOneOver (entry m r r) ≠ 0 := by
      rw [galOneOver_eq_inv hp]
      exact inv_ne_zero hp
    rw [if_pos h1]
    refine ⟨h.scale hr hs, (ht.afterScale h.mat.1 hr _).1, ?_⟩
    rw [(ht.afterScale h.mat.1 hr _).2, galOneOver_eq_inv hp]
    exact mul_inv_cancel₀ hp

theorem pivotRow_spec {n : Nat} {A : Matrix (Fin n) (Fin n) Byte} {m : matrix}
    (h : RowInv n A m) {r : Nat} (hr : r < n) (ht : Tri n m r) :
    ∃ m3, pivotRow m r = .ok m3 ∧ RowInv n A m3 ∧ Tri n m3 (r + 1) := by
  obtain ⟨hI1, hT1, hp1⟩ := swapPivot_spec h hr ht
  obtain ⟨hI2, hT2, hp2⟩ := scalePivot_spec hI1 hr hT1 hp1
  refine ⟨clearBelow (scalePivot (swapPivot m r) r) r, ?_, ?_, ?_⟩
  · unfold pivotRow
    simp only []
    exact if_neg hp1
  · rw [clearBelow_eq]
    exact hI2.afterRowOp _ hr (lt_irrefl r)
  · rw [clearBelow_eq]
    exact hT2.elim hI2.mat hr hp2

theorem phase1_spec {n : Nat} {A : Matrix (Fin n) (Fin n) Byte} :
    ∀ (k r : Nat) (m : matrix), r + k = n → RowInv n A m → Tri n m r →
      ∃ m1, (List.range' r k).foldlM pivotRow m = .ok m1 ∧ RowInv n A m1 ∧ Tri n m1 n := by
  intro k
  induction k with
  | zero =>
    intro r m hrk h ht
    have : r = n := by omega
    subst this
    exact ⟨m, rfl, h, ht⟩
  | succ k ih =>
    intro r m hrk h ht
    obtain ⟨m3, h3, hI3, hT3⟩ := pivotRow_spec h (by omega : r < n) ht
    obtain ⟨m1, h1, hI1, hT1⟩ := ih (r + 1) m3 (by omega) hI3 hT3
    refine ⟨m1, ?_, hI1, hT1⟩
    rw [List.range'_succ, List.foldlM_cons, h3]
    exact h1

theorem phase2_spec {n : Nat} {A : Matrix (Fin n) (Fin n) Byte} :
    ∀ (k d : Nat) (m : matrix), d + k = n → RowInv n A m → Tri n m n → Clr m d →
      RowInv n A ((List.range' d k).foldl clearAbove m) ∧
      Tri n ((List.range' d k).foldl clearAbove m) n ∧
      Clr ((List.range' d k).foldl clearAbove m) n := by
  intro k
  induction k with
  | zero =>
    intro d m hdk h ht hc
    have : d = n := by omega
    subst this
    exact ⟨h, ht, hc⟩
  | succ k ih =>
    intro d m hdk h ht hc
    have hd : d < n := by omega
    rw [List.range'_succ, List.foldl_cons, clearAbove_eq]
    have h2 := ht.clear hc h.mat hd
    exact ih (d + 1) _ (by omega) (h.afterRowOp _ hd (lt_irrefl d)) h2.1 h2.2

theorem gaussianElimination_spec {n : Nat} {A : Matrix (Fin n) (Fin n) Byte} {m : matrix}
    (h : RowInv n A m) :
    ∃ m2, gaussianElimination m = .ok m2 ∧ RowInv n A m2 ∧ Tri n m2 n ∧ Clr m2 n := by
  have ht0 : Tri n m 0 := fun j hj => absurd hj (Nat.not_lt_zero j)
  obtain ⟨m1, h1, hI1, hT1⟩ := phase1_spec n 0 m (by omega) h ht0
  have hc0 : Clr m1 0 := fun c hc => absurd hc (Nat.not_lt_zero c)
  obtain ⟨hI2, hT2, hC2⟩ := phase2_spec n 0 m1 (by omega) hI1 hT1 hc0
  refine ⟨_, ?_, hI2, hT2, hC2⟩
  unfold gaussianElimination
  rw [h.mat.1, List.range_eq_range', h1]
  have := hI1.mat.1
  rfl

/-! ### Matrix operations against Mathlib matrices -/

/-- Entries of a list matrix as a matrix over the field of bytes. -/
def toM (m : matrix) (r c : Nat) : Matrix (Fin r) (Fin c) Byte :=
  Matrix.of fun i j => entry m i j

theorem toM_apply (m : matrix) (r c : Nat) (i : Fin r) (j : Fin c) :
    toM m r c i j = entry m i j := rfl

theorem rowAt_replicate {rows : Nat} {row : List Byte} {i : Nat} (h : i < rows) :
    rowAt (List.replicate rows row) i = row := by
  simp [rowAt, List.getElem?_replicate, h]

theorem identityMatrix_spec {n : Nat} (hn : 0 < n) :
    ∃ I, identityMatrix n = .ok I ∧ IsMat I n n ∧
      ∀ i j, i < n → entry I i j = if i = j then 1 else 0 := by
  refine ⟨(List.replicate n (List.replicate n (byte 0))).mapIdx fun i row => row.set i (byte 1),
    ?_, ?_, ?_⟩
  · unfold identityMatrix
    rw [newMatrix_ok hn hn]
    rfl
  · refine ⟨by simp, fun row hrow => ?_⟩
    rw [List.mem_mapIdx] at hrow
    obtain ⟨i, hi, rfl⟩ := hrow
    simp
  · intro i j hi
    rw [entry_mapIdx, List.length_replicate, if_pos hi, rowAt_replicate hi]
    simp only [List.getD_eq_getElem?_getD, List.getElem?_set, List.length_replicate,
      List.getElem?_replicate, byte_zero, byte_one]
    by_cases hij : i = j
    · subst hij
      simp [hi]
    · simp [hij]
      split <;> rfl

theorem Augment_spec {n : Nat} (hn : 0 < n) {m right : matrix} (hm : IsMat m n n)
    (hr : IsMat right n n) :
    Augment m right = .ok (tab n (n + n) fun r c =>
      if c < n then entry m r c else entry right r (c - n)) := by
  unfold Augment
  rw [if_neg (by rw [hm.1, hr.1]; exact fun h => h rfl), hm.rowAt_length hn, hr.rowAt_length hn,
    hm.1, newMatrix_ok hn (by omega)]
  rfl

theorem SubMatrix_spec (m : matrix) {rmin cmin rmax cmax : Nat} (hr : rmin < rmax)
    (hc : cmin < cmax) :
    SubMatrix m rmin cmin rmax cmax = .ok (tab (rmax - rmin) (cmax - cmin) fun r c =>
      entry m (rmin + r) (cmin + c)) := by
  unfold SubMatrix
  rw [newMatrix_ok (by omega) (by omega)]
  rfl

theorem Invert_spec {n : Nat} (hn : 0 < n) {m : matrix} (hm : IsMat m n n)
    (hdet : (toM m n n).det ≠ 0) :
    ∃ inv, Invert m = .ok inv ∧ IsMat inv n n ∧ toM inv n n * toM m n n = 1 := by
  obtain ⟨I, hI, hImat, hIent⟩ := identityMatrix_spec hn
  have haug := Augment_spec hn hm hImat
  set work := tab n (n + n) fun r c => if c < n then entry m r c else entry I r (c - n)
    with hwork
  have hinv : RowInv n (toM m n n) work := by
    refine ⟨tab_isMat _ _ _, ?_, ?_⟩
    · intro i hi j
      have h1 : ∀ t : Fin n, entry work i (n + t) = if i = t.val then 1 else 0 := by
        intro t
        rw [hwork, entry_tab, if_pos ⟨hi, by omega⟩, if_neg (by omega)]
        have : n + t.val - n = t.val := by omega
        rw [this, hIent i t hi]
      rw [hwork, entry_tab, if_pos ⟨hi, by omega⟩, if_pos j.isLt, ← hwork]
      simp only [h1, toM_apply]
      rw [Finset.sum_eq_single ⟨i, hi⟩]
      · simp
      · intro t _ ht
        have : ¬ i = t.val := fun h => ht (Fin.ext h.symm)
        simp [this]
      · intro h
        exact absurd (Finset.mem_univ _) h
    · intro v hv
      apply Matrix.eq_zero_of_mulVec_eq_zero hdet
      funext i
      have := hv i i.isLt
      simp only [Matrix.mulVec, Matrix.dotProduct, toM_apply, Pi.zero_apply]
      rw [← this]
      apply Finset.sum_congr rfl
      intro j _
      rw [hwork, entry_tab, if_pos ⟨i.isLt, by omega⟩, if_pos j.isLt]
  obtain ⟨m2, hge, hI2, hT2, hC2⟩ := gaussianElimination_spec hinv
  refine ⟨tab (n - 0) (n * 2 - n) fun r c => entry m2 (0 + r) (n + c), ?_, ?_, ?_⟩
  · unfold Invert
    rw [if_neg (by rw [hm.1, hm.rowAt_length hn]; exact fun h => h rfl)]
    simp only [hm.1, hI, haug, hge, bind, Except.bind]
    exact SubMatrix_spec m2 hn (by omega)
  · have h1 : n - 0 = n := by omega
    have h2 : n * 2 - n = n := by omega
    rw [h1, h2]
    exact tab_isMat n n _
  · ext i j
    rw [Matrix.mul_apply, Matrix.one_apply]
    have h1 : ∀ t : Fin n, toM (tab (n - 0) (n * 2 - n) fun r c => entry m2 (0 + r) (n + c)) n n i t
        = entry m2 i (n + t) := by
      intro t
      rw [toM_apply, entry_tab, if_pos ⟨by omega, by omega⟩, Nat.zero_add]
    simp only [h1]
    rw [← hI2.cons i i.isLt j]
    by_cases hij : i = j
    · rw [if_pos hij, hij]
      exact (hT2 j j.isLt j j.isLt).1 rfl
    · rw [if_neg hij]
      have hne : i.val ≠ j.val := fun h => hij (Fin.ext h)
      rcases Nat.lt_or_gt_of_ne hne with h | h
      · exact hC2 j j.isLt i h
      · exact (hT2 j j.isLt i i.isLt).2 h

/-! ### Powers, the Vandermonde matrix and the coding matrix -/

theorem byte_val_lt {r : Nat} (h : r < 256) : (byte r).val = r := byte_val h

theorem pow_val {a : Byte} (ha : a ≠ 0) (n : Nat) : (a ^ n).val = E (lg a.val * n) := by
  have h0 : a.val ≠ 0 := fun h1 => ha (Byte.eq_of_val h1)
  induction n with
  | zero =>
    rw [pow_zero, Nat.mul_zero, Byte.one_val]
    decide
  | succ n ih =>
    rw [pow_succ, Byte.mul_val, ih]
    unfold mulN
    have h1 := E_pos (lg a.val * n)
    rw [if_neg (by omega), lg_E]
    apply E_congr
    rw [Nat.mul_succ]
    omega

theorem galExp_eq_pow (a : Byte) (n : Nat) : galExp a n = a ^ n := by
  unfold galExp
  by_cases hn : n = 0
  · rw [if_pos hn, hn, pow_zero]
    rfl
  · rw [if_neg hn]
    by_cases ha : a.val = 0
    · rw [if_pos ha]
      have : a = 0 := Byte.eq_of_val ha
      rw [this, zero_pow hn]
      rfl
    · rw [if_neg ha]
      have ha2 : a ≠ 0 := fun h => ha (by rw [h]; rfl)
      apply Byte.eq_of_val
      rw [pow_val ha2]
      show (byte (E (lg a.val * n))).val = _
      rw [byte_val (E_lt _)]

theorem byte_injective {n : Nat} (hn : n ≤ 256) :
    Function.Injective fun i : Fin n => byte i.val := by
  intro i j h
  have h1 := congrArg Byte.val h
  simp only at h1
  rw [byte_val (by omega), byte_val (by omega)] at h1
  exact Fin.ext h1

theorem vandermonde_spec {rows cols : Nat} (hr : 0 < rows) (hc : 0 < cols) :
    vandermonde rows cols = .ok (tab rows cols fun r c => byte r ^ c) := by
  unfold vandermonde
  rw [newMatrix_ok hr hc]
  simp only [galExp_eq_pow]
  rfl

theorem foldl_galAdd_eq_sum (f : Nat → Byte) (k : Nat) :
    (List.range k).foldl (fun value i => galAdd value (f i)) (byte 0) =
      ∑ i in Finset.range k, f i := by
  induction k with
  | zero => rfl
  | succ k ih =>
    rw [List.range_succ, List.foldl_append, ih, Finset.sum_range_succ]
    rfl

theorem Multiply_spec {r k c : Nat} (hr : 0 < r) (hk : 0 < k) (hc : 0 < c) {m right : matrix}
    (hm : IsMat m r k) (hright : IsMat right k c) :
    ∃ p, Multiply m right = .ok p ∧ IsMat p r c ∧ toM p r c = toM m r k * toM right k c := by
  refine ⟨tab r c fun i j => ∑ t in Finset.range k, entry m i t * entry right t j, ?_,
    tab_isMat _ _ _, ?_⟩
  · unfold Multiply
    rw [if_neg (by rw [hm.rowAt_length hr, hright.1]; exact fun h => h rfl), hm.1,
      hright.rowAt_length hk, hm.rowAt_length hr]
    show (newMatrix r c >>= _) = _
    rw [newMatrix_ok hr hc]
    simp only [foldl_galAdd_eq_sum fun i => galMultiply (entry m _ i) (entry right i _)]
    rfl
  · ext i j
    rw [toM_apply, entry_tab, if_pos ⟨i.isLt, j.isLt⟩, Matrix.mul_apply, Finset.sum_range]
    rfl

/-- What the codec needs of its coding matrix: the identity on top, and any choice of as
many distinct rows as there are columns is invertible. -/
structure CodingMatrix (k total : Nat) (M : matrix) : Prop where
  mat : IsMat M total k
  top : ∀ i j, i < k → j < k → entry M i j = if i = j then 1 else 0
  indep : ∀ f : Fin k → Fin total, Function.Injective f →
    (Matrix.of fun i j => entry M (f i) j : Matrix (Fin k) (Fin k) Byte).det ≠ 0

theorem buildMatrix_spec {k total : Nat} (hk : 0 < k) (hkt : k ≤ total) (ht : total ≤ 256) :
    ∃ M, buildMatrix k total = .ok M ∧ CodingMatrix k total M := by
  have htot : 0 < total := by omega
  have hvm := vandermonde_spec htot hk
  set vm := tab total k fun r c => byte r ^ c with hvmdef
  have hvment : ∀ i j, i < total → j < k → entry vm i j = byte i ^ j := by
    intro i j hi hj
    rw [hvmdef, entry_tab, if_pos ⟨hi, hj⟩]
  have htop := @SubMatrix_spec vm 0 0 _ _ hk hk
  set top := tab (k - 0) (k - 0) fun r c => entry vm (0 + r) (0 + c) with htopdef
  have htopmat : IsMat top k k := tab_isMat k k _
  have htopent : ∀ i j, i < k → j < k → entry top i j = byte i ^ j := by
    intro i j hi hj
    rw [htopdef, entry_tab, if_pos ⟨by omega, by omega⟩, Nat.zero_add, Nat.zero_add]
    exact hvment i j (by omega) hj
  have htopM : toM top k k = Matrix.vandermonde fun i : Fin k => byte i.val := by
    ext i j
    rw [toM_apply, htopent i j i.isLt j.isLt]
    rfl
  have hdet : (toM top k k).det ≠ 0 := by
    rw [htopM]
    exact Matrix.det_vandermonde_ne_zero_iff.mpr (byte_injective (by omega))
  obtain ⟨topInv, hInv, hInvmat, hInvmul⟩ := Invert_spec hk htopmat hdet
  obtain ⟨M, hM, hMmat, hMmul⟩ := Multiply_spec htot hk hk (tab_isMat total k _ : IsMat vm total k)
    hInvmat
  have hMent : ∀ (i : Fin total) (j : Fin k),
      entry M i j = ∑ t : Fin k, byte i.val ^ t.val * toM topInv k k t j := by
    intro i j
    have := congrFun (congrFun hMmul i) j
    rw [toM_apply, Matrix.mul_apply] at this
    rw [this]
    exact Finset.sum_congr rfl fun t _ => by rw [toM_apply, hvment i t i.isLt t.isLt]
  refine ⟨M, ?_, hMmat, ?_, ?_⟩
  · unfold buildMatrix
    simp only [hvm, htop, hInv, hM, bind, Except.bind]
  · intro i j hi hj
    have h1 := hMent ⟨i, by omega⟩ ⟨j, hj⟩
    have h2 : toM top k k * toM topInv k k = 1 := Matrix.mul_eq_one_comm.mp hInvmul
    have h3 := congrFun (congrFun h2 ⟨i, hi⟩) ⟨j, hj⟩
    rw [Matrix.mul_apply, Matrix.one_apply] at h3
    simp only at h1
    rw [h1]
    have h4 : ∀ t : Fin k, toM top k k ⟨i, hi⟩ t = byte i ^ t.val := fun t =>
      htopent i t hi t.isLt
    simp only [h4] at h3
    rw [h3]
    simp only [Fin.mk.injEq]
  · intro f hf
    have h1 : (Matrix.of fun i j => entry M (f i) j : Matrix (Fin k) (Fin k) Byte) =
        (Matrix.vandermonde fun i : Fin k => byte (f i).val) * toM topInv k k := by
      ext i j
      rw [Matrix.of_apply, hMent (f i) j, Matrix.mul_apply]
      rfl
    rw [h1, Matrix.det_mul]
    apply mul_ne_zero
    · apply Matrix.det_vandermonde_ne_zero_iff.mpr
      intro i j hij
      exact hf (byte_injective ht hij)
    · exact Matrix.det_ne_zero_of_right_inverse hInvmul

/-! ### Coding of shards -/

theorem getD_galMulSlice (c : Byte) (inp out : List Byte) (h : inp.length = out.length)
    (b : Nat) : (galMulSlice c inp out).getD b 0 = c * inp.getD b 0 := by
  unfold galMulSlice
  rw [h, List.drop_length, List.append_nil]
  simp only [List.getD_eq_getElem?_getD, List.getElem?_map]
  cases inp[b]? <;> simp

theorem length_galMulSlice (c : Byte) (inp out : List Byte) (h : inp.length = out.length) :
    (galMulSlice c inp out).length = out.length := by
  unfold galMulSlice
  rw [h, List.drop_length, List.append_nil, List.length_map, h]

theorem getD_zipWith_xor (c : Byte) (inp out : List Byte) (h : inp.length = out.length)
    (b : Nat) :
    (List.zipWith (fun x o => galAdd o (galMultiply c x)) inp out).getD b 0 =
      out.getD b 0 + c * inp.getD b 0 := by
  induction inp generalizing out b with
  | nil =>
    cases out with
    | nil => simp
    | cons o out => simp at h
  | cons x inp ih =>
    cases out with
    | nil => simp at h
    | cons o out =>
      cases b with
      | zero => simp
      | succ b =>
        have := ih out (by simpa using h) b
        simpa using this

theorem getD_galMulSliceXor (c : Byte) (inp out : List Byte) (h : inp.length = out.length)
    (b : Nat) : (galMulSliceXor c inp out).getD b 0 = out.getD b 0 + c * inp.getD b 0 := by
  unfold galMulSliceXor
  rw [h, List.drop_length, List.append_nil]
  exact getD_zipWith_xor c inp out h b

theorem length_galMulSliceXor (c : Byte) (inp out : List Byte) (h : inp.length = out.length) :
    (galMulSliceXor c inp out).length = out.length := by
  unfold galMulSliceXor
  rw [h, List.drop_length, List.append_nil, List.length_zipWith, h, Nat.min_self]

/-- One round of codeSomeShards: the contribution of input shard `c` to every output. -/
def codeStep (matrixRows inputs : List (List Byte)) (outs : List (List Byte)) (c : Nat) :
    List (List Byte) :=
  outs.mapIdx fun iRow out =>
    if c = 0 then galMulSlice (entry matrixRows iRow c) (rowAt inputs c) out
    else galMulSliceXor (entry matrixRows iRow c) (rowAt inputs c) out

theorem codeSomeShards_eq (r : reedSolomon) (matrixRows inputs outputs : List (List Byte)) :
    r.codeSomeShards matrixRows inputs outputs =
      (List.range r.dataShards).foldl (codeStep matrixRows inputs) outputs := rfl

theorem codeStep_fold {k o L : Nat} {matrixRows inputs outputs : List (List Byte)}
    (hin : ∀ c, c < k → (rowAt inputs c).length = L) (hout : IsMat outputs o L) :
    ∀ c, c ≤ k →
      IsMat ((List.range c).foldl (codeStep matrixRows inputs) outputs) o L ∧
      (0 < c → ∀ i b, i < o →
        entry ((List.range c).foldl (codeStep matrixRows inputs) outputs) i b =
          ∑ t in Finset.range c, entry matrixRows i t * entry inputs t b) := by
  intro c
  induction c with
  | zero =>
    intro _
    exact ⟨hout, fun h => absurd h (lt_irrefl 0)⟩
  | succ c ih =>
    intro hc
    obtain ⟨hmat, hent⟩ := ih (by omega)
    rw [List.range_succ, List.foldl_append]
    set outs := (List.range c).foldl (codeStep matrixRows inputs) outputs
    have hlen := hin c (by omega)
    constructor
    · show IsMat (codeStep matrixRows inputs outs c) o L
      apply hmat.mapIdx
      intro i row hrow
      have h1 := hmat.2 row hrow
      split
      · rw [length_galMulSlice _ _ _ (by rw [hlen, h1]), h1]
      · rw [length_galMulSliceXor _ _ _ (by rw [hlen, h1]), h1]
    · intro _ i b hi
      show entry (codeStep matrixRows inputs outs c) i b = _
      unfold codeStep
      rw [entry_mapIdx, hmat.1, if_pos hi, Finset.sum_range_succ]
      have h1 := hmat.rowAt_length hi
      by_cases hc0 : c = 0
      · subst hc0
        rw [if_pos rfl, getD_galMulSlice _ _ _ (by rw [hlen, h1])]
        simp [entry]
      · rw [if_neg hc0, getD_galMulSliceXor _ _ _ (by rw [hlen, h1]),
          ← hent (by omega) i b hi]
        rfl

theorem codeSomeShards_spec {k o L : Nat} (r : reedSolomon) (hr : r.dataShards = k)
    (hk : 0 < k) {matrixRows inputs outputs : List (List Byte)}
    (hin : ∀ c, c < k → (rowAt inputs c).length = L) (hout : IsMat outputs o L) :
    IsMat (r.codeSomeShards matrixRows inputs outputs) o L ∧
    ∀ i b, i < o → entry (r.codeSomeShards matrixRows inputs outputs) i b =
      ∑ t : Fin k, entry matrixRows i t * entry inputs t b := by
  rw [codeSomeShards_eq, hr]
  obtain ⟨h1, h2⟩ := @codeStep_fold k o L matrixRows inputs outputs hin hout k (le_refl k)
  refine ⟨h1, fun i b hi => ?_⟩
  rw [h2 hk i b hi, Finset.sum_range]

/-! ### Split, Encode -/

theorem ceil_mul_ge (L k : Nat) (hk : 0 < k) : L ≤ k * ((L + k - 1) / k) := by
  have h1 := Nat.div_add_mod (L + k - 1) k
  have h2 := Nat.mod_lt (L + k - 1) hk
  omega

theorem ceil_pos (L k : Nat) (hk : 0 < k) (hL : 0 < L) : 0 < (L + k - 1) / k := by
  apply Nat.div_pos
  · omega
  · exact hk

theorem flatten_chunks (l : List Byte) (P m : Nat) :
    ((List.range m).map fun i => (l.drop (i * P)).take P).flatten = l.take (m * P) := by
  induction m with
  | zero => simp
  | succ m ih =>
    rw [List.range_succ, List.map_append, List.flatten_append, ih, Nat.succ_mul, List.take_add]
    simp

/-- The shards of a non-empty input as Split lays them out. -/
def splitShards (k total : Nat) (data : List Byte) : List (List Byte) :=
  (List.range total).map fun i =>
    ((data ++ List.replicate (total * ((data.length + k - 1) / k) - data.length) (byte 0)).drop
      (i * ((data.length + k - 1) / k))).take ((data.length + k - 1) / k)

theorem Split_eq (r : reedSolomon) (data : List Byte) (ht : r.totalShards ≠ 1) :
    r.Split data = .ok (splitShards r.dataShards r.totalShards data) := by
  unfold reedSolomon.Split
  rw [if_neg ht]
  rfl

theorem splitShards_isMat {k total : Nat} (hk : 0 < k) (hkt : k ≤ total) (data : List Byte) :
    IsMat (splitShards k total data) total ((data.length + k - 1) / k) := by
  refine ⟨by simp [splitShards], fun row hrow => ?_⟩
  simp only [splitShards, List.mem_map, List.mem_range] at hrow
  obtain ⟨i, hi, rfl⟩ := hrow
  have h1 := ceil_mul_ge data.length k hk
  set P := (data.length + k - 1) / k
  have h2 : k * P ≤ total * P := Nat.mul_le_mul_right P hkt
  have h3 : (i + 1) * P ≤ total * P := Nat.mul_le_mul_right P hi
  rw [List.length_take, List.length_drop, List.length_append, List.length_replicate]
  have h4 : (i + 1) * P = i * P + P := by ring
  omega

theorem splitShards_join {k total : Nat} (hk : 0 < k) (hkt : k ≤ total) (data : List Byte) :
    ((splitShards k total data).take k).flatten =
      data ++ List.replicate (k * ((data.length + k - 1) / k) - data.length) (byte 0) := by
  have h1 := ceil_mul_ge data.length k hk
  set P := (data.length + k - 1) / k with hP
  have h2 : k * P ≤ total * P := Nat.mul_le_mul_right P hkt
  have h3 : (splitShards k total data).take k = (List.range k).map fun i =>
      ((data ++ List.replicate (total * P - data.length) (byte 0)).drop (i * P)).take P := by
    unfold splitShards
    rw [← List.map_take, List.take_range, Nat.min_eq_left hkt]
  have h4 : k * P - data.length ≤ total * P - data.length := by omega
  rw [h3, flatten_chunks, List.take_append_eq_append_take,
    List.take_of_length_le h1, List.take_replicate, Nat.min_eq_left h4]

theorem shardSize_eq {shards : List (List Byte)} {P : Nat}
    (h1 : ∀ s ∈ shards, s.length = P ∨ s.length = 0) (h2 : ∃ s ∈ shards, s.length ≠ 0) :
    shardSize shards = P := by
  unfold shardSize
  cases hf : shards.find? fun shard => shard.length ≠ 0 with
  | none =>
    rw [List.find?_eq_none] at hf
    obtain ⟨s, hs, hne⟩ := h2
    have := hf s hs
    simp only [ne_eq, decide_not, Bool.not_eq_eq_eq_not, Bool.not_true,
      decide_eq_false_iff_not, not_not] at this
    exact absurd this hne
  | some s =>
    have h3 := List.find?_some hf
    have h4 := List.mem_of_find?_eq_some hf
    simp only [ne_eq, decide_not, Bool.not_eq_eq_eq_not, Bool.not_true,
      decide_eq_false_iff_not] at h3
    rcases h1 s h4 with h | h
    · exact h
    · exact absurd h h3

theorem checkShards_ok {shards : List (List Byte)} {P : Nat} (hP : 0 < P) (nilok : Bool)
    (h1 : ∀ s ∈ shards, s.length = P ∨ (s.length = 0 ∧ nilok = true))
    (h2 : ∃ s ∈ shards, s.length ≠ 0) : checkShards shards nilok = .ok () := by
  have hsz : shardSize shards = P :=
    shardSize_eq (fun s hs => (h1 s hs).imp id fun h => h.1) h2
  unfold checkShards
  simp only [hsz]
  rw [if_neg (by omega), if_pos]
  rw [List.all_eq_true]
  intro s hs
  rcases h1 s hs with h | h
  · simp [h]
  · simp [h.1, h.2]

/-- Shards of equal length whose rows all follow from the first `k` by the coding matrix. -/
structure Codeword (M : matrix) (k total P : Nat) (enc : List (List Byte)) : Prop where
  mat : IsMat enc total P
  eqn : ∀ row b, row < total →
    entry enc row b = ∑ t : Fin k, entry M row t * entry enc t b

/-- An encoder as reedsolomon.New returns it for `k` data and `n` parity shards. -/
structure IsEncoder (r : reedSolomon) (k n : Nat) : Prop where
  data : r.dataShards = k
  par : r.parityShards = n
  total : r.totalShards = k + n
  coding : CodingMatrix k (k + n) r.m
  parity : IsMat r.parity n k ∧ ∀ i t, i < n → entry r.parity i t = entry r.m (k + i) t

theorem reedsolomon_New_spec {k n : Nat} (hk : 1 ≤ k) (hn : 1 ≤ n) (hkn : k + n ≤ 256) :
    ∃ r, reedsolomon.New k n = .ok r ∧ IsEncoder r k n := by
  obtain ⟨M, hM, hcm⟩ := @buildMatrix_spec k (k + n) hk (by omega) hkn
  refine ⟨{ dataShards := k, parityShards := n, totalShards := k + n, m := M,
            parity := (List.range n).map fun i => rowAt M (k + i) }, ?_, rfl, rfl, rfl, hcm, ?_, ?_⟩
  · unfold reedsolomon.New
    rw [if_neg (by omega), if_neg (by omega), if_neg (by omega)]
    simp only [hM, bind, Except.bind]
    rfl
  · refine ⟨by simp, fun row hrow => ?_⟩
    simp only [List.mem_map, List.mem_range] at hrow
    obtain ⟨i, hi, rfl⟩ := hrow
    exact hcm.mat.rowAt_length (by omega)
  · intro i t hi
    simp only [entry]
    congr 1
    simp [rowAt, hi]

theorem rowAt_append_left {a b : List (List Byte)} {i : Nat} (h : i < a.length) :
    rowAt (a ++ b) i = rowAt a i := by
  simp [rowAt, List.getElem?_append_left h]

theorem rowAt_append_right {a b : List (List Byte)} {i : Nat} (h : a.length ≤ i) :
    rowAt (a ++ b) i = rowAt b (i - a.length) := by
  simp [rowAt, List.getElem?_append_right h]

theorem rowAt_take {l : List (List Byte)} {k i : Nat} (h : i < k) :
    rowAt (l.take k) i = rowAt l i := by
  simp [rowAt, List.getElem?_take, h]

theorem entry_eq_of_rowAt {a b : List (List Byte)} {i j : Nat} (h : rowAt a i = rowAt b j)
    (c : Nat) : entry a i c = entry b j c := by
  unfold entry
  rw [h]

theorem IsMat.take {l : List (List Byte)} {t P k : Nat} (h : IsMat l t P) (hk : k ≤ t) :
    IsMat (l.take k) k P :=
  ⟨by rw [List.length_take, h.1]; omega, fun row hrow => h.2 row (List.mem_of_mem_take hrow)⟩

theorem IsMat.drop {l : List (List Byte)} {t P : Nat} (h : IsMat l t P) (k : Nat) :
    IsMat (l.drop k) (t - k) P :=
  ⟨by rw [List.length_drop, h.1], fun row hrow => h.2 row (List.mem_of_mem_drop hrow)⟩

theorem IsMat.append {a b : List (List Byte)} {r1 r2 P : Nat} (ha : IsMat a r1 P)
    (hb : IsMat b r2 P) : IsMat (a ++ b) (r1 + r2) P := by
  refine ⟨by rw [List.length_append, ha.1, hb.1], fun row hrow => ?_⟩
  rcases List.mem_append.mp hrow with h | h
  · exact ha.2 row h
  · exact hb.2 row h

theorem Encode_spec {r : reedSolomon} {k n : Nat} (hr : IsEncoder r k n) (hk : 1 ≤ k)
    (hn : 1 ≤ n) {P : Nat} (hP : 0 < P) {shards : List (List Byte)}
    (hs : IsMat shards (k + n) P) :
    ∃ enc, r.Encode shards = .ok enc ∧ Codeword r.m k (k + n) P enc ∧
      enc.take k = shards.take k := by
  have hchk : checkShards shards false = .ok () := by
    apply checkShards_ok hP
    · intro s hs1
      exact Or.inl (hs.2 s hs1)
    · refine ⟨rowAt shards 0, rowAt_mem (by rw [hs.1]; omega), ?_⟩
      rw [hs.rowAt_length (by omega)]
      omega
  have hin : ∀ c, c < k → (rowAt (shards.take k) c).length = P := by
    intro c hc
    rw [rowAt_take hc]
    exact hs.rowAt_length (by omega)
  have hout : IsMat ((shards.drop k).take n) n P := by
    have h1 := hs.drop k
    have h2 : k + n - k = n := by omega
    rw [h2] at h1
    exact h1.take (le_refl n)
  obtain ⟨hcmat, hcent⟩ := @codeSomeShards_spec _ _ _ r hr.data hk r.parity _ _ hin hout
  set outs := r.codeSomeShards r.parity (shards.take k) ((shards.drop k).take n) with houts
  have hdrop : shards.drop (k + n) = [] := by
    apply List.drop_of_length_le
    rw [hs.1]
  have htk : (shards.take k).length = k := by rw [List.length_take, hs.1]; omega
  refine ⟨shards.take k ++ outs, ?_, ⟨?_, ?_⟩, ?_⟩
  · unfold reedSolomon.Encode
    rw [if_neg (by rw [hs.1, hr.total]; exact fun h => h rfl), hchk]
    simp only [hr.data, hr.par, hdrop, List.append_nil]
  · exact (hs.take (by omega : k ≤ k + n)).append hcmat
  · intro row b hrow
    have hsum : ∀ t : Fin k, entry (shards.take k ++ outs) t b = entry shards t b := by
      intro t
      apply entry_eq_of_rowAt
      rw [rowAt_append_left (by rw [htk]; exact t.isLt), rowAt_take t.isLt]
    simp only [hsum]
    by_cases hrk : row < k
    · have h1 : entry (shards.take k ++ outs) row b = entry shards row b := by
        apply entry_eq_of_rowAt
        rw [rowAt_append_left (by rw [htk]; exact hrk), rowAt_take hrk]
      rw [h1, Finset.sum_eq_single ⟨row, hrk⟩]
      · rw [hr.coding.top row row hrk hrk, if_pos rfl, one_mul]
      · intro t _ ht
        have : ¬ row = t.val := fun h => ht (Fin.ext h.symm)
        rw [hr.coding.top row t hrk t.isLt, if_neg this, zero_mul]
      · intro h
        exact absurd (Finset.mem_univ _) h
    · have h1 : entry (shards.take k ++ outs) row b = entry outs (row - k) b := by
        apply entry_eq_of_rowAt
        rw [rowAt_append_right (by rw [htk]; omega), htk]
      rw [h1, hcent (row - k) b (by omega)]
      apply Finset.sum_congr rfl
      intro t _
      rw [hr.parity.2 (row - k) t (by omega)]
      have h2 : k + (row - k) = row := by omega
      rw [h2]
      congr 1
      apply entry_eq_of_rowAt
      rw [rowAt_take t.isLt]
  · rw [List.take_append_of_le_length (by rw [htk]), List.take_take, Nat.min_self]

/-! ### ReconstructData -/

theorem list_eq_of_getD {a b : List Byte} (hl : a.length = b.length)
    (h : ∀ i, a.getD i 0 = b.getD i 0) : a = b := by
  apply List.ext_getElem hl
  intro i h1 h2
  have := h i
  rwa [List.getD_eq_getElem _ _ h1, List.getD_eq_getElem _ _ h2] at this

theorem rowAt_set (sh : List (List Byte)) (j : Nat) (row : List Byte) (i : Nat) :
    rowAt (sh.set j row) i = if i = j ∧ j < sh.length then row else rowAt sh i := by
  unfold rowAt
  simp only [List.getD_eq_getElem?_getD, List.getElem?_set]
  by_cases h : j = i
  · subst h
    by_cases h2 : j < sh.length
    · simp [h2]
    · simp [h2, List.getElem?_eq_none (not_lt.mp h2)]
  · have h3 : ¬ i = j := fun h4 => h h4.symm
    simp [h, h3]

theorem foldl_set_good (enc : List (List Byte)) :
    ∀ (ps : List (Nat × List Byte)) (sh : List (List Byte)),
      (∀ p ∈ ps, p.2 = rowAt enc p.1 ∧ p.1 < sh.length) →
      (ps.foldl (fun sh p => sh.set p.1 p.2) sh).length = sh.length ∧
      ∀ i, (rowAt sh i = rowAt enc i ∨ i ∈ ps.map Prod.fst) →
        rowAt (ps.foldl (fun sh p => sh.set p.1 p.2) sh) i = rowAt enc i := by
  intro ps
  induction ps with
  | nil =>
    intro sh _
    refine ⟨rfl, fun i hi => ?_⟩
    rcases hi with h | h
    · exact h
    · simp at h
  | cons p ps ih =>
    intro sh hps
    have hp := hps p (List.mem_cons_self _ _)
    have hrest : ∀ q ∈ ps, q.2 = rowAt enc q.1 ∧ q.1 < (sh.set p.1 p.2).length := by
      intro q hq
      have := hps q (List.mem_cons_of_mem _ hq)
      rw [List.length_set]
      exact this
    obtain ⟨h1, h2⟩ := ih (sh.set p.1 p.2) hrest
    rw [List.foldl_cons]
    refine ⟨by rw [h1, List.length_set], fun i hi => ?_⟩
    apply h2
    by_cases hip : i = p.1
    · left
      rw [rowAt_set, if_pos ⟨hip, hp.2⟩, hp.1, hip]
    · rcases hi with h | h
      · left
        rw [rowAt_set, if_neg (fun hc => hip hc.1)]
        exact h
      · right
        simp only [List.map_cons, List.mem_cons] at h
        rcases h with h | h
        · exact absurd h hip
        · exact h

/-- A copy of the encoded shards in which some are absent. -/
def Damaged (enc dam : List (List Byte)) (total : Nat) : Prop :=
  dam.length = total ∧ ∀ i, i < total → rowAt dam i = rowAt enc i ∨ rowAt dam i = []

theorem rowAt_map {α : Type} (l : List α) (f : α → List Byte) {i : Nat} (h : i < l.length) :
    rowAt (l.map f) i = f l[i] := by
  simp [rowAt, h]

theorem Damaged.present {enc dam : List (List Byte)} {total P : Nat} (hd : Damaged enc dam total)
    (henc : IsMat enc total P) {i : Nat} (hi : i < total) (hp : (rowAt dam i).length ≠ 0) :
    rowAt dam i = rowAt enc i ∧ (rowAt dam i).length = P := by
  rcases hd.2 i hi with h | h
  · exact ⟨h, by rw [h]; exact henc.rowAt_length hi⟩
  · rw [h] at hp
    exact absurd rfl hp

theorem Damaged.checkShards {enc dam : List (List Byte)} {total P : Nat}
    (hd : Damaged enc dam total) (henc : IsMat enc total P) (hP : 0 < P)
    (hex : ∃ i, i < total ∧ (rowAt dam i).length ≠ 0) :
    checkShards dam true = .ok () ∧ shardSize dam = P := by
  have h1 : ∀ s ∈ dam, s.length = P ∨ (s.length = 0 ∧ true = true) := by
    intro s hs
    obtain ⟨i, hi, rfl⟩ := List.mem_iff_getElem.mp hs
    have hi2 : i < total := by rw [← hd.1]; exact hi
    have hrow : rowAt dam i = dam[i] := rowAt_eq_getElem hi
    rcases hd.2 i hi2 with h | h
    · left
      rw [← hrow, h]
      exact henc.rowAt_length hi2
    · right
      rw [← hrow, h]
      exact ⟨rfl, rfl⟩
  have h2 : ∃ s ∈ dam, s.length ≠ 0 := by
    obtain ⟨i, hi, hne⟩ := hex
    exact ⟨rowAt dam i, rowAt_mem (by rw [hd.1]; exact hi), hne⟩
  exact ⟨checkShards_ok hP true h1 h2,
    shardSize_eq (fun s hs => (h1 s hs).imp id fun h => h.1) h2⟩

theorem decode_sum {k : Nat} (D S : Matrix (Fin k) (Fin k) Byte) (hDS : D * S = 1)
    (x : Fin k → Byte) (i : Fin k) :
    ∑ t : Fin k, D i t * ∑ s : Fin k, S t s * x s = x i := by
  have h1 : ∑ t : Fin k, D i t * ∑ s : Fin k, S t s * x s =
      ∑ s : Fin k, (∑ t : Fin k, D i t * S t s) * x s := by
    simp only [Finset.mul_sum, Finset.sum_mul]
    rw [Finset.sum_comm]
    exact Finset.sum_congr rfl fun s _ => Finset.sum_congr rfl fun t _ => by ring
  rw [h1]
  have h2 : ∀ s : Fin k, ∑ t : Fin k, D i t * S t s = (1 : Matrix (Fin k) (Fin k) Byte) i s := by
    intro s
    rw [← hDS, Matrix.mul_apply]
  simp only [h2, Matrix.one_apply]
  rw [Finset.sum_eq_single i]
  · simp
  · intro s _ hs
    rw [if_neg (fun h => hs h.symm), zero_mul]
  · intro h
    exact absurd (Finset.mem_univ _) h

theorem ReconstructData_spec {r : reedSolomon} {k n : Nat} (hr : IsEncoder r k n) (hk : 1 ≤ k)
    {P : Nat} (hP : 0 < P) {enc dam : List (List Byte)}
    (henc : Codeword r.m k (k + n) P enc) (hdam : Damaged enc dam (k + n))
    (hpresent : k ≤ ((List.range (k + n)).filter fun i => (rowAt dam i).length ≠ 0).length) :
    ∃ rec, r.ReconstructData dam = .ok rec ∧ rec.length = k + n ∧
      ∀ i, i < k → rowAt rec i = rowAt enc i := by
  -- some shard is present
  have hex : ∃ i, i < k + n ∧ (rowAt dam i).length ≠ 0 := by
    have hne : ((List.range (k + n)).filter fun i => (rowAt dam i).length ≠ 0) ≠ [] := by
      intro h
      rw [h] at hpresent
      simp at hpresent
      omega
    obtain ⟨i, hi⟩ := List.exists_mem_of_ne_nil _ hne
    rw [List.mem_filter, List.mem_range] at hi
    exact ⟨i, hi.1, by simpa using hi.2⟩
  obtain ⟨hchk, hsize⟩ := hdam.checkShards henc.mat hP hex
  unfold reedSolomon.ReconstructData
  rw [if_neg (by rw [hdam.1, hr.total]; exact fun h => h rfl), hchk]
  simp only [hr.total, hr.data, hsize]
  by_cases hall : ((List.range (k + n)).filter fun i => (rowAt dam i).length ≠ 0).length = k + n ∨
      ((List.range k).filter fun i => (rowAt dam i).length ≠ 0).length = k
  · rw [if_pos hall]
    refine ⟨dam, rfl, hdam.1, fun i hi => ?_⟩
    have hp : (rowAt dam i).length ≠ 0 := by
      rcases hall with h | h
      · have h1 : ((List.range (k + n)).filter fun i => (rowAt dam i).length ≠ 0).length =
            (List.range (k + n)).length := by rw [h, List.length_range]
        have := List.filter_length_eq_length.mp h1 i (List.mem_range.mpr (by omega))
        simpa using this
      · have h1 : ((List.range k).filter fun i => (rowAt dam i).length ≠ 0).length =
            (List.range k).length := by rw [h, List.length_range]
        have := List.filter_length_eq_length.mp h1 i (List.mem_range.mpr hi)
        simpa using this
    exact (hdam.present henc.mat (by omega) hp).1
  · rw [if_neg hall, if_neg (by omega)]
    -- the rows used for decoding
    set vi := ((List.range (k + n)).filter fun i => (rowAt dam i).length ≠ 0).take k with hvi
    have hvilen : vi.length = k := by rw [hvi, List.length_take]; omega
    have hvimem : ∀ x ∈ vi, x < k + n ∧ (rowAt dam x).length ≠ 0 := by
      intro x hx
      have := List.mem_of_mem_take hx
      rw [List.mem_filter, List.mem_range] at this
      exact ⟨this.1, by simpa using this.2⟩
    have hvind : vi.Nodup :=
      ((List.nodup_range (k + n)).sublist (List.filter_sublist _)).sublist
        (List.take_sublist _ _)
    have hb : ∀ j : Fin k, j.val < vi.length := fun j => by rw [hvilen]; exact j.isLt
    have hvilt : ∀ j : Fin k, vi.get ⟨j.val, hb j⟩ < k + n := fun j =>
      (hvimem _ (List.getElem_mem (hb j))).1
    let f : Fin k → Fin (k + n) := fun j => ⟨vi.get ⟨j.val, hb j⟩, hvilt j⟩
    have hf : Function.Injective f := by
      intro a b hab
      have h1 : vi.get ⟨a.val, hb a⟩ = vi.get ⟨b.val, hb b⟩ := congrArg Fin.val hab
      exact Fin.ext (Fin.mk.inj ((hvind.get_inj_iff).mp h1))
    set sub := vi.map fun i => (List.range k).map fun c => entry r.m i c with hsub
    have hsubmat : IsMat sub k k := by
      refine ⟨by rw [hsub, List.length_map, hvilen], fun row hrow => ?_⟩
      rw [hsub, List.mem_map] at hrow
      obtain ⟨i, _, rfl⟩ := hrow
      simp
    have hsubent : ∀ (j c : Fin k), entry sub j c = entry r.m (f j) c := by
      intro j c
      unfold entry
      rw [hsub, rowAt_map _ _ (by rw [hvilen]; exact j.isLt)]
      simp [c.isLt, entry, f]
    have hdet : (toM sub k k).det ≠ 0 := by
      have h1 : toM sub k k =
          (Matrix.of fun i j => entry r.m (f i) j : Matrix (Fin k) (Fin k) Byte) := by
        ext i j
        rw [toM_apply, hsubent]
        rfl
      rw [h1]
      exact hr.coding.indep f hf
    obtain ⟨D, hD, hDmat, hDmul⟩ := Invert_spec hk hsubmat hdet
    rw [hD]
    simp only []
    set missing := (List.range k).filter fun i => (rowAt dam i).length = 0 with hmissing
    have hmisslt : ∀ x ∈ missing, x < k := by
      intro x hx
      rw [hmissing, List.mem_filter, List.mem_range] at hx
      exact hx.1
    have hin : ∀ c, c < k → (rowAt (vi.map fun i => rowAt dam i) c).length = P := by
      intro c hc
      rw [rowAt_map _ _ (by rw [hvilen]; exact hc)]
      exact (hdam.present henc.mat (hvimem _ (List.getElem_mem _)).1
        (hvimem _ (List.getElem_mem _)).2).2
    have hout : IsMat (missing.map fun _ => List.replicate P (byte 0)) missing.length P := by
      refine ⟨by simp, fun row hrow => ?_⟩
      rw [List.mem_map] at hrow
      obtain ⟨_, _, rfl⟩ := hrow
      simp
    obtain ⟨hcmat, hcent⟩ := @codeSomeShards_spec _ _ _ r hr.data hk
      (missing.map fun i => rowAt D i) _ _ hin hout
    set outs := r.codeSomeShards (missing.map fun i => rowAt D i) (vi.map fun i => rowAt dam i)
      (missing.map fun _ => List.replicate P (byte 0)) with houts
    have hrows : ∀ j (hj : j < missing.length), rowAt outs j = rowAt enc missing[j] := by
      intro j hj
      have hmj : missing[j] < k := hmisslt _ (List.getElem_mem _)
      apply list_eq_of_getD
      · rw [hcmat.rowAt_length hj, henc.mat.rowAt_length (by omega)]
      · intro b
        show entry outs j b = entry enc missing[j] b
        rw [hcent j b hj]
        have h1 : ∀ t : Fin k, entry (missing.map fun i => rowAt D i) j t *
            entry (vi.map fun i => rowAt dam i) t b =
            toM D k k ⟨missing[j], hmj⟩ t *
              ∑ s : Fin k, toM sub k k t s * entry enc s b := by
          intro t
          congr 1
          · unfold entry
            rw [rowAt_map _ _ hj]
            rfl
          · have h2 : entry (vi.map fun i => rowAt dam i) t b = entry enc (f t) b := by
              unfold entry
              rw [rowAt_map _ _ (by rw [hvilen]; exact t.isLt)]
              have := (hdam.present henc.mat (hvimem _ (List.getElem_mem _)).1
                (hvimem _ (List.getElem_mem (hb t))).2).1
              rw [this]
              rfl
            rw [h2, henc.eqn (f t) b (f t).isLt]
            exact Finset.sum_congr rfl fun s _ => by rw [toM_apply, hsubent]
        simp only [h1]
        exact decode_sum (toM D k k) (toM sub k k) hDmul (fun s => entry enc s b)
          ⟨missing[j], hmj⟩
    have hps : ∀ p ∈ missing.zip outs, p.2 = rowAt enc p.1 ∧ p.1 < dam.length := by
      intro p hp
      obtain ⟨j, hj, rfl⟩ := List.mem_iff_getElem.mp hp
      have hj1 : j < missing.length := by
        rw [List.length_zip] at hj
        omega
      have hj2 : j < outs.length := by
        rw [List.length_zip] at hj
        omega
      rw [List.getElem_zip]
      constructor
      · show outs[j] = rowAt enc missing[j]
        rw [← hrows j hj1, rowAt_eq_getElem hj2]
      · show missing[j] < dam.length
        rw [hdam.1]
        have := hmisslt _ (List.getElem_mem hj1)
        omega
    obtain ⟨hlen, hgood⟩ := foldl_set_good enc (missing.zip outs) dam hps
    refine ⟨_, rfl, by rw [hlen, hdam.1], fun i hi => ?_⟩
    apply hgood
    by_cases hp : (rowAt dam i).length = 0
    · right
      rw [List.map_fst_zip _ _ (by rw [hcmat.1])]
      rw [hmissing, List.mem_filter, List.mem_range]
      exact ⟨hi, by simpa using hp⟩
    · left
      exact (hdam.present henc.mat (by omega) hp).1

/-! ### Join -/

theorem joinSize_ok {P : Nat} (hP : 0 < P) (outSize : Nat) :
    ∀ (l : List (List Byte)) (size : Nat), (∀ s ∈ l, s.length = P) →
      outSize ≤ size + l.length * P →
      ∃ sz, reedSolomon.joinSize l size outSize = .ok sz ∧ outSize ≤ sz := by
  intro l
  induction l with
  | nil =>
    intro size _ h
    exact ⟨size, rfl, by simpa using h⟩
  | cons s rest ih =>
    intro size hl h
    have hs : s.length = P := hl s (List.mem_cons_self _ _)
    unfold reedSolomon.joinSize
    rw [if_neg (by omega)]
    by_cases h2 : size + s.length ≥ outSize
    · rw [if_pos h2]
      exact ⟨_, rfl, h2⟩
    · rw [if_neg h2]
      apply ih _ fun x hx => hl x (List.mem_cons_of_mem _ hx)
      rw [List.length_cons, Nat.succ_mul] at h
      omega

theorem joinWrite_all {P : Nat} :
    ∀ (l : List (List Byte)) (dst : List Byte), (∀ s ∈ l, s.length = P) →
      reedSolomon.joinWrite l (l.length * P) dst = dst ++ l.flatten := by
  intro l
  induction l with
  | nil =>
    intro dst _
    simp [reedSolomon.joinWrite]
  | cons s rest ih =>
    intro dst hl
    have hs : s.length = P := hl s (List.mem_cons_self _ _)
    unfold reedSolomon.joinWrite
    rw [List.length_cons, Nat.succ_mul, if_neg (by omega)]
    have h1 : rest.length * P + P - s.length = rest.length * P := by omega
    rw [h1, ih _ fun x hx => hl x (List.mem_cons_of_mem _ hx)]
    simp

theorem Join_spec {r : reedSolomon} {k : Nat} (hr : r.dataShards = k) {P : Nat} (hP : 0 < P)
    {shards : List (List Byte)} (hlen : k ≤ shards.length)
    (hrows : ∀ i, i < k → (rowAt shards i).length = P) (dst : List Byte) :
    r.Join dst shards (P * k) = (dst ++ (shards.take k).flatten, none) := by
  have hall : ∀ s ∈ shards.take k, s.length = P := by
    intro s hs
    obtain ⟨i, hi, rfl⟩ := List.mem_iff_getElem.mp hs
    rw [List.length_take] at hi
    rw [List.getElem_take]
    have := hrows i (by omega)
    rwa [rowAt_eq_getElem (by omega)] at this
  have htl : (shards.take k).length = k := by rw [List.length_take]; omega
  obtain ⟨sz, hsz, hge⟩ := joinSize_ok hP (P * k) (shards.take k) 0 hall (by
    rw [htl, Nat.mul_comm]; omega)
  unfold reedSolomon.Join
  rw [if_neg (by rw [hr]; omega), hr, hsz]
  simp only []
  rw [if_neg (by omega)]
  have := joinWrite_all (shards.take k) dst hall
  rw [htl, Nat.mul_comm] at this
  rw [this]

/-! ### Paths -/

theorem splitPath_nil : splitPath [] = [[]] := rfl

theorem splitPath_sep (cs : List Char) : splitPath ('/' :: cs) = [] :: splitPath cs := by
  rw [splitPath, if_pos rfl]

theorem splitPath_ne_nil (p : List Char) : splitPath p ≠ [] := by
  cases p with
  | nil => simp [splitPath]
  | cons c cs =>
    rw [splitPath]
    by_cases h : c = '/'
    · simp [h]
    · rw [if_neg h]
      cases splitPath cs <;> simp

theorem splitPath_cons {c : Char} (h : c ≠ '/') (cs : List Char) :
    splitPath (c :: cs) = (c :: (splitPath cs).headD []) :: (splitPath cs).tail := by
  rw [splitPath, if_neg h]
  cases hs : splitPath cs with
  | nil => exact absurd hs (splitPath_ne_nil cs)
  | cons e es => rfl

theorem splitPath_append (a b : List Char) :
    splitPath (a ++ '/' :: b) = splitPath a ++ splitPath b := by
  induction a with
  | nil => rw [List.nil_append, splitPath_sep, splitPath_nil]; rfl
  | cons c cs ih =>
    rw [List.cons_append]
    by_cases h : c = '/'
    · subst h
      rw [splitPath_sep, splitPath_sep, ih, List.cons_append]
    · rw [splitPath_cons h, splitPath_cons h, ih]
      cases hs : splitPath cs with
      | nil => exact absurd hs (splitPath_ne_nil cs)
      | cons e es => rfl

theorem splitPath_no_sep (p : List Char) : ∀ e ∈ splitPath p, '/' ∉ e := by
  induction p with
  | nil => simp [splitPath]
  | cons c cs ih =>
    by_cases h : c = '/'
    · subst h
      rw [splitPath_sep]
      intro e he
      rcases List.mem_cons.mp he with rfl | he
      · simp
      · exact ih e he
    · rw [splitPath_cons h]
      cases hs : splitPath cs with
      | nil => exact absurd hs (splitPath_ne_nil cs)
      | cons e es =>
        rw [hs] at ih
        intro x hx
        rcases List.mem_cons.mp hx with rfl | hx
        · intro hmem
          rcases List.mem_cons.mp hmem with h1 | h1
          · exact h h1.symm
          · exact ih e (List.mem_cons_self _ _) h1
        · exact ih x (List.mem_cons_of_mem _ hx)

theorem splitPath_of_no_sep {e : List Char} (h : '/' ∉ e) : splitPath e = [e] := by
  induction e with
  | nil => rfl
  | cons c cs ih =>
    have hc : c ≠ '/' := fun hc => h (by rw [hc]; exact List.mem_cons_self _ _)
    rw [splitPath_cons hc, ih (fun hm => h (List.mem_cons_of_mem _ hm))]
    rfl

theorem splitPath_joinSep {out : List (List Char)} (hne : out ≠ [])
    (h : ∀ e ∈ out, '/' ∉ e) : splitPath (joinSep out) = out := by
  induction out with
  | nil => exact absurd rfl hne
  | cons e es ih =>
    cases es with
    | nil => exact splitPath_of_no_sep (h e (List.mem_cons_self _ _))
    | cons e2 es2 =>
      show splitPath (e ++ '/' :: joinSep (e2 :: es2)) = _
      rw [splitPath_append, splitPath_of_no_sep (h e (List.mem_cons_self _ _)),
        ih (by simp) (fun x hx => h x (List.mem_cons_of_mem _ hx))]
      rfl

/-- An element that Clean keeps: a name, or a double dot. -/
def KeptElem (e : List Char) : Prop := e ≠ [] ∧ e ≠ ['.'] ∧ '/' ∉ e

/-- What holds of the elements kept by Clean, the last one first: below a double dot there
are only double dots, and none is kept at the root. -/
def KeptStack (rooted : Bool) : List (List Char) → Prop
  | [] => True
  | e :: s => KeptElem e ∧ (e = ['.', '.'] → rooted = false ∧ ∀ x ∈ s, x = ['.', '.']) ∧
      KeptStack rooted s

theorem KeptStack.step {rooted : Bool} {s : List (List Char)} (hs : KeptStack rooted s)
    {e : List Char} (he : '/' ∉ e) : KeptStack rooted (cleanStep rooted s e) := by
  unfold cleanStep
  by_cases h1 : e = [] ∨ e = ['.']
  · rw [if_pos h1]
    exact hs
  · rw [if_neg h1]
    have hk : KeptElem e := ⟨fun h => h1 (Or.inl h), fun h => h1 (Or.inr h), he⟩
    by_cases h2 : e = ['.', '.']
    · rw [if_pos h2]
      revert hs
      cases s with
      | nil =>
        intro _
        cases rooted with
        | true => exact trivial
        | false => exact ⟨hk, fun _ => ⟨rfl, by simp⟩, trivial⟩
      | cons top rest =>
        intro hs
        simp only []
        by_cases h3 : top = ['.', '.']
        · rw [if_pos h3]
          obtain ⟨h7, h8⟩ := hs.2.1 h3
          refine ⟨hk, fun _ => ⟨h7, fun x hx => ?_⟩, hs⟩
          rcases List.mem_cons.mp hx with rfl | hx
          · exact h3
          · exact h8 x hx
        · rw [if_neg h3]
          exact hs.2.2
    · rw [if_neg h2]
      exact ⟨hk, fun h => absurd h h2, hs⟩

theorem KeptStack.foldl {rooted : Bool} (l : List (List Char)) :
    ∀ {s : List (List Char)}, KeptStack rooted s → (∀ e ∈ l, '/' ∉ e) →
      KeptStack rooted (l.foldl (cleanStep rooted) s) := by
  induction l with
  | nil => intro s hs _; exact hs
  | cons e es ih =>
    intro s hs h
    rw [List.foldl_cons]
    exact ih (hs.step (h e (List.mem_cons_self _ _)))
      (fun x hx => h x (List.mem_cons_of_mem _ hx))

theorem KeptStack.mem {rooted : Bool} : ∀ {s : List (List Char)}, KeptStack rooted s →
    ∀ e ∈ s, KeptElem e
  | [], _, e, he => by simp at he
  | x :: s, hs, e, he => by
    rcases List.mem_cons.mp he with rfl | he
    · exact hs.1
    · exact KeptStack.mem hs.2.2 e he

theorem KeptStack.of_append {rooted : Bool} (l : List (List Char)) {s : List (List Char)}
    (h : KeptStack rooted (l ++ s)) : KeptStack rooted s := by
  induction l with
  | nil => exact h
  | cons x xs ih => exact ih h.2.2

/-- Reading back the elements that Clean kept gives them again. -/
theorem foldl_cleanStep_kept {rooted : Bool} (l : List (List Char)) :
    ∀ (s : List (List Char)), KeptStack rooted (l.reverse ++ s) →
      l.foldl (cleanStep rooted) s = l.reverse ++ s := by
  induction l with
  | nil => intro s _; rfl
  | cons e es ih =>
    intro s hs
    rw [List.reverse_cons, List.append_assoc, List.singleton_append] at hs
    rw [List.foldl_cons, List.reverse_cons, List.append_assoc, List.singleton_append]
    have hes : KeptStack rooted (e :: s) := KeptStack.of_append _ hs
    have hstep : cleanStep rooted s e = e :: s := by
      unfold cleanStep
      obtain ⟨hk, hdd, _⟩ := hes
      rw [if_neg (fun h => h.elim hk.1 hk.2.1)]
      by_cases h2 : e = ['.', '.']
      · rw [if_pos h2]
        obtain ⟨hr, hall⟩ := hdd h2
        cases s with
        | nil => rw [hr]; rfl
        | cons top rest =>
          simp only []
          rw [if_pos (hall top (List.mem_cons_self _ _))]
      · rw [if_neg h2]
    rw [hstep]
    exact ih (e :: s) hs

theorem isRooted_renderPath {rooted : Bool} {out : List (List Char)}
    (h : ∀ e ∈ out, KeptElem e) : isRooted (renderPath rooted out) = rooted := by
  unfold renderPath isRooted
  cases rooted with
  | true => simp
  | false =>
    simp only [Bool.false_eq_true, if_false]
    cases out with
    | nil => simp
    | cons e es =>
      rw [if_neg (by simp)]
      obtain ⟨h1, _, h3⟩ := h e (List.mem_cons_self _ _)
      cases e with
      | nil => exact absurd rfl h1
      | cons c cs =>
        have hc : c ≠ '/' := fun hc => h3 (by rw [hc]; exact List.mem_cons_self _ _)
        cases es with
        | nil => simpa [joinSep] using hc
        | cons e2 es2 => simpa [joinSep] using hc

theorem renderPath_ne_nil (rooted : Bool) {out : List (List Char)}
    (h : ∀ e ∈ out, KeptElem e) : renderPath rooted out ≠ [] := by
  unfold renderPath
  cases rooted with
  | true => simp
  | false =>
    simp only [Bool.false_eq_true, if_false]
    cases out with
    | nil => simp
    | cons e es =>
      rw [if_neg (by simp)]
      obtain ⟨h1, _, _⟩ := h e (List.mem_cons_self _ _)
      cases e with
      | nil => exact absurd rfl h1
      | cons c cs =>
        cases es <;> simp [joinSep]

theorem foldl_splitPath_renderPath {rooted : Bool} {s : List (List Char)}
    (hs : KeptStack rooted s) :
    (splitPath (renderPath rooted s.reverse)).foldl (cleanStep rooted) [] = s := by
  have hno : ∀ e ∈ s.reverse, '/' ∉ e := fun e he =>
    (hs.mem e (List.mem_reverse.mp he)).2.2
  have hback : s.reverse.foldl (cleanStep rooted) [] = s := by
    have := foldl_cleanStep_kept s.reverse [] (by simpa using hs)
    simpa using this
  unfold renderPath
  cases rooted with
  | true =>
    simp only [if_true]
    by_cases hnil : s.reverse = []
    · have : s = [] := by simpa using hnil
      subst this
      decide
    · have h1 : splitPath ('/' :: joinSep s.reverse) = [] :: s.reverse := by
        have := splitPath_append [] (joinSep s.reverse)
        rw [List.nil_append] at this
        rw [this, splitPath_joinSep hnil hno]
        rfl
      rw [h1, List.foldl_cons]
      have h2 : cleanStep true [] [] = [] := by simp [cleanStep]
      rw [h2]
      exact hback
  | false =>
    simp only [Bool.false_eq_true, if_false]
    by_cases hnil : s.reverse = []
    · have : s = [] := by simpa using hnil
      subst this
      decide
    · rw [if_neg hnil, splitPath_joinSep hnil hno]
      exact hback

theorem isRooted_append {a : List Char} (h : a ≠ []) (b : List Char) :
    isRooted (a ++ b) = isRooted a := by
  cases a with
  | nil => exact absurd rfl h
  | cons c cs => rfl

/-- Cleaning a path, and then cleaning the result with more elements after it, is cleaning
the path with those elements after it. -/
theorem cleanChars_cleanChars_append {q : List Char} (hq : q ≠ []) (t : List Char) :
    cleanChars (cleanChars q ++ '/' :: t) = cleanChars (q ++ '/' :: t) := by
  have hks : KeptStack (isRooted q) ((splitPath q).foldl (cleanStep (isRooted q)) []) :=
    KeptStack.foldl _ (show KeptStack _ [] from trivial) (splitPath_no_sep q)
  have hmem : ∀ e ∈ ((splitPath q).foldl (cleanStep (isRooted q)) []).reverse, KeptElem e :=
    fun e he => hks.mem e (List.mem_reverse.mp he)
  have hne : cleanChars q ≠ [] := renderPath_ne_nil _ hmem
  have hroot : isRooted (cleanChars q) = isRooted q := isRooted_renderPath hmem
  have hstate : (splitPath (cleanChars q)).foldl (cleanStep (isRooted q)) [] =
      (splitPath q).foldl (cleanStep (isRooted q)) [] := foldl_splitPath_renderPath hks
  show renderPath _ _ = renderPath _ _
  rw [isRooted_append hne, isRooted_append hq, hroot, splitPath_append, splitPath_append,
    List.foldl_append, List.foldl_append, hstate]

theorem cleanChars_ne_nil (q : List Char) : cleanChars q ≠ [] :=
  renderPath_ne_nil _ fun e he =>
    (KeptStack.foldl (splitPath q) (show KeptStack (isRooted q) [] from trivial)
      (splitPath_no_sep q)).mem e (List.mem_reverse.mp he)

theorem Clean_data_ne_nil (p : String) : (Clean p).data ≠ [] := by
  unfold Clean
  by_cases h : p.data = []
  · rw [if_pos h]
    decide
  · rw [if_neg h]
    exact cleanChars_ne_nil _

/-- The path of a shard file as Save builds it, in two steps, is the path as Get builds it,
in one. -/
theorem filepath_Join_Join (disk name last : String) (hl : last.data ≠ []) :
    filepath_Join [filepath_Join [disk, name], last] = filepath_Join [disk, name, last] := by
  by_cases hd : disk.data = []
  · by_cases hn : name.data = []
    · have h1 : filepath_Join [disk, name] = "" := by
        simp [filepath_Join, List.dropWhile, hd, hn]
      rw [h1]
      simp [filepath_Join, List.dropWhile, hd, hn, hl]
    · have h1 : filepath_Join [disk, name] = Clean ⟨name.data⟩ := by
        simp [filepath_Join, List.dropWhile, hd, hn, joinSep]
      have h2 : filepath_Join [disk, name, last] = Clean ⟨name.data ++ '/' :: last.data⟩ := by
        simp [filepath_Join, List.dropWhile, hd, hn, joinSep]
      have h3 : filepath_Join [Clean ⟨name.data⟩, last] =
          Clean ⟨(Clean ⟨name.data⟩).data ++ '/' :: last.data⟩ := by
        simp [filepath_Join, List.dropWhile, Clean_data_ne_nil, joinSep]
      rw [h1, h2, h3]
      unfold Clean
      simp only [hn, if_false, List.append_eq_nil, false_and, cleanChars_ne_nil,
        reduceCtorEq, and_false]
      rw [cleanChars_cleanChars_append hn]
  · have h1 : filepath_Join [disk, name] = Clean ⟨disk.data ++ '/' :: name.data⟩ := by
      simp [filepath_Join, List.dropWhile, hd, joinSep]
    have h2 : filepath_Join [disk, name, last] =
        Clean ⟨disk.data ++ '/' :: (name.data ++ '/' :: last.data)⟩ := by
      simp [filepath_Join, List.dropWhile, hd, joinSep]
    have h3 : filepath_Join [Clean ⟨disk.data ++ '/' :: name.data⟩, last] =
        Clean ⟨(Clean ⟨disk.data ++ '/' :: name.data⟩).data ++ '/' :: last.data⟩ := by
      simp [filepath_Join, List.dropWhile, Clean_data_ne_nil, joinSep]
    rw [h1, h2, h3]
    unfold Clean
    have hq : disk.data ++ '/' :: name.data ≠ [] := by simp
    simp only [hq, if_false, List.append_eq_nil, false_and, cleanChars_ne_nil,
      reduceCtorEq, and_false]
    rw [cleanChars_cleanChars_append hq]
    simp

/-- The path that Get opens for a shard is the path that Save wrote it to. -/
theorem filepath_Join_shard (disk name : String) :
    filepath_Join [disk, name, "shard"] = shardPath disk name :=
  (filepath_Join_Join disk name "shard" (by decide)).symm

/-! ### Opening the writers -/

/-- Only new nodes appear: a path that held something keeps it. -/
def Grows (fs fs1 : FS) : Prop :=
  fs1.entries = fs.entries ∧ fs1.writeFault = fs.writeFault ∧ fs1.readFault = fs.readFault ∧
  fs1.writes = fs.writes ∧
  ∀ p, fs1.node p = fs.node p ∨
    (fs.node p = none ∧ (fs1.node p = some .dir ∨ fs1.node p = some (.file [])))

theorem Grows.refl (fs : FS) : Grows fs fs := ⟨rfl, rfl, rfl, rfl, fun _ => Or.inl rfl⟩

theorem Grows.trans {a b c : FS} (h1 : Grows a b) (h2 : Grows b c) : Grows a c := by
  refine ⟨h2.1.trans h1.1, h2.2.1.trans h1.2.1, h2.2.2.1.trans h1.2.2.1,
    h2.2.2.2.1.trans h1.2.2.2.1, fun p => ?_⟩
  rcases h2.2.2.2.2 p with h | ⟨hn, h⟩
  · rw [h]
    exact h1.2.2.2.2 p
  · rcases h1.2.2.2.2 p with h3 | ⟨h3, _⟩
    · exact Or.inr ⟨by rw [← h3]; exact hn, h⟩
    · exact Or.inr ⟨h3, h⟩

theorem Grows.setNode {fs : FS} {p : String} (h : fs.node p = none) {nd : Node}
    (hnd : nd = .dir ∨ nd = .file []) : Grows fs (fs.setNode p nd) := by
  refine ⟨rfl, rfl, rfl, rfl, fun q => ?_⟩
  unfold FS.setNode
  by_cases hq : q = p
  · right
    subst hq
    simp only [if_true]
    exact ⟨h, hnd.imp (fun h => by rw [h]) (fun h => by rw [h])⟩
  · left
    simp only [hq, if_false]

theorem os_MkdirAll_ok {fs fs1 : FS} {p : String} (h : os_MkdirAll fs p = (fs1, .ok ())) :
    Grows fs fs1 := by
  unfold os_MkdirAll at h
  split at h
  · simp at h
  · simp only [Prod.mk.injEq, and_true] at h
    rw [← h]
    exact Grows.refl fs
  · rename_i hn
    simp only [Prod.mk.injEq, and_true] at h
    rw [← h]
    exact Grows.setNode hn (Or.inl rfl)

theorem os_OpenFile_create_ok {fs fs1 : FS} {p f : String}
    (h : os_OpenFile_create fs p = (fs1, .ok f)) :
    f = p ∧ Grows fs fs1 ∧ ∃ c, fs1.node p = some (.file c) := by
  unfold os_OpenFile_create at h
  split at h
  · simp at h
  · rename_i c hc
    simp only [Prod.mk.injEq, Except.ok.injEq] at h
    rw [← h.1, ← h.2]
    exact ⟨rfl, Grows.refl fs, c, hc⟩
  · rename_i hn
    simp only [Prod.mk.injEq, Except.ok.injEq] at h
    rw [← h.1, ← h.2]
    exact ⟨rfl, Grows.setNode hn (Or.inr rfl), [], by simp [FS.setNode]⟩

theorem openWriters_ok (name : String) :
    ∀ (disks : List String) (fs : FS) (ws : List (Option String)) (fs1 : FS)
      (ws1 : List (Option String)),
      openWriters name disks fs ws = (fs1, .ok ws1) →
      ws1 = ws ++ disks.map (fun d => some (shardPath d name)) ∧ Grows fs fs1 ∧
      ∀ d ∈ disks, ∃ c, fs1.node (shardPath d name) = some (.file c) := by
  intro disks
  induction disks with
  | nil =>
    intro fs ws fs1 ws1 h
    simp only [openWriters, Prod.mk.injEq, Except.ok.injEq] at h
    rw [← h.1, ← h.2]
    exact ⟨by simp, Grows.refl fs, fun d hd => by simp at hd⟩
  | cons disk rest ih =>
    intro fs ws fs1 ws1 h
    unfold openWriters at h
    simp only [] at h
    cases hm : os_MkdirAll fs (filepath_Join [disk, name]) with
    | mk fsa ra =>
      rw [hm] at h
      cases ra with
      | error e => simp at h
      | ok u =>
        simp only [] at h
        cases ho : os_OpenFile_create fsa (filepath_Join [filepath_Join [disk, name], "shard"]) with
        | mk fsb rb =>
          rw [ho] at h
          cases rb with
          | error e => simp at h
          | ok f =>
            simp only [] at h
            obtain ⟨hf, hg2, c, hc⟩ := os_OpenFile_create_ok ho
            obtain ⟨hw, hg3, hfiles⟩ := ih fsb _ fs1 ws1 h
            have hg1 := os_MkdirAll_ok hm
            refine ⟨?_, (hg1.trans hg2).trans hg3, ?_⟩
            · rw [hw, hf]
              simp [shardPath]
            · intro d hd
              rcases List.mem_cons.mp hd with h1 | h1
              · subst h1
                refine ⟨c, ?_⟩
                rcases hg3.2.2.2.2 (shardPath d name) with h2 | ⟨h2, _⟩
                · rw [h2]; exact hc
                · rw [show shardPath d name =
                      filepath_Join [filepath_Join [d, name], "shard"] from rfl, hc] at h2
                  simp at h2
              · exact hfiles d h1

/-! ### The write fan-out -/

theorem writers_getD (paths : List String) {i : Nat} (hi : i < paths.length) :
    (paths.map some).getD i none = some (paths.getD i "") := by
  simp [List.getD_eq_getElem?_getD, hi]

/-- Content of a file after one write of `data` at its start. -/
def overwrite (data old : List Byte) : List Byte := data ++ old.drop data.length

theorem writeTask_spec {writers : List (Option String)} {data : List (List Byte)}
    {st : WriteState} {i : Nat} {p : String} {c : List Byte} (hp : st.panicked = false)
    (hw : writers.getD i none = some p) (hi : i < data.length)
    (hc : st.fs.node p = some (.file c)) :
    (writeTask writers data st i).panicked = false ∧
    (writeTask writers data st i).fs.writes = st.fs.writes ++ [(p, rowAt data i)] ∧
    (writeTask writers data st i).fs.writeFault = st.fs.writeFault ∧
    (writeTask writers data st i).fs.readFault = st.fs.readFault ∧
    (writeTask writers data st i).fs.entries = st.fs.entries ∧
    (writeTask writers data st i).errs = st.errs ++ (writeErr st.fs p).toList ∧
    (∀ q, q ≠ p → (writeTask writers data st i).fs.node q = st.fs.node q) ∧
    (writeTask writers data st i).fs.node p =
      some (.file (if st.fs.writeFault p then c else overwrite (rowAt data i) c)) := by
  have hrow : rowAt data i = data[i] := rowAt_eq_getElem hi
  unfold writeTask
  rw [if_neg (by simp [hp]), hw]
  simp only [dif_pos hi]
  unfold file_Write
  by_cases hf : st.fs.writeFault p = true
  · simp only [hf, if_true, writeErr, Option.toList]
    simp [hp, hrow, hc]
  · have hf2 : st.fs.writeFault p = false := by simpa using hf
    simp only [hf2, hc, writeErr, Option.toList]
    simp [hp, hrow, FS.setNode, overwrite]
    intro q hq
    simp [hq]

theorem parallelWrite_fold (paths : List String) (data : List (List Byte))
    (hlen : paths.length ≤ data.length) :
    ∀ (sched : List Nat) (st : WriteState), st.panicked = false →
      (∀ i ∈ sched, i < paths.length) →
      (∀ p ∈ paths, ∃ c, st.fs.node p = some (.file c)) →
      (sched.foldl (writeTask (paths.map some) data) st).panicked = false ∧
      (sched.foldl (writeTask (paths.map some) data) st).fs.writes =
        st.fs.writes ++ sched.map (fun i => (paths.getD i "", rowAt data i)) ∧
      (sched.foldl (writeTask (paths.map some) data) st).fs.writeFault = st.fs.writeFault ∧
      (sched.foldl (writeTask (paths.map some) data) st).fs.readFault = st.fs.readFault ∧
      (sched.foldl (writeTask (paths.map some) data) st).fs.entries = st.fs.entries ∧
      (sched.foldl (writeTask (paths.map some) data) st).errs =
        st.errs ++ sched.filterMap (fun i => writeErr st.fs (paths.getD i "")) ∧
      (∀ q, (∀ i ∈ sched, paths.getD i "" ≠ q) →
        (sched.foldl (writeTask (paths.map some) data) st).fs.node q = st.fs.node q) ∧
      (∀ p ∈ paths, ∃ c,
        (sched.foldl (writeTask (paths.map some) data) st).fs.node p = some (.file c)) ∧
      (paths.Nodup → sched.Nodup → ∀ i ∈ sched, ∀ c,
        st.fs.node (paths.getD i "") = some (.file c) →
        (sched.foldl (writeTask (paths.map some) data) st).fs.node (paths.getD i "") =
          some (.file (if st.fs.writeFault (paths.getD i "") then c
            else overwrite (rowAt data i) c))) := by
  intro sched
  induction sched with
  | nil =>
    intro st hp _ hfiles
    exact ⟨hp, by simp, rfl, rfl, rfl, by simp, fun _ _ => rfl, hfiles,
      fun _ _ i hi => absurd hi (List.not_mem_nil i)⟩
  | cons i rest ih =>
    intro st hp hlt hfiles
    have hi : i < paths.length := hlt i (List.mem_cons_self _ _)
    have hpi : paths.getD i "" ∈ paths := by
      rw [List.getD_eq_getElem _ _ hi]
      exact List.getElem_mem hi
    obtain ⟨c, hc⟩ := hfiles _ hpi
    obtain ⟨s1, s2, s3, s4, s5, s6, s7, s8⟩ :=
      @writeTask_spec _ data _ _ _ _ hp (writers_getD paths hi) (by omega) hc
    set st1 := writeTask (paths.map some) data st i
    have hfiles1 : ∀ p ∈ paths, ∃ c, st1.fs.node p = some (.file c) := by
      intro p hpm
      by_cases hpp : p = paths.getD i ""
      · rw [hpp, s8]
        exact ⟨_, rfl⟩
      · rw [s7 p hpp]
        exact hfiles p hpm
    obtain ⟨r1, r2, r3, r4, r5, r6, r7, r8, r9⟩ :=
      ih st1 s1 (fun j hj => hlt j (List.mem_cons_of_mem _ hj)) hfiles1
    rw [List.foldl_cons]
    refine ⟨r1, ?_, r3.trans s3, r4.trans s4, r5.trans s5, ?_, ?_, r8, ?_⟩
    · rw [r2, s2]
      simp
    · rw [r6, s6, List.filterMap_cons]
      have hwe : ∀ q, writeErr st1.fs q = writeErr st.fs q := by
        intro q
        unfold writeErr
        rw [s3]
      simp only [hwe]
      cases writeErr st.fs (paths.getD i "") <;> simp
    · intro q hq
      rw [r7 q fun j hj => hq j (List.mem_cons_of_mem _ hj)]
      exact s7 q (fun h => hq i (List.mem_cons_self _ _) h.symm)
    · intro hnd hsnd j hj c2 hc2
      have hsnd2 := List.nodup_cons.mp hsnd
      rcases List.mem_cons.mp hj with h | h
      · subst h
        rw [r7 _ (fun l hl heq => ?_), s8]
        · rw [hc] at hc2
          simp only [Option.some.injEq, Node.file.injEq] at hc2
          rw [hc2]
        · have hl2 : l < paths.length := hlt l (List.mem_cons_of_mem _ hl)
          rw [List.getD_eq_getElem _ _ hl2, List.getD_eq_getElem _ _ hi] at heq
          have := (hnd.getElem_inj_iff).mp heq
          rw [this] at hl
          exact hsnd2.1 hl
      · have hj2 : j < paths.length := hlt j (List.mem_cons_of_mem _ h)
        have hne : paths.getD j "" ≠ paths.getD i "" := by
          intro heq
          rw [List.getD_eq_getElem _ _ hj2, List.getD_eq_getElem _ _ hi] at heq
          have := (hnd.getElem_inj_iff).mp heq
          rw [this] at h
          exact hsnd2.1 h
        have := r9 hnd hsnd2.2 j h c2 (by rw [s7 _ hne]; exact hc2)
        rw [this, s3]

/-! ### Opening the readers and the read fan-out -/

/-- The reader that Get holds for a path: the handle when the file opens, nil otherwise. -/
def readerOf (fs : FS) (p : String) : Option String :=
  if (fs.node p).isSome then some p else none

theorem os_OpenFile_rdonly_eq (fs : FS) (p : String) :
    (os_OpenFile_rdonly fs p).2 =
      if (fs.node p).isSome then .ok p else .error (.notExist p) := by
  unfold os_OpenFile_rdonly
  cases fs.node p <;> rfl

theorem openReaders_spec (name : String) (fs : FS) :
    ∀ (disks : List String) (readers : List (Option String)) (unread : Nat),
      openReaders name disks fs readers unread =
        (readers ++ disks.map (fun d => readerOf fs (shardPath d name)),
         unread + (disks.filter fun d => (fs.node (shardPath d name)).isNone).length) := by
  intro disks
  induction disks with
  | nil => intro readers unread; simp [openReaders]
  | cons d rest ih =>
    intro readers unread
    unfold openReaders
    rw [filepath_Join_shard]
    have h := os_OpenFile_rdonly_eq fs (shardPath d name)
    cases hn : (fs.node (shardPath d name)).isSome with
    | true =>
      rw [hn] at h
      simp only [if_true] at h
      cases ho : os_OpenFile_rdonly fs (shardPath d name) with
      | mk fs1 r1 =>
        rw [ho] at h
        simp only at h
        subst h
        simp only []
        rw [ih]
        have hn2 : (fs.node (shardPath d name)).isNone = false := by
          cases hx : fs.node (shardPath d name) with
          | none => rw [hx] at hn; simp at hn
          | some _ => rfl
        simp [readerOf, hn, hn2, List.filter_cons]
    | false =>
      rw [hn] at h
      simp only [Bool.false_eq_true, if_false] at h
      cases ho : os_OpenFile_rdonly fs (shardPath d name) with
      | mk fs1 r1 =>
        rw [ho] at h
        simp only at h
        subst h
        simp only []
        rw [ih]
        have hn2 : (fs.node (shardPath d name)).isNone = true := by
          cases hx : fs.node (shardPath d name) with
          | none => rfl
          | some _ => rw [hx] at hn; simp at hn
        simp [readerOf, hn, hn2, List.filter_cons]
        omega

/-- The error that the read goroutine of a slot sends, if any. -/
def readErr (fs : FS) (readers : List (Option String)) (i : Nat) : Option IOError :=
  match readers.getD i none with
  | none => none
  | some reader =>
    match io_ReadAll fs reader with
    | .error e => some e
    | .ok _ => none

/-- The bytes that the read goroutine of a slot stores, if any. -/
def readOk (fs : FS) (readers : List (Option String)) (i : Nat) : Option (List Byte) :=
  match readers.getD i none with
  | none => none
  | some reader =>
    match io_ReadAll fs reader with
    | .error _ => none
    | .ok b => some b

theorem readTask_spec (fs : FS) (readers : List (Option String)) (st : ReadState) (i : Nat) :
    (readTask fs readers st i).errs = st.errs ++ (readErr fs readers i).toList ∧
    (readTask fs readers st i).data.length = st.data.length ∧
    ∀ j, rowAt (readTask fs readers st i).data j =
      if j = i ∧ i < st.data.length then (readOk fs readers i).getD (rowAt st.data j)
      else rowAt st.data j := by
  unfold readTask readErr readOk
  cases readers.getD i none with
  | none => simp
  | some reader =>
    cases h : io_ReadAll fs reader with
    | error e =>
      simp only [h]
      simp
    | ok b =>
      simp only [h]
      simp only [List.length_set, Option.toList, List.append_nil, Option.getD_some, true_and]
      intro j
      exact rowAt_set _ _ _ _

theorem parallelRead_fold (fs : FS) (readers : List (Option String)) :
    ∀ (sched : List Nat) (st : ReadState),
      (sched.foldl (readTask fs readers) st).errs =
        st.errs ++ sched.filterMap (readErr fs readers) ∧
      (sched.foldl (readTask fs readers) st).data.length = st.data.length ∧
      ∀ j, rowAt (sched.foldl (readTask fs readers) st).data j =
        if j ∈ sched ∧ j < st.data.length then (readOk fs readers j).getD (rowAt st.data j)
        else rowAt st.data j := by
  intro sched
  induction sched with
  | nil => intro st; simp
  | cons i rest ih =>
    intro st
    obtain ⟨s1, s2, s3⟩ := readTask_spec fs readers st i
    obtain ⟨r1, r2, r3⟩ := ih (readTask fs readers st i)
    rw [List.foldl_cons]
    refine ⟨?_, r2.trans s2, fun j => ?_⟩
    · rw [r1, s1, List.filterMap_cons]
      cases readErr fs readers i <;> simp
    · rw [r3 j, s2, s3 j]
      by_cases hji : j = i
      · subst hji
        by_cases hl : j < st.data.length
        · simp only [hl, and_true, List.mem_cons, true_or, if_true, true_and]
          cases hro : readOk fs readers j with
          | none => simp
          | some b => simp
        · simp [hl]
      · simp only [hji, false_and, if_false, List.mem_cons, false_or]

theorem length_filter_range {α : Type} (p : α → Bool) (d : α) :
    ∀ l : List α, ((List.range l.length).filter fun i => p (l.getD i d)).length =
      (l.filter p).length := by
  intro l
  induction l using List.reverseRecOn with
  | nil => simp
  | append_singleton l a ih =>
    rw [List.length_append, List.length_singleton, List.range_succ, List.filter_append,
      List.filter_append, List.length_append, List.length_append, ← ih]
    congr 1
    · congr 1
      apply List.filter_congr
      intro i hi
      rw [List.mem_range] at hi
      simp [List.getD_eq_getElem?_getD, List.getElem?_append_left hi]
    · have h1 : (l ++ [a]).getD l.length d = a := by
        simp [List.getD_eq_getElem?_getD, List.getElem?_append_right (le_refl _)]
      simp only [List.filter_cons, List.filter_nil, h1]
      split <;> rfl

/-! ### Save -/

theorem Store.Exact.isEncoder {st : Store} {k n : Nat} (hst : st.Exact k n) (hk : 1 ≤ k)
    (hn : 1 ≤ n) (hkn : k + n ≤ 256) : IsEncoder st.encoder k n := by
  obtain ⟨r, hr, henc⟩ := reedsolomon_New_spec hk hn hkn
  have := hst.enc
  rw [hr] at this
  simp only [Except.ok.injEq] at this
  rw [← this]
  exact henc

theorem encode_spec {r : reedSolomon} {k n : Nat} (hr : IsEncoder r k n) (hk : 1 ≤ k)
    (hn : 1 ≤ n) {S : List Byte} (hS : S ≠ []) :
    ∃ sh enc, r.Split S = .ok sh ∧ r.Encode sh = .ok enc ∧
      Codeword r.m k (k + n) (fragLen S.length k) enc ∧
      (enc.take k).flatten = padded S k := by
  have hL : 0 < S.length := List.length_pos.mpr hS
  have hP : 0 < fragLen S.length k := ceil_pos _ _ hk hL
  have hsplit := Split_eq r S (by rw [hr.total]; omega)
  rw [hr.data, hr.total] at hsplit
  have hmat := @splitShards_isMat k (k + n) hk (by omega) S
  obtain ⟨enc, henc, hcw, htake⟩ := Encode_spec hr hk hn hP hmat
  refine ⟨_, enc, hsplit, henc, hcw, ?_⟩
  rw [htake, splitShards_join hk (by omega)]
  rfl

theorem Save_eq {st : Store} {S : List Byte} {sh enc : List (List Byte)}
    (h1 : st.encoder.Split S = .ok sh) (h2 : st.encoder.Encode sh = .ok enc)
    (sched : List Nat) (name : String) (fs : FS) :
    st.Save sched name (.ok S) fs =
      match openWriters name st.disks fs [] with
      | (fs1, .error e) => (fs1, .err e)
      | (fs1, .ok writers) => parallelWrite sched writers enc fs1 := by
  unfold Store.Save
  simp only [h1, h2]

theorem errors_Join_nil {errs : List IOError} (h : errors_Join errs = .nil) : errs = [] := by
  unfold errors_Join at h
  cases errs with
  | nil => rfl
  | cons e es => simp at h

theorem overwrite_of_le {data old : List Byte} (h : old.length ≤ data.length) :
    overwrite data old = data := by
  unfold overwrite
  rw [List.drop_of_length_le h, List.append_nil]

theorem getD_mem_disks {disks : List String} {i : Nat} (hi : i < disks.length) :
    disks.getD i "" ∈ disks := by
  rw [List.getD_eq_getElem _ _ hi]
  exact List.getElem_mem hi

theorem getD_map_shardPath (disks : List String) (name : String) {i : Nat}
    (hi : i < disks.length) :
    (disks.map fun d => shardPath d name).getD i "" = shardPath (disks.getD i "") name := by
  simp [List.getD_eq_getElem?_getD, hi]

theorem Save_ok_state {st : Store} {k n : Nat} (hst : st.Exact k n) {S : List Byte}
    {sh enc : List (List Byte)} (h1 : st.encoder.Split S = .ok sh)
    (h2 : st.encoder.Encode sh = .ok enc) (henc : IsMat enc (k + n) (fragLen S.length k))
    {ws : List Nat} (hws : ws.Perm (List.range (k + n))) {name : String} {fs : FS}
    (hdist : (st.disks.map fun d => shardPath d name).Nodup)
    (hsave : (st.Save ws name (.ok S) fs).2 = .nil)
    (hfresh : ∀ d ∈ st.disks, fs.sizeAt (shardPath d name) ≤ fragLen S.length k) :
    (st.Save ws name (.ok S) fs).1.readFault = fs.readFault ∧
    ∀ d ∈ st.disks, ∀ i, i < k + n → st.disks.getD i "" = d →
      (st.Save ws name (.ok S) fs).1.node (shardPath d name) = some (.file (rowAt enc i)) := by
  rw [Save_eq h1 h2] at hsave ⊢
  cases ho : openWriters name st.disks fs [] with
  | mk fs1 r1 =>
    rw [ho] at hsave
    cases r1 with
    | error e => simp at hsave
    | ok writers =>
      simp only [] at hsave ⊢
      obtain ⟨hw, hg, hfiles⟩ := openWriters_ok name st.disks fs [] fs1 writers ho
      rw [List.nil_append] at hw
      have hw2 : writers = (st.disks.map fun d => shardPath d name).map some := by
        rw [hw, List.map_map]
        rfl
      set paths := st.disks.map fun d => shardPath d name with hpaths
      have hplen : paths.length = k + n := by rw [hpaths, List.length_map, hst.len]
      have hpnd : paths.Nodup := hdist
      have hfiles2 : ∀ p ∈ paths, ∃ c, fs1.node p = some (.file c) := by
        intro p hp
        rw [hpaths, List.mem_map] at hp
        obtain ⟨d, hd, rfl⟩ := hp
        exact hfiles d hd
      obtain ⟨r1, _, _, r4, _, r6, _, _, r9⟩ :=
        parallelWrite_fold paths enc (by rw [hplen, henc.1]) ws
          { fs := fs1, errs := [], panicked := false } rfl
          (fun i hi => by rw [hplen]; exact List.mem_range.mp (hws.mem_iff.mp hi)) hfiles2
      unfold parallelWrite at hsave ⊢
      rw [hw2] at hsave ⊢
      simp only [r1, Bool.false_eq_true, if_false] at hsave ⊢
      have herrs := errors_Join_nil hsave
      rw [r6, List.nil_append] at herrs
      refine ⟨r4.trans hg.2.2.1, fun d hd i hi hdi => ?_⟩
      have himem : i ∈ ws := hws.mem_iff.mpr (List.mem_range.mpr hi)
      have hpi : paths.getD i "" = shardPath d name := by
        rw [hpaths, getD_map_shardPath _ _ (by rw [hst.len]; exact hi), hdi]
      obtain ⟨c, hc⟩ := hfiles d hd
      have hnf : fs1.writeFault (shardPath d name) = false := by
        have := List.filterMap_eq_nil_iff.mp herrs i himem
        rw [hpi] at this
        unfold writeErr at this
        by_cases hf : fs1.writeFault (shardPath d name) = true
        · rw [if_pos hf] at this
          simp at this
        · simpa using hf
      have hnsnd : ws.Nodup := hws.nodup_iff.mpr (List.nodup_range _)
      have := r9 hpnd hnsnd i himem c (by rw [hpi]; exact hc)
      rw [hpi] at this
      rw [this]
      simp only [hnf, Bool.false_eq_true, if_false]
      have hcl : c.length ≤ (rowAt enc i).length := by
        rw [henc.rowAt_length hi]
        rcases hg.2.2.2.2 (shardPath d name) with h | ⟨_, h⟩
        · have := hfresh d hd
          unfold FS.sizeAt at this
          rw [← h, hc] at this
          exact this
        · rw [hc] at h
          rcases h with h | h
          · simp at h
          · simp only [Option.some.injEq, Node.file.injEq] at h
            rw [h]
            simp
      rw [overwrite_of_le hcl]

/-! ### Get -/

theorem take_eq_of_rowAt {a b : List (List Byte)} {k : Nat} (ha : k ≤ a.length)
    (hb : k ≤ b.length) (h : ∀ i, i < k → rowAt a i = rowAt b i) : a.take k = b.take k := by
  apply List.ext_getElem
  · rw [List.length_take, List.length_take]; omega
  · intro i h1 h2
    rw [List.length_take] at h1
    rw [List.getElem_take, List.getElem_take]
    have := h i (by omega)
    rwa [rowAt_eq_getElem (by omega), rowAt_eq_getElem (by omega)] at this

theorem length_filter_le_of_imp {α : Type} (p q : α → Bool) :
    ∀ l : List α, (∀ a ∈ l, p a = true → q a = true) →
      (l.filter p).length ≤ (l.filter q).length := by
  intro l
  induction l with
  | nil => intro _; simp
  | cons a l ih =>
    intro h
    have h1 := ih fun b hb => h b (List.mem_cons_of_mem _ hb)
    have h2 := h a (List.mem_cons_self _ _)
    simp only [List.filter_cons]
    cases hp : p a with
    | true =>
      rw [h2 hp]
      simp only [if_true, List.length_cons]
      omega
    | false =>
      simp only [Bool.false_eq_true, if_false]
      split
      · simp only [List.length_cons]; omega
      · exact h1

theorem readers_getD (fs : FS) (disks : List String) (name : String) {i : Nat}
    (hi : i < disks.length) :
    (disks.map fun d => readerOf fs (shardPath d name)).getD i none =
      readerOf fs (shardPath (disks.getD i "") name) := by
  simp [List.getD_eq_getElem?_getD, hi]

theorem Get_unfold (st : Store) (rs : List Nat) (name : String) (w : List Byte) (fs : FS) :
    st.Get rs name w fs =
      match parallelRead rs fs (st.disks.map fun d => readerOf fs (shardPath d name)) with
      | (_, .err e) => (w, .err e)
      | (_, .panic) => (w, .panic)
      | (shards, .nil) =>
        match st.encoder.ReconstructData shards with
        | .error e => (w, .err (.failedToReconstruct
            (st.disks.filter fun d => (fs.node (shardPath d name)).isNone).length
            st.disks.length (.codec e)))
        | .ok shards =>
          match st.encoder.Join w shards ((rowAt shards 0).length * st.k) with
          | (w, some e) => (w, .err (.codec e))
          | (w, none) => (w, .nil) := by
  unfold Store.Get
  rw [openReaders_spec]
  simp only [List.nil_append, Nat.zero_add]

theorem Get_of_state {st : Store} {k n : Nat} (hst : st.Exact k n) (hk : 1 ≤ k) (hn : 1 ≤ n)
    (hkn : k + n ≤ 256) {P : Nat} (hP : 0 < P) {enc : List (List Byte)}
    (hcw : Codeword st.encoder.m k (k + n) P enc) {name : String} {fs : FS} {rs : List Nat}
    (hrs : rs.Perm (List.range (k + n)))
    (hnodes : ∀ i, i < k + n →
      fs.node (shardPath (st.disks.getD i "") name) = none ∨
      (fs.node (shardPath (st.disks.getD i "") name) = some (.file (rowAt enc i)) ∧
        fs.readFault (shardPath (st.disks.getD i "") name) = false))
    (hcount : (st.disks.filter fun d => (fs.node (shardPath d name)).isNone).length ≤ n)
    (w : List Byte) :
    st.Get rs name w fs = (w ++ (enc.take k).flatten, .nil) := by
  have hr := hst.isEncoder hk hn hkn
  rw [Get_unfold]
  set readers := st.disks.map fun d => readerOf fs (shardPath d name) with hreaders
  have hrlen : readers.length = k + n := by rw [hreaders, List.length_map, hst.len]
  obtain ⟨f1, f2, f3⟩ := parallelRead_fold fs readers rs
    { data := List.replicate readers.length [], errs := [] }
  -- what the goroutine of each slot does
  have hslot : ∀ i, i < k + n →
      readErr fs readers i = none ∧
      ((fs.node (shardPath (st.disks.getD i "") name) = none ∧ readOk fs readers i = none) ∨
       ((fs.node (shardPath (st.disks.getD i "") name)).isNone = false ∧
        readOk fs readers i = some (rowAt enc i))) := by
    intro i hi
    have hg := readers_getD fs st.disks name (by rw [hst.len]; exact hi : i < st.disks.length)
    rw [← hreaders] at hg
    unfold readErr readOk
    rw [hg]
    rcases hnodes i hi with h | ⟨h, hf⟩
    · have h1 : readerOf fs (shardPath (st.disks.getD i "") name) = none := by
        unfold readerOf
        rw [h]
        rfl
      rw [h1]
      exact ⟨rfl, Or.inl ⟨h, rfl⟩⟩
    · have h1 : readerOf fs (shardPath (st.disks.getD i "") name) =
          some (shardPath (st.disks.getD i "") name) := by
        unfold readerOf
        rw [h]
        rfl
      have h2 : io_ReadAll fs (shardPath (st.disks.getD i "") name) = .ok (rowAt enc i) := by
        unfold io_ReadAll
        rw [h]
        simp only [hf, Bool.false_eq_true, if_false]
      rw [h1]
      simp only [h2]
      exact ⟨trivial, Or.inr ⟨by rw [h]; rfl, trivial⟩⟩
  have herrs : rs.filterMap (readErr fs readers) = [] := by
    rw [List.filterMap_eq_nil_iff]
    intro i hi
    exact (hslot i (List.mem_range.mp (hrs.mem_iff.mp hi))).1
  set data := (rs.foldl (readTask fs readers)
    { data := List.replicate readers.length [], errs := [] }).data with hdata
  have hdlen : data.length = k + n := by
    rw [hdata, f2]
    simp [hrlen]
  have hrow : ∀ i, i < k + n → rowAt data i = (readOk fs readers i).getD [] := by
    intro i hi
    rw [hdata, f3 i]
    have h1 : i ∈ rs := hrs.mem_iff.mpr (List.mem_range.mpr hi)
    simp only [List.length_replicate, hrlen, h1, hi, and_self, if_true]
    congr 1
    simp [rowAt, List.getElem?_replicate, hi]
  have hpr : parallelRead rs fs readers = (data, .nil) := by
    unfold parallelRead
    simp only [f1, herrs, List.append_nil]
    rfl
  rw [hpr]
  simp only []
  have hdam : Damaged enc data (k + n) := by
    refine ⟨hdlen, fun i hi => ?_⟩
    rw [hrow i hi]
    rcases (hslot i hi).2 with ⟨_, h⟩ | ⟨_, h⟩
    · right; rw [h]; rfl
    · left; rw [h]; rfl
  have hpresent : k ≤ ((List.range (k + n)).filter fun i => (rowAt data i).length ≠ 0).length := by
    have h1 := length_filter_range (fun d => !(fs.node (shardPath d name)).isNone) ""
      st.disks
    have h2 := List.length_eq_countP_add_countP
      (fun d => (fs.node (shardPath d name)).isNone) st.disks
    rw [List.countP_eq_length_filter, List.countP_eq_length_filter, hst.len] at h2
    have h3 : (st.disks.filter fun d => !(fs.node (shardPath d name)).isNone).length =
        (st.disks.filter fun a => decide ¬(fs.node (shardPath a name)).isNone = true).length := by
      congr 1
      apply List.filter_congr
      intro d _
      cases (fs.node (shardPath d name)).isNone <;> rfl
    have h5 : ((List.range st.disks.length).filter fun i =>
        !(fs.node (shardPath (st.disks.getD i "") name)).isNone).length ≤
        ((List.range (k + n)).filter fun i => (rowAt data i).length ≠ 0).length := by
      rw [hst.len]
      apply length_filter_le_of_imp
      intro i hi0 hi
      have hlt : i < k + n := List.mem_range.mp hi0
      rcases (hslot i hlt).2 with ⟨h, _⟩ | ⟨_, h⟩
      · rw [h] at hi
        simp at hi
      · rw [hrow i hlt, h]
        simp only [Option.getD_some, ne_eq, decide_not, Bool.not_eq_true',
          decide_eq_false_iff_not]
        rw [hcw.mat.rowAt_length hlt]
        omega
    omega
  obtain ⟨rec, hrec, hreclen, hrecrows⟩ := ReconstructData_spec hr hk hP hcw hdam hpresent
  rw [hrec]
  simp only []
  have hrow0 : (rowAt rec 0).length = P := by
    rw [hrecrows 0 (by omega)]
    exact hcw.mat.rowAt_length (by omega)
  have hjoin := @Join_spec st.encoder k hr.data P hP rec (by omega)
    (fun i hi => by rw [hrecrows i hi]; exact hcw.mat.rowAt_length (by omega)) w
  rw [hrow0, hst.k_eq, hjoin]
  simp only []
  rw [take_eq_of_rowAt (by omega) (by rw [hcw.mat.1]; omega) hrecrows]

/-! ### Removal of shard files, and the round trip -/

theorem removeShards_spec (name : String) (D : List String)
    (hinj : ∀ d ∈ D, ∀ a ∈ D, shardPath d name = shardPath a name → d = a) :
    ∀ (A : List String) (fs : FS), (∀ a ∈ A, a ∈ D) →
      (removeShards fs name A).readFault = fs.readFault ∧
      ∀ d ∈ D, (removeShards fs name A).node (shardPath d name) =
        if d ∈ A then none else fs.node (shardPath d name) := by
  intro A
  induction A with
  | nil => intro fs _; exact ⟨rfl, fun d _ => by simp [removeShards]⟩
  | cons a A ih =>
    intro fs hsub
    obtain ⟨h1, h2⟩ := ih (fs.remove (shardPath a name))
      (fun x hx => hsub x (List.mem_cons_of_mem _ hx))
    unfold removeShards at h1 h2 ⊢
    rw [List.foldl_cons]
    refine ⟨h1, fun d hd => ?_⟩
    rw [h2 d hd]
    by_cases hdA : d ∈ A
    · simp [hdA]
    · by_cases hda : d = a
      · subst hda
        simp [hdA, FS.remove]
      · have hne : shardPath d name ≠ shardPath a name := fun h =>
          hda (hinj d hd a (hsub a (List.mem_cons_self _ _)) h)
        simp [hdA, hda, FS.remove, hne]

/-- The state that Get meets after a successful Save, with the shard files of the targets
in A removed: it returns nil and has written the input with its padding. -/
theorem Get_after_Save {k n : Nat} (hk : 1 ≤ k) (hn : 1 ≤ n) (hkn : k + n ≤ 256) {st : Store}
    (hst : st.Exact k n) {name : String} {S : List Byte} (hS : S ≠ []) {fs : FS}
    {ws rs : List Nat} (hws : ws.Perm (List.range (k + n)))
    (hrs : rs.Perm (List.range (k + n)))
    (hdist : (st.disks.map fun d => shardPath d name).Nodup)
    (hsave : (st.Save ws name (.ok S) fs).2 = .nil)
    (hfresh : ∀ d ∈ st.disks, fs.sizeAt (shardPath d name) ≤ fragLen S.length k)
    (hread : ∀ d ∈ st.disks, fs.readFault (shardPath d name) = false)
    {A : List String} (hsub : ∀ a ∈ A, a ∈ st.disks)
    (hA : (st.disks.filter fun d => d ∈ A).length ≤ n) (w : List Byte) :
    st.Get rs name w (removeShards (st.Save ws name (.ok S) fs).1 name A) =
      (w ++ padded S k, .nil) := by
  have hr := hst.isEncoder hk hn hkn
  obtain ⟨sh, enc, h1, h2, hcw, hflat⟩ := encode_spec hr hk hn hS
  obtain ⟨hrf, hnode⟩ := Save_ok_state hst h1 h2 hcw.mat hws hdist hsave hfresh
  obtain ⟨g1, g2⟩ := removeShards_spec name st.disks
    (fun d hd a ha h => List.inj_on_of_nodup_map hdist hd ha h) A
    (st.Save ws name (.ok S) fs).1 hsub
  have hP : 0 < fragLen S.length k := ceil_pos _ _ hk (List.length_pos.mpr hS)
  rw [← hflat]
  apply Get_of_state hst hk hn hkn hP hcw hrs
  · intro i hi
    have hd : st.disks.getD i "" ∈ st.disks := getD_mem_disks (by rw [hst.len]; exact hi)
    rw [g2 _ hd, g1, hrf]
    by_cases hA2 : st.disks.getD i "" ∈ A
    · left
      rw [if_pos hA2]
    · right
      rw [if_neg hA2]
      exact ⟨hnode _ hd i hi rfl, hread _ hd⟩
  · have : (st.disks.filter fun d =>
        ((removeShards (st.Save ws name (.ok S) fs).1 name A).node (shardPath d name)).isNone) =
        st.disks.filter fun d => decide (d ∈ A) := by
      apply List.filter_congr
      intro d hd
      rw [g2 d hd]
      by_cases hA2 : d ∈ A
      · simp [hA2]
      · obtain ⟨i, hi, hdi⟩ := List.mem_iff_getElem.mp hd
        have hi2 : i < k + n := by rw [← hst.len]; exact hi
        have := hnode d hd i hi2 (by rw [List.getD_eq_getElem _ _ hi, hdi])
        simp [hA2, this]
    rw [this]
    exact hA

theorem padded_length {k : Nat} (hk : 1 ≤ k) (S : List Byte) :
    (padded S k).length = k * fragLen S.length k := by
  have := ceil_mul_ge S.length k hk
  unfold padded fragLen
  rw [List.length_append, List.length_replicate]
  omega

theorem pad_lt {k : Nat} (hk : 1 ≤ k) (L : Nat) : k * fragLen L k - L < k := by
  unfold fragLen
  have h1 := Nat.div_add_mod (L + k - 1) k
  have h2 := Nat.mod_lt (L + k - 1) hk
  omega

theorem ceil_mul_lt {k : Nat} (hk : 1 ≤ k) (L : Nat) : k * fragLen L k < L + k := by
  have h0 := ceil_mul_ge L k hk
  have h1 := pad_lt hk L
  unfold fragLen at *
  omega

theorem ceil_mul_ge_fragLen {k : Nat} (hk : 1 ≤ k) (L : Nat) : L ≤ k * fragLen L k :=
  ceil_mul_ge L k hk

theorem pad_eq_zero_iff {k : Nat} (hk : 1 ≤ k) (L : Nat) :
    k * fragLen L k - L = 0 ↔ k ∣ L := by
  have h0 := ceil_mul_ge L k hk
  have h1 := pad_lt hk L
  unfold fragLen at *
  constructor
  · intro h
    exact ⟨(L + k - 1) / k, by omega⟩
  · rintro ⟨q, hq⟩
    subst hq
    have h3 : (k * q + k - 1) / k = q := by
      have h4 : k * q + k - 1 = (k - 1) + k * q := by omega
      rw [h4, Nat.add_mul_div_left _ _ (by omega : 0 < k), Nat.div_eq_of_lt (by omega)]
      omega
    rw [h3]
    omega

theorem padded_eq_self_iff {k : Nat} (hk : 1 ≤ k) (S : List Byte) :
    padded S k = S ↔ k ∣ S.length := by
  rw [← pad_eq_zero_iff hk]
  unfold padded
  constructor
  · intro h
    have := congrArg List.length h
    rw [List.length_append, List.length_replicate] at this
    omega
  · intro h
    rw [h]
    simp

/-! ### New -/

theorem New_eq {k n : Nat} (hk : 1 ≤ k) (hn : 1 ≤ n) (hkn : k + n ≤ 256) (baseDir : String)
    (fs : FS) (hdir : fs.node baseDir = some .dir) :
    ∃ r, reedsolomon.New k n = .ok r ∧ New k n baseDir fs =
      if (childDirs fs baseDir).length = 0 then
        (fs, .error (.failedToFindDisks .noDisksFound))
      else if (childDirs fs baseDir).length < k + n then (fs, .error .notEnoughDirectories)
      else (fs, .ok { encoder := r, disks := childDirs fs baseDir, k := k, n := n }) := by
  obtain ⟨r, hr, _⟩ := reedsolomon_New_spec hk hn hkn
  have hfind : findDisks fs baseDir =
      if (childDirs fs baseDir).length = 0 then (fs, .error .noDisksFound)
      else (fs, .ok (childDirs fs baseDir)) := by
    unfold findDisks os_Stat os_ReadDir
    simp only [hdir]
    rfl
  refine ⟨r, hr, ?_⟩
  unfold New
  rw [hr]
  simp only [hfind]
  by_cases h0 : (childDirs fs baseDir).length = 0
  · rw [if_pos h0, if_pos h0]
  · rw [if_neg h0, if_neg h0]

/-- Over a base directory with exactly k + n child directories of distinct names, the store
that New returns is one over exactly k + n distinct targets. -/
theorem New_exact {k n : Nat} (hk : 1 ≤ k) (hn : 1 ≤ n) (hkn : k + n ≤ 256) (baseDir : String)
    (fs : FS) (hdir : fs.node baseDir = some .dir)
    (hlen : (childDirs fs baseDir).length = k + n) (hnd : (childDirs fs baseDir).Nodup)
    {st : Store} (h : (New k n baseDir fs).2 = .ok st) : st.Exact k n := by
  obtain ⟨r, hr, hnew⟩ := New_eq hk hn hkn baseDir fs hdir
  rw [hnew, if_neg (by omega), if_neg (by omega)] at h
  simp only [Except.ok.injEq] at h
  rw [← h]
  exact ⟨hr, rfl, rfl, hlen, hnd⟩

/-! ### Get with too few shards or a failed read, and the writes of Save -/

theorem ReconstructData_fails {r : reedSolomon} {k n : Nat} (hr : IsEncoder r k n)
    {shards : List (List Byte)}
    (hfew : ((List.range (k + n)).filter fun i => (rowAt shards i).length ≠ 0).length < k) :
    ∃ e, r.ReconstructData shards = .error e := by
  unfold reedSolomon.ReconstructData
  by_cases hlen : shards.length ≠ r.totalShards
  · rw [if_pos hlen]
    exact ⟨_, rfl⟩
  · rw [if_neg hlen]
    cases checkShards shards true with
    | error e => exact ⟨e, rfl⟩
    | ok u =>
      simp only [hr.total, hr.data]
      have hsub : ((List.range k).filter fun i => (rowAt shards i).length ≠ 0).length ≤
          ((List.range (k + n)).filter fun i => (rowAt shards i).length ≠ 0).length := by
        apply List.Sublist.length_le
        apply List.Sublist.filter
        exact List.range_sublist.mpr (by omega)
      rw [if_neg (by omega), if_pos hfew]
      exact ⟨_, rfl⟩

theorem errors_Join_of_ne_nil {errs : List IOError} (h : errs ≠ []) :
    errors_Join errs = .err (.joined errs) := by
  unfold errors_Join
  cases errs with
  | nil => exact absurd rfl h
  | cons e es => rfl

theorem parallelRead_spec (fs : FS) (readers : List (Option String)) {rs : List Nat}
    (hrs : rs.Perm (List.range readers.length)) :
    ∃ data, parallelRead rs fs readers =
        (data, errors_Join (rs.filterMap (readErr fs readers))) ∧
      data.length = readers.length ∧
      ∀ i, i < readers.length → rowAt data i = (readOk fs readers i).getD [] := by
  obtain ⟨f1, f2, f3⟩ := parallelRead_fold fs readers rs
    { data := List.replicate readers.length [], errs := [] }
  refine ⟨(rs.foldl (readTask fs readers)
      { data := List.replicate readers.length [], errs := [] }).data, ?_, ?_, ?_⟩
  · unfold parallelRead
    simp only [f1, List.nil_append]
  · rw [f2]
    simp
  · intro i hi
    rw [f3 i]
    have h1 : i ∈ rs := hrs.mem_iff.mpr (List.mem_range.mpr hi)
    simp only [List.length_replicate, h1, hi, and_self, if_true]
    congr 1
    simp [rowAt, List.getElem?_replicate, hi]

theorem readOk_some_opened {fs : FS} {disks : List String} {name : String} {i : Nat}
    (hi : i < disks.length) {b : List Byte}
    (h : readOk fs (disks.map fun d => readerOf fs (shardPath d name)) i = some b) :
    (fs.node (shardPath (disks.getD i "") name)).isNone = false ∧
    io_ReadAll fs (shardPath (disks.getD i "") name) = .ok b := by
  unfold readOk at h
  rw [readers_getD fs disks name hi] at h
  unfold readerOf at h
  cases hn : fs.node (shardPath (disks.getD i "") name) with
  | none =>
    rw [hn] at h
    simp at h
  | some nd =>
    rw [hn] at h
    simp only [Option.isSome_some, if_true] at h
    refine ⟨rfl, ?_⟩
    cases hio : io_ReadAll fs (shardPath (disks.getD i "") name) with
    | error e =>
      rw [hio] at h
      simp at h
    | ok b2 =>
      rw [hio] at h
      simp only [Option.some.injEq] at h
      rw [h]

theorem readErr_some_opened {fs : FS} {disks : List String} {name : String} {i : Nat}
    (hi : i < disks.length) {e : IOError}
    (h : readErr fs (disks.map fun d => readerOf fs (shardPath d name)) i = some e) :
    (fs.node (shardPath (disks.getD i "") name)).isSome = true ∧
    io_ReadAll fs (shardPath (disks.getD i "") name) = .error e := by
  unfold readErr at h
  rw [readers_getD fs disks name hi] at h
  unfold readerOf at h
  cases hn : fs.node (shardPath (disks.getD i "") name) with
  | none =>
    rw [hn] at h
    simp at h
  | some nd =>
    rw [hn] at h
    simp only [Option.isSome_some, if_true] at h
    refine ⟨rfl, ?_⟩
    cases hio : io_ReadAll fs (shardPath (disks.getD i "") name) with
    | error e2 =>
      rw [hio] at h
      simp only [Option.some.injEq] at h
      rw [h]
    | ok b2 =>
      rw [hio] at h
      simp at h

theorem errors_Join_eq_nil_iff (errs : List IOError) : errors_Join errs = .nil ↔ errs = [] := by
  constructor
  · exact errors_Join_nil
  · intro h
    rw [h]
    rfl

/-- When the shard file of a target opens and its read fails, Get writes nothing and
returns the join of the read errors, each the error of a shard file that opened. -/
theorem Get_read_error (st : Store) (rs : List Nat)
    (hrs : rs.Perm (List.range st.disks.length)) (name : String) (w : List Byte) (fs : FS)
    (d : String) (hd : d ∈ st.disks) (e : IOError)
    (hopen : (fs.node (shardPath d name)).isSome = true)
    (hfail : io_ReadAll fs (shardPath d name) = .error e) :
    ∃ es, st.Get rs name w fs = (w, .err (.joined es)) ∧ e ∈ es ∧
      ∀ x ∈ es, ∃ t ∈ st.disks, (fs.node (shardPath t name)).isSome = true ∧
        io_ReadAll fs (shardPath t name) = .error x := by
  set readers := st.disks.map fun d => readerOf fs (shardPath d name) with hreaders
  have hrlen : readers.length = st.disks.length := by rw [hreaders, List.length_map]
  obtain ⟨data, hpr, _, _⟩ :=
    @parallelRead_spec fs readers rs (by rw [hrlen]; exact hrs)
  obtain ⟨i, hi, hdi⟩ := List.mem_iff_getElem.mp hd
  have hgd : st.disks.getD i "" = d := by rw [List.getD_eq_getElem _ _ hi, hdi]
  have hre : readErr fs readers i = some e := by
    unfold readErr
    rw [hreaders, readers_getD fs st.disks name hi, hgd]
    unfold readerOf
    rw [if_pos hopen]
    simp only [hfail]
  have hmem : e ∈ rs.filterMap (readErr fs readers) := by
    rw [List.mem_filterMap]
    exact ⟨i, hrs.mem_iff.mpr (List.mem_range.mpr hi), hre⟩
  have hne : rs.filterMap (readErr fs readers) ≠ [] := List.ne_nil_of_mem hmem
  refine ⟨rs.filterMap (readErr fs readers), ?_, hmem, ?_⟩
  · rw [Get_unfold, ← hreaders, hpr, errors_Join_of_ne_nil hne]
  · intro x hx
    rw [List.mem_filterMap] at hx
    obtain ⟨j, hj, hjx⟩ := hx
    have hjlt : j < st.disks.length := List.mem_range.mp (hrs.mem_iff.mp hj)
    obtain ⟨h1, h2⟩ := readErr_some_opened hjlt hjx
    exact ⟨_, getD_mem_disks hjlt, h1, h2⟩

/-- On a store over exactly k + n targets, in a Save that created or opened the directory
and shard file of every target, the Write calls made are exactly one per target, target i
receiving fragment i, whichever writes fail and in whatever order the goroutines run; Save
returns the join of the errors of exactly the targets whose write failed, and so nil if
and only if no write failed. -/
theorem Save_writes_exact (k n : Nat) (hk : 1 ≤ k) (hn : 1 ≤ n) (hkn : k + n ≤ 256)
    (st : Store) (hst : st.Exact k n) (S : List Byte) (hS : S ≠ []) (sched : List Nat)
    (hsched : sched.Perm (List.range (k + n))) (name : String) (fs fs1 : FS)
    (writers : List (Option String))
    (hopen : openWriters name st.disks fs [] = (fs1, .ok writers)) :
    ∃ sh enc, st.encoder.Split S = .ok sh ∧ st.encoder.Encode sh = .ok enc ∧
      (st.Save sched name (.ok S) fs).1.writes =
        fs.writes ++ sched.map (fun i => (shardPath (st.disks.getD i "") name, rowAt enc i)) ∧
      (sched.map fun i => (shardPath (st.disks.getD i "") name, rowAt enc i)).Perm
        ((List.range (k + n)).map fun i =>
          (shardPath (st.disks.getD i "") name, rowAt enc i)) ∧
      (st.Save sched name (.ok S) fs).2 =
        errors_Join (sched.filterMap fun i =>
          writeErr fs (shardPath (st.disks.getD i "") name)) ∧
      ((st.Save sched name (.ok S) fs).2 = .nil ↔
        ∀ d ∈ st.disks, fs.writeFault (shardPath d name) = false) := by
  have hr := hst.isEncoder hk hn hkn
  obtain ⟨sh, enc, h1, h2, hcw, _⟩ := encode_spec hr hk hn hS
  refine ⟨sh, enc, h1, h2, ?_⟩
  rw [Save_eq h1 h2, hopen]
  simp only []
  obtain ⟨hw, hg, hfiles⟩ := openWriters_ok name st.disks fs [] fs1 writers hopen
  rw [List.nil_append] at hw
  have hw2 : writers = (st.disks.map fun d => shardPath d name).map some := by
    rw [hw, List.map_map]
    rfl
  set paths := st.disks.map fun d => shardPath d name with hpaths
  have hplen : paths.length = k + n := by rw [hpaths, List.length_map, hst.len]
  have hfiles2 : ∀ p ∈ paths, ∃ c, fs1.node p = some (.file c) := by
    intro p hp
    rw [hpaths, List.mem_map] at hp
    obtain ⟨d, hd, rfl⟩ := hp
    exact hfiles d hd
  have hslt : ∀ i ∈ sched, i < k + n := fun i hi => List.mem_range.mp (hsched.mem_iff.mp hi)
  obtain ⟨r1, r2, _, _, _, r6, _, _, _⟩ :=
    parallelWrite_fold paths enc (by rw [hplen, hcw.mat.1]) sched
      { fs := fs1, errs := [], panicked := false } rfl
      (fun i hi => by rw [hplen]; exact hslt i hi) hfiles2
  have hpath : ∀ i ∈ sched, paths.getD i "" = shardPath (st.disks.getD i "") name := by
    intro i hi
    rw [hpaths, getD_map_shardPath _ _ (by rw [hst.len]; exact hslt i hi)]
  have hwrites : sched.map (fun i => (paths.getD i "", rowAt enc i)) =
      sched.map (fun i => (shardPath (st.disks.getD i "") name, rowAt enc i)) := by
    apply List.map_congr_left
    intro i hi
    rw [hpath i hi]
  have herrs : sched.filterMap (fun i => writeErr fs1 (paths.getD i "")) =
      sched.filterMap (fun i => writeErr fs (shardPath (st.disks.getD i "") name)) := by
    apply List.filterMap_congr
    intro i hi
    rw [hpath i hi]
    unfold writeErr
    rw [hg.2.1]
  unfold parallelWrite
  rw [hw2]
  simp only [r1, Bool.false_eq_true, if_false]
  rw [r2, r6, hwrites, herrs, List.nil_append]
  refine ⟨by rw [hg.2.2.2.1], hsched.map _, rfl, ?_⟩
  rw [errors_Join_eq_nil_iff, List.filterMap_eq_nil_iff]
  constructor
  · intro h d hd
    obtain ⟨i, hi, hdi⟩ := List.mem_iff_getElem.mp hd
    have hi2 : i < k + n := by rw [← hst.len]; exact hi
    have := h i (hsched.mem_iff.mpr (List.mem_range.mpr hi2))
    rw [List.getD_eq_getElem _ _ hi, hdi] at this
    unfold writeErr at this
    by_cases hf : fs.writeFault (shardPath d name) = true
    · rw [if_pos hf] at this
      simp at this
    · simpa using hf
  · intro h i hi
    have := h _ (getD_mem_disks (by rw [hst.len]; exact hslt i hi))
    unfold writeErr
    rw [this]
    rfl

/-! # The claims -/

/-- The example store for k = 2 and n = 1 is a store over exactly three distinct targets. -/
theorem demoStore_exact : (demoStore 2 1 ["a", "b", "c"]).Exact 2 1 :=
  ⟨by decide, by decide, by decide, by decide, by decide⟩

/-- C1 (counterexample): with k = 2 and n = 1, after a successful Save of the three bytes
1 2 3 and with no shard removed, Get returns no error but writes four bytes, 1 2 3 0: the
output is not the saved sequence. -/
theorem Get_roundtrip_counterexample :
    ((demoStore 2 1 ["a", "b", "c"]).Save [0, 1, 2] "obj" (.ok [byte 1, byte 2, byte 3])
        (demoFS ["a", "b", "c"])).2 = .nil ∧
    (demoStore 2 1 ["a", "b", "c"]).Get [0, 1, 2] "obj" []
        (removeShards ((demoStore 2 1 ["a", "b", "c"]).Save [0, 1, 2] "obj"
          (.ok [byte 1, byte 2, byte 3]) (demoFS ["a", "b", "c"])).1 "obj" []) =
      ([byte 1, byte 2, byte 3, byte 0], .nil) ∧
    [byte 1, byte 2, byte 3, byte 0] ≠ [byte 1, byte 2, byte 3] := by
  decide

/-- C1 (amended): for k ≥ 1, n ≥ 1, k + n ≤ 256, a store over exactly k + n targets, a name
under which the shard files of the targets are k + n distinct files, a non-empty S of
length L, any orders of the write and read goroutines, a successful Save(name, S) onto
targets that hold no longer shard file under that name, and any set A of at most n of the
targets whose shard file is then removed (the others being readable), Get(name, w) returns
no error and writes S followed by exactly k * ceil(L / k) - L zero bytes, a number below
k; what it writes is S itself if and only if k divides L. -/
theorem Get_roundtrip_up_to_padding (k n : Nat) (hk : 1 ≤ k) (hn : 1 ≤ n) (hkn : k + n ≤ 256)
    (st : Store) (hst : st.Exact k n) (name : String)
    (hdist : (st.disks.map fun d => shardPath d name).Nodup)
    (S : List Byte) (hS : S ≠ []) (fs : FS)
    (ws rs : List Nat) (hws : ws.Perm (List.range (k + n)))
    (hrs : rs.Perm (List.range (k + n)))
    (hsave : (st.Save ws name (.ok S) fs).2 = .nil)
    (hfresh : ∀ d ∈ st.disks, fs.sizeAt (shardPath d name) ≤ fragLen S.length k)
    (hread : ∀ d ∈ st.disks, fs.readFault (shardPath d name) = false)
    (A : List String) (hsub : ∀ a ∈ A, a ∈ st.disks)
    (hA : (st.disks.filter fun d => d ∈ A).length ≤ n) (w : List Byte) :
    st.Get rs name w (removeShards (st.Save ws name (.ok S) fs).1 name A) =
      (w ++ (S ++ List.replicate (k * fragLen S.length k - S.length) (byte 0)), .nil) ∧
    k * fragLen S.length k - S.length < k ∧
    (S ++ List.replicate (k * fragLen S.length k - S.length) (byte 0) = S ↔ k ∣ S.length) :=
  ⟨Get_after_Save hk hn hkn hst hS hws hrs hdist hsave hfresh hread hsub hA w, pad_lt hk _,
    padded_eq_self_iff hk S⟩

/-- C1 (witness): k = 2, n = 1, three targets, the bytes 1 2 3, the shard of target b
removed: Get writes 1 2 3 and one zero byte. -/
theorem Get_roundtrip_up_to_padding_witness :
    (demoStore 2 1 ["a", "b", "c"]).Get [2, 0, 1] "obj" []
        (removeShards ((demoStore 2 1 ["a", "b", "c"]).Save [1, 2, 0] "obj"
          (.ok [byte 1, byte 2, byte 3]) (demoFS ["a", "b", "c"])).1 "obj" ["mnt/b"]) =
      ([] ++ ([byte 1, byte 2, byte 3] ++
        List.replicate (2 * fragLen [byte 1, byte 2, byte 3].length 2 -
          [byte 1, byte 2, byte 3].length) (byte 0)), .nil) :=
  (Get_roundtrip_up_to_padding 2 1 (by decide) (by decide) (by decide)
    (demoStore 2 1 ["a", "b", "c"]) demoStore_exact "obj" (by decide)
    [byte 1, byte 2, byte 3] (by decide)
    (demoFS ["a", "b", "c"]) [1, 2, 0] [2, 0, 1] (by decide) (by decide) (by decide)
    (by decide) (by decide) ["mnt/b"] (by decide) (by decide) []).1

/-- C2 (counterexample): k = 2, n = 1, three targets; the shard files of targets a and c
are gone, more than n, and the shard file of target b opens but cannot be read (it is a
directory). Get writes nothing and returns the read error itself, not the reconstruction
error wrapped with the counts. -/
theorem Get_too_many_missing_counterexample :
    ((demoStore 2 1 ["a", "b", "c"]).disks.filter fun d =>
      ((removeShards (demoSaved.setNode "mnt/b/obj/shard" .dir) "obj"
        ["mnt/a", "mnt/c"]).node (shardPath d "obj")).isNone).length = 2 ∧
    (demoStore 2 1 ["a", "b", "c"]).Get [0, 1, 2] "obj" [byte 7]
        (removeShards (demoSaved.setNode "mnt/b/obj/shard" .dir) "obj" ["mnt/a", "mnt/c"]) =
      ([byte 7], .err (.joined [.isDirectory "mnt/b/obj/shard"])) := by
  decide

/-- C2 (amended): for k ≥ 1, n ≥ 1, k + n ≤ 256, a store over exactly k + n targets, any name
and any order of the read goroutines, if more than n of the shard files of the targets
cannot be opened, Get returns a non-nil error and writes no byte to the output. When every
shard file that does open is read without error, the error is the reconstruction error of
the codec wrapped with the number of unopened targets and the number of targets; when the
read of a shard file that opened fails, it is the join of the read errors, unwrapped. -/
theorem Get_too_many_missing (k n : Nat) (hk : 1 ≤ k) (hn : 1 ≤ n) (hkn : k + n ≤ 256)
    (st : Store) (hst : st.Exact k n) (rs : List Nat) (hrs : rs.Perm (List.range (k + n)))
    (name : String) (w : List Byte) (fs : FS)
    (hmiss : n < (st.disks.filter fun d => (fs.node (shardPath d name)).isNone).length) :
    (∃ e, st.Get rs name w fs = (w, .err e)) ∧
    ((∀ d ∈ st.disks, (fs.node (shardPath d name)).isSome = true →
        ∃ b, io_ReadAll fs (shardPath d name) = .ok b) →
      ∃ ce, st.Get rs name w fs = (w, .err (.failedToReconstruct
        (st.disks.filter fun d => (fs.node (shardPath d name)).isNone).length (k + n)
        (.codec ce)))) ∧
    (∀ d ∈ st.disks, ∀ e, (fs.node (shardPath d name)).isSome = true →
      io_ReadAll fs (shardPath d name) = .error e →
      ∃ es, st.Get rs name w fs = (w, .err (.joined es)) ∧ e ∈ es ∧
        ∀ x ∈ es, ∃ t ∈ st.disks, (fs.node (shardPath t name)).isSome = true ∧
          io_ReadAll fs (shardPath t name) = .error x) := by
  have hr := hst.isEncoder hk hn hkn
  set readers := st.disks.map fun d => readerOf fs (shardPath d name) with hreaders
  have hrlen : readers.length = k + n := by rw [hreaders, List.length_map, hst.len]
  obtain ⟨data, hpr, hdlen, hrow⟩ :=
    @parallelRead_spec fs readers rs (by rw [hrlen]; exact hrs)
  -- fewer than k slots are filled
  have hfew : ((List.range (k + n)).filter fun i => (rowAt data i).length ≠ 0).length < k := by
    have h1 := length_filter_range (fun d => !(fs.node (shardPath d name)).isNone) ""
      st.disks
    have h2 := List.length_eq_countP_add_countP
      (fun d => (fs.node (shardPath d name)).isNone) st.disks
    rw [List.countP_eq_length_filter, List.countP_eq_length_filter, hst.len] at h2
    have h3 : (st.disks.filter fun d => !(fs.node (shardPath d name)).isNone).length =
        (st.disks.filter fun a => decide ¬(fs.node (shardPath a name)).isNone = true).length := by
      congr 1
      apply List.filter_congr
      intro d _
      cases (fs.node (shardPath d name)).isNone <;> rfl
    have h5 : ((List.range (k + n)).filter fun i => (rowAt data i).length ≠ 0).length ≤
        ((List.range st.disks.length).filter fun i =>
          !(fs.node (shardPath (st.disks.getD i "") name)).isNone).length := by
      rw [hst.len]
      apply length_filter_le_of_imp
      intro i hi0 hi
      have hlt : i < k + n := List.mem_range.mp hi0
      rw [hrow i (by rw [hrlen]; exact hlt)] at hi
      cases hro : readOk fs readers i with
      | none =>
        rw [hro] at hi
        simp at hi
      | some b =>
        have := (readOk_some_opened (by rw [hst.len]; exact hlt) hro).1
        rw [this]
        rfl
    omega
  obtain ⟨ce, hce⟩ := ReconstructData_fails hr hfew
  have hget : st.Get rs name w fs =
      match errors_Join (rs.filterMap (readErr fs readers)) with
      | .err e => (w, .err e)
      | .panic => (w, .panic)
      | .nil => (w, .err (.failedToReconstruct
          (st.disks.filter fun d => (fs.node (shardPath d name)).isNone).length (k + n)
          (.codec ce))) := by
    rw [Get_unfold, ← hreaders, hpr]
    cases errors_Join (rs.filterMap (readErr fs readers)) with
    | nil =>
      simp only [hce, hst.len]
    | err e => rfl
    | panic => rfl
  refine ⟨?_, ?_, fun d hd e hopen hfail =>
    Get_read_error st rs (by rw [hst.len]; exact hrs) name w fs d hd e hopen hfail⟩
  · rw [hget]
    by_cases he : rs.filterMap (readErr fs readers) = []
    · rw [he]
      exact ⟨_, rfl⟩
    · rw [errors_Join_of_ne_nil he]
      exact ⟨_, rfl⟩
  · intro hok
    have herrs : rs.filterMap (readErr fs readers) = [] := by
      rw [List.filterMap_eq_nil_iff]
      intro i hi
      have hlt : i < k + n := List.mem_range.mp (hrs.mem_iff.mp hi)
      cases hre : readErr fs readers i with
      | none => rfl
      | some e =>
        obtain ⟨h1, h2⟩ := readErr_some_opened (by rw [hst.len]; exact hlt) hre
        obtain ⟨b, hb⟩ := hok _ (getD_mem_disks (by rw [hst.len]; exact hlt)) h1
        rw [hb] at h2
        simp at h2
    rw [hget, herrs]
    exact ⟨ce, rfl⟩

/-- C2 (witness): k = 2, n = 1, three targets holding the saved bytes 1 2 3, the shard
files of targets a and c then removed: Get writes nothing and returns the reconstruction
error wrapped with the counts 2 and 3. -/
theorem Get_too_many_missing_witness :
    ∃ ce, (demoStore 2 1 ["a", "b", "c"]).Get [0, 1, 2] "obj" [byte 7]
        (removeShards demoSaved "obj" ["mnt/a", "mnt/c"]) =
      ([byte 7], .err (.failedToReconstruct 2 (2 + 1) (.codec ce))) := by
  have hcount : ((demoStore 2 1 ["a", "b", "c"]).disks.filter fun d =>
      ((removeShards demoSaved "obj" ["mnt/a", "mnt/c"]).node (shardPath d "obj")).isNone).length
      = 2 := by decide
  have h := (Get_too_many_missing 2 1 (by decide) (by decide) (by decide)
    (demoStore 2 1 ["a", "b", "c"]) demoStore_exact [0, 1, 2] (by decide) "obj" [byte 7]
    (removeShards demoSaved "obj" ["mnt/a", "mnt/c"]) (by decide)).2.1 (by
      intro d hd hs
      have hdisks : (demoStore 2 1 ["a", "b", "c"]).disks = ["mnt/a", "mnt/b", "mnt/c"] := by
        decide
      rw [hdisks] at hd
      simp only [List.mem_cons, List.mem_singleton, List.not_mem_nil, or_false] at hd
      rcases hd with rfl | rfl | rfl
      · exact absurd hs (by decide)
      · exact ⟨[byte 3, byte 0], by decide⟩
      · exact absurd hs (by decide))
  rw [hcount] at h
  exact h

/-- C3: for k ≥ 1, n ≥ 1, k + n ≤ 256 and a base directory that exists and can be listed,
New leaves the file system as it found it; it returns an error, and no store, exactly
when the base directory has fewer than k + n child directories; and a store it returns
holds exactly the child directories, in listing order, as its targets (with k, n and the
encoder for k and n). -/
theorem New_validation (k n : Nat) (hk : 1 ≤ k) (hn : 1 ≤ n) (hkn : k + n ≤ 256)
    (baseDir : String) (fs : FS) (hdir : fs.node baseDir = some .dir) :
    (New k n baseDir fs).1 = fs ∧
    ((∃ e, (New k n baseDir fs).2 = .error e) ↔ (childDirs fs baseDir).length < k + n) ∧
    (∀ st, (New k n baseDir fs).2 = .ok st →
      st.disks = childDirs fs baseDir ∧ st.k = k ∧ st.n = n ∧
      reedsolomon.New k n = .ok st.encoder) := by
  obtain ⟨r, hr, hnew⟩ := New_eq hk hn hkn baseDir fs hdir
  rw [hnew]
  by_cases h0 : (childDirs fs baseDir).length = 0
  · rw [if_pos h0]
    exact ⟨rfl, ⟨fun _ => by omega, fun _ => ⟨_, rfl⟩⟩, fun st h => by simp at h⟩
  · rw [if_neg h0]
    by_cases hlt : (childDirs fs baseDir).length < k + n
    · rw [if_pos hlt]
      exact ⟨rfl, ⟨fun _ => hlt, fun _ => ⟨_, rfl⟩⟩, fun st h => by simp at h⟩
    · rw [if_neg hlt]
      refine ⟨rfl, ⟨fun h => by simp at h, fun h => absurd h hlt⟩, fun st h => ?_⟩
      simp only [Except.ok.injEq] at h
      rw [← h]
      exact ⟨rfl, rfl, rfl, hr⟩

/-- C3 (witness): k = 2, n = 1 over a base directory with three child directories. -/
theorem New_validation_witness :
    (New 2 1 "mnt" (demoFS ["a", "b", "c"])).2 =
      .ok (demoStore 2 1 ["a", "b", "c"]) ∧
    (demoStore 2 1 ["a", "b", "c"]).disks = ["mnt/a", "mnt/b", "mnt/c"] ∧
    ((∃ e, (New 2 1 "mnt" (demoFS ["a", "b", "c"])).2 = .error e) ↔
      (childDirs (demoFS ["a", "b", "c"]) "mnt").length < 2 + 1) :=
  ⟨by decide, by decide,
    (New_validation 2 1 (by decide) (by decide) (by decide) "mnt" (demoFS ["a", "b", "c"])
      (by decide)).2.1⟩

/-- C5: for k ≥ 1, n ≥ 1, k + n ≤ 256, a store over exactly k + n targets and a non-empty S
of length L, Split and then Encode succeed with a fragment set that Save hands unchanged
to parallelWrite (after opening the writers); it has exactly k + n fragments, each of
length ceil(L / k), and the first k concatenated are S followed by k * ceil(L / k) - L
zero bytes. -/
theorem Save_fragment_shape (k n : Nat) (hk : 1 ≤ k) (hn : 1 ≤ n) (hkn : k + n ≤ 256)
    (st : Store) (hst : st.Exact k n) (S : List Byte) (hS : S ≠ []) :
    ∃ sh enc, st.encoder.Split S = .ok sh ∧ st.encoder.Encode sh = .ok enc ∧
      (∀ sched name fs, st.Save sched name (.ok S) fs =
        match openWriters name st.disks fs [] with
        | (fs1, .error e) => (fs1, .err e)
        | (fs1, .ok writers) => parallelWrite sched writers enc fs1) ∧
      enc.length = k + n ∧ (∀ f ∈ enc, f.length = fragLen S.length k) ∧
      S.length ≤ k * fragLen S.length k ∧ k * fragLen S.length k < S.length + k ∧
      (enc.take k).flatten =
        S ++ List.replicate (k * fragLen S.length k - S.length) (byte 0) := by
  have hr := hst.isEncoder hk hn hkn
  obtain ⟨sh, enc, h1, h2, hcw, hflat⟩ := encode_spec hr hk hn hS
  exact ⟨sh, enc, h1, h2, fun sched name fs => Save_eq h1 h2 sched name fs, hcw.mat.1,
    hcw.mat.2, ceil_mul_ge_fragLen hk _, ceil_mul_lt hk _, hflat⟩

/-- The example store for k = 4 and n = 2 is a store over exactly six distinct targets. -/
theorem demoStore42_exact : (demoStore 4 2 ["a", "b", "c", "d", "e", "f"]).Exact 4 2 :=
  ⟨by decide, by decide, by decide, by decide, by decide⟩

/-- C5 (witness): k = 4, n = 2 and the 10 bytes HELLOWORLD give 6 fragments of 3 bytes. -/
theorem Save_fragment_shape_witness :
    ∃ sh enc, (demoStore 4 2 ["a", "b", "c", "d", "e", "f"]).encoder.Split helloWorld = .ok sh ∧
      (demoStore 4 2 ["a", "b", "c", "d", "e", "f"]).encoder.Encode sh = .ok enc ∧
      enc.length = 6 ∧ (∀ f ∈ enc, f.length = 3) ∧
      (enc.take 4).flatten = helloWorld ++ [byte 0, byte 0] := by
  obtain ⟨sh, enc, h1, h2, _, h4, h5, _, _, h8⟩ :=
    Save_fragment_shape 4 2 (by decide) (by decide) (by decide)
      (demoStore 4 2 ["a", "b", "c", "d", "e", "f"]) demoStore42_exact helloWorld (by decide)
  exact ⟨sh, enc, h1, h2, h4, h5, h8⟩

/-- C6 (the code at the failing input): k = 2, n = 1; after Save of the bytes 1 2 3 4 and
then Save of the bytes 9 8 under the same name, both returning nil, the shard file of the
first target holds 9 2: fragment 0 of the second Save, the single byte 9, followed by the
tail of the earlier shard. A following Get returns nil and writes 9 2 8 4. -/
theorem Save_shorter_keeps_tail :
    ((demoStore 2 1 ["a", "b", "c"]).Save [0, 1, 2] "obj" (.ok [byte 9, byte 8])
      ((demoStore 2 1 ["a", "b", "c"]).Save [0, 1, 2] "obj"
        (.ok [byte 1, byte 2, byte 3, byte 4]) (demoFS ["a", "b", "c"])).1).2 = .nil ∧
    (demoStore 2 1 ["a", "b", "c"]).encoder.Split [byte 9, byte 8] =
      .ok [[byte 9], [byte 8], [byte 0]] ∧
    ((demoStore 2 1 ["a", "b", "c"]).Save [0, 1, 2] "obj" (.ok [byte 9, byte 8])
      ((demoStore 2 1 ["a", "b", "c"]).Save [0, 1, 2] "obj"
        (.ok [byte 1, byte 2, byte 3, byte 4]) (demoFS ["a", "b", "c"])).1).1.node
        "mnt/a/obj/shard" = some (.file [byte 9, byte 2]) ∧
    (demoStore 2 1 ["a", "b", "c"]).Get [0, 1, 2] "obj" []
      ((demoStore 2 1 ["a", "b", "c"]).Save [0, 1, 2] "obj" (.ok [byte 9, byte 8])
        ((demoStore 2 1 ["a", "b", "c"]).Save [0, 1, 2] "obj"
          (.ok [byte 1, byte 2, byte 3, byte 4]) (demoFS ["a", "b", "c"])).1).1 =
      ([byte 9, byte 2, byte 8, byte 4], .nil) := by
  decide

/-- C7 (the code at the failing input): k = 2, n = 1 over a base directory with four child
directories. Save of the bytes 1 2 3 creates or opens the directory and shard file of all
four targets, and only three fragments exist. When the goroutines run in the order
0, 1, 2, 3, the targets a, b and c receive their write, target d receives none, and Save
ends in a run-time panic and returns nothing; when the goroutine of target d runs first,
no target receives a write. -/
theorem Save_extra_target_skips_write :
    (openWriters "obj" (demoStore 2 1 ["a", "b", "c", "d"]).disks
      (demoFS ["a", "b", "c", "d"]) []).2 =
      .ok [some "mnt/a/obj/shard", some "mnt/b/obj/shard", some "mnt/c/obj/shard",
        some "mnt/d/obj/shard"] ∧
    (((demoStore 2 1 ["a", "b", "c", "d"]).Save [0, 1, 2, 3] "obj"
      (.ok [byte 1, byte 2, byte 3]) (demoFS ["a", "b", "c", "d"])).1.writes.map
        fun p => p.1) = ["mnt/a/obj/shard", "mnt/b/obj/shard", "mnt/c/obj/shard"] ∧
    ((demoStore 2 1 ["a", "b", "c", "d"]).Save [0, 1, 2, 3] "obj"
      (.ok [byte 1, byte 2, byte 3]) (demoFS ["a", "b", "c", "d"])).2 = .panic ∧
    ((demoStore 2 1 ["a", "b", "c", "d"]).Save [3, 0, 1, 2] "obj"
      (.ok [byte 1, byte 2, byte 3]) (demoFS ["a", "b", "c", "d"])).1.writes = [] ∧
    ((demoStore 2 1 ["a", "b", "c", "d"]).Save [3, 0, 1, 2] "obj"
      (.ok [byte 1, byte 2, byte 3]) (demoFS ["a", "b", "c", "d"])).2 = .panic := by
  decide

/-- C8 (counterexample): k = 2, n = 1, three targets holding the saved bytes 1 2 3. When
the shard of target b opens but cannot be read, a single failing target, Get returns the
read error and writes nothing; when that shard is simply missing, Get returns nil and
writes 1 2 3 0. -/
theorem Get_read_failure_counterexample :
    (demoStore 2 1 ["a", "b", "c"]).Get [0, 1, 2] "obj" []
        { demoSaved with readFault := fun p => p = "mnt/b/obj/shard" } =
      ([], .err (.joined [.fault "mnt/b/obj/shard"])) ∧
    (demoStore 2 1 ["a", "b", "c"]).Get [0, 1, 2] "obj" []
        (removeShards demoSaved "obj" ["mnt/b"]) =
      ([byte 1, byte 2, byte 3, byte 0], .nil) := by
  decide

/-- C8 (amended): a read failure is not an absence. For every store, name, schedule of
the read goroutines and file-system state, if some target's shard file opens but its read
fails, Get writes nothing to w and returns the join of the read errors, that target's
among them and each the read error of a target whose shard file opened; the error is not
wrapped, and this holds however few targets fail. -/
theorem Get_read_failure_fatal (st : Store) (rs : List Nat)
    (hrs : rs.Perm (List.range st.disks.length)) (name : String) (w : List Byte) (fs : FS)
    (d : String) (hd : d ∈ st.disks) (e : IOError)
    (hopen : (fs.node (shardPath d name)).isSome = true)
    (hfail : io_ReadAll fs (shardPath d name) = .error e) :
    ∃ es, st.Get rs name w fs = (w, .err (.joined es)) ∧ e ∈ es ∧
      ∀ x ∈ es, ∃ t ∈ st.disks, (fs.node (shardPath t name)).isSome = true ∧
        io_ReadAll fs (shardPath t name) = .error x :=
  Get_read_error st rs hrs name w fs d hd e hopen hfail

/-- C8 (witness): the shard of target b is a directory: it opens and its read fails. -/
theorem Get_read_failure_fatal_witness :
    ∃ es, (demoStore 2 1 ["a", "b", "c"]).Get [1, 0, 2] "obj" [byte 7]
        (demoSaved.setNode "mnt/b/obj/shard" .dir) = ([byte 7], .err (.joined es)) ∧
      IOError.isDirectory "mnt/b/obj/shard" ∈ es := by
  obtain ⟨es, h1, h2, _⟩ := Get_read_failure_fatal (demoStore 2 1 ["a", "b", "c"]) [1, 0, 2]
    (by decide) "obj" [byte 7]
    (demoSaved.setNode "mnt/b/obj/shard" .dir)
    "mnt/b" (by decide) (.isDirectory "mnt/b/obj/shard") (by decide) (by decide)
  exact ⟨es, h1, h2⟩

/-- C9 (the code at the failing input): k = 2, n = 1 over a base directory with four child
directories: New returns a store with four targets, and Save of the bytes 1 2 3 ends in
the run-time panic of an index out of range, since only three fragments exist. -/
theorem Save_extra_target_panics :
    (New 2 1 "mnt" (demoFS ["a", "b", "c", "d"])).2 =
      .ok (demoStore 2 1 ["a", "b", "c", "d"]) ∧
    (demoStore 2 1 ["a", "b", "c", "d"]).disks.length = 4 ∧
    ((demoStore 2 1 ["a", "b", "c", "d"]).Save [0, 1, 2, 3] "obj"
      (.ok [byte 1, byte 2, byte 3]) (demoFS ["a", "b", "c", "d"])).2 = .panic := by
  decide

/-- C10 (the code at the failing input): k = 2, n = 1, three targets. After Save of the six
bytes 5 6 7 8 9 10 and then Save of the three bytes 1 2 3 under the same name, both
returning nil, and with no shard file missing, Get returns nil and writes the six bytes
1 2 7 3 0 10: not the k * ceil(L / k) = 4 bytes 1 2 3 0, since each shard file still ends
with the last byte of the earlier, longer fragment. -/
theorem Get_reads_stale_tail :
    ((demoStore 2 1 ["a", "b", "c"]).Save [0, 1, 2] "obj"
      (.ok [byte 5, byte 6, byte 7, byte 8, byte 9, byte 10]) (demoFS ["a", "b", "c"])).2 =
      .nil ∧
    ((demoStore 2 1 ["a", "b", "c"]).Save [0, 1, 2] "obj" (.ok [byte 1, byte 2, byte 3])
      ((demoStore 2 1 ["a", "b", "c"]).Save [0, 1, 2] "obj"
        (.ok [byte 5, byte 6, byte 7, byte 8, byte 9, byte 10])
        (demoFS ["a", "b", "c"])).1).2 = .nil ∧
    (demoStore 2 1 ["a", "b", "c"]).Get [0, 1, 2] "obj" []
      (removeShards ((demoStore 2 1 ["a", "b", "c"]).Save [0, 1, 2] "obj"
        (.ok [byte 1, byte 2, byte 3])
        ((demoStore 2 1 ["a", "b", "c"]).Save [0, 1, 2] "obj"
          (.ok [byte 5, byte 6, byte 7, byte 8, byte 9, byte 10])
          (demoFS ["a", "b", "c"])).1).1 "obj" []) =
      ([byte 1, byte 2, byte 7, byte 3, byte 0, byte 10], .nil) ∧
    2 * fragLen [byte 1, byte 2, byte 3].length 2 = 4 := by
  decide

end ErasureCoding
